import Mathlib

/-!
# Postman Collection validation and bundling

A shallow embedding of `lib/index.js` (the batch orchestrator
`instantiateAndInvoke` with `normalizeArgs`) and of `lib/debuffer.js`
(the script normalizer), with the properties of the specification
stated over it.
-/

namespace PostmanCollection

/-! ## Batch orchestrator (`lib/index.js`) -/

/-- The outcome of one per-source run `new Species()[method](collection, options)`:
the promise it returns fulfils with a document or rejects with an error. -/
inductive Outcome (D E : Type) where
  | success (doc : D)
  | failure (err : E)

/-- One element of the result array: a document, an error object stored as a
value, or `undefined` (what indexing past the end of an array gives). -/
inductive Item (D E : Type) where
  | doc (d : D)
  | error (e : E)
  | undefined

/-- The value a batch operation settles with: a single value, or an array. -/
inductive Result (D E : Type) where
  | single (x : Item D E)
  | array (xs : List (Item D E))

/-- How the promise returned by the batch operation settles. -/
inductive Settled (D E : Type) where
  | resolved (r : Result D E)
  | rejected (r : Result D E)

/-- The value carried by a settled batch, whether resolution or rejection. -/
def Settled.value {D E : Type} : Settled D E → Result D E
  | resolved r => r
  | rejected r => r

/-- Whether the batch operation failed (its promise rejected). -/
def Settled.failed {D E : Type} : Settled D E → Bool
  | resolved _ => false
  | rejected _ => true

/-- The `collections` argument: one source, or an array of sources. -/
inductive Sources (S : Type) where
  | single (s : S)
  | array (xs : List S)

/-- An options object: the truthiness of its `bail` property, and whatever
other properties it carries (they are handed on to the resolver). -/
structure Options where
  bail : Bool
  other : List (String × String)

/-- The second positional argument of the public operations. -/
inductive OptionsArg (F : Type) where
  | undefined
  | null
  | func (f : F)
  | object (o : Options)

/-- The record `normalizeArgs` returns. -/
structure Args (S F : Type) where
  collections : List S
  options : Options
  callback : Option F
  multiple : Bool

/-- The function `normalizeArgs(args)`, lines 126-155 of `lib/index.js`. -/
def normalizeArgs {S F : Type} (collections : Sources S) (options : OptionsArg F)
    (callback : Option F) : Args S F :=
  -- Normalize the "collections" arg as an array
  let cm : List S × Bool :=
    match collections with
    | Sources.array xs => (xs, true)
    | Sources.single s => ([s], false)
  -- Shift the "callback" arg if "options" is a function
  let oc : OptionsArg F × Option F :=
    match options with
    | OptionsArg.func f => (OptionsArg.undefined, some f)
    | o => (o, callback)
  -- Populate default options
  let opts : Options :=
    match oc.1 with
    | OptionsArg.object o => o
    | _ => { bail := false, other := [] }
  { collections := cm.1, options := opts, callback := oc.2, multiple := cm.2 }

/-- The state of the promise made by `Promise.all`. -/
inductive AllState (D E : Type) where
  | pending (values : List (Option (Item D E)))
  | fulfilled (values : List (Item D E))
  | rejected (reason : E)

/-- Modelled from the spec: the aggregate promise of `Promise.all` (`./promise` is not
among the sources). It stays pending until every slot has been filled, then
fulfils with the values in index order. -/
def AllState.ofValues {D E : Type} (values : List (Option (Item D E))) : AllState D E :=
  if values.all Option.isSome then AllState.fulfilled (values.filterMap id)
  else AllState.pending values

/-- Modelled from the spec: element `i` of `Promise.all` fulfils with `x`. A promise
that has settled never changes again. -/
def AllState.resolveElement {D E : Type} (st : AllState D E) (i : Nat) (x : Item D E) :
    AllState D E :=
  match st with
  | AllState.pending values => AllState.ofValues (values.set i (some x))
  | s => s

/-- Modelled from the spec: one element of `Promise.all` rejects with `e`: the
aggregate rejects with that reason unless it has already settled. -/
def AllState.reject {D E : Type} (st : AllState D E) (e : E) : AllState D E :=
  match st with
  | AllState.pending _ => AllState.rejected e
  | s => s

/-- The mutable state of one call of `instantiateAndInvoke`: the `error` flag of
line 80 and the aggregate promise of line 83. -/
structure BatchState (D E : Type) where
  error : Bool
  all : AllState D E

/-- The state right after line 97: no run has settled yet. -/
def BatchState.init {D E : Type} (n : Nat) : BatchState D E :=
  { error := false, all := AllState.ofValues (List.replicate n none) }

/-- Run `i` settles with outcome `o` (lines 85-96): a success fills slot `i`; a
failure goes through the `.catch` handler, which re-rejects under `bail` and
otherwise sets the flag and fulfils with the error object. -/
def BatchState.settleRun {D E : Type} (bail : Bool) (st : BatchState D E) (i : Nat)
    (o : Outcome D E) : BatchState D E :=
  match o with
  | Outcome.success d => { st with all := st.all.resolveElement i (Item.doc d) }
  | Outcome.failure e =>
    if bail then
      -- Bail as soon as the first error occurs
      { st with all := st.all.reject e }
    else
      -- Resolve with the Error object, so other promises keep processing
      { error := true, all := st.all.resolveElement i (Item.error e) }

/-- The outcomes of the runs started by `args.collections.map(...)`: run `i` is
given source `i` and the normalized options. -/
def runOutcomes {S D E : Type} (run : Nat → S → Options → Outcome D E)
    (collections : List S) (options : Options) : List (Outcome D E) :=
  collections.enum.map fun p => run p.1 p.2 options

/-- The runs settle in the order `sched` (a list of run indices). -/
def BatchState.settleAll {D E : Type} (bail : Bool) (outcomes : List (Outcome D E))
    (sched : List Nat) (st : BatchState D E) : BatchState D E :=
  sched.foldl
    (fun s i =>
      match outcomes[i]? with
      | some o => s.settleRun bail i o
      | none => s)
    st

/-- The `.then` / `.catch` handlers of lines 98-117, applied to the aggregate
promise once it has settled; `none` while it is still pending. -/
def BatchState.completion {D E : Type} (multiple : Bool) (st : BatchState D E) :
    Option (Settled D E) :=
  match st.all with
  | AllState.pending _ => none
  | AllState.fulfilled results =>
    let results : Result D E :=
      if !multiple then Result.single (results.getD 0 Item.undefined)
      else Result.array results
    if st.error then some (Settled.rejected results)
    else some (Settled.resolved results)
  | AllState.rejected err => some (Settled.rejected (Result.single (Item.error err)))

/-- The function `instantiateAndInvoke(Species, method, args)`, lines 79-118 of `lib/index.js`.
`run` is the method invoked on a fresh instance, `sched` the order in which the
runs settle. The result is how the returned promise settles, `none` if it is
still pending after those events. -/
def instantiateAndInvoke {S F D E : Type} (run : Nat → S → Options → Outcome D E)
    (collections : Sources S) (options : OptionsArg F) (callback : Option F)
    (sched : List Nat) : Option (Settled D E) :=
  let args := normalizeArgs collections options callback
  let outcomes := runOutcomes run args.collections args.options
  let st := (BatchState.init outcomes.length).settleAll args.options.bail outcomes sched
  st.completion args.multiple

/-- The result element that a run's outcome stands for. -/
def Outcome.toItem {D E : Type} : Outcome D E → Item D E
  | success d => Item.doc d
  | failure e => Item.error e

/-- Whether a run failed. -/
def Outcome.isFailure {D E : Type} : Outcome D E → Bool
  | success _ => false
  | failure _ => true


/-! ## Script normalizer (`lib/debuffer.js`) -/

/-- A value of a resolved document: what the resolver hands to `debuffer`, as a
tree. A `buffer` is a Node.js `Buffer`, given by its bytes; a number is given
as an integer, the normalizer only ever tests one for truthiness. -/
inductive JVal where
  | undefined
  | null
  | bool (b : Bool)
  | num (n : Int)
  | str (s : String)
  | buffer (bytes : List Nat)
  | arr (xs : List JVal)
  | obj (kvs : List (String × JVal))

/-- The error a JavaScript property access on `null` or `undefined` throws. -/
inductive JsError where
  | typeError

namespace JVal

/-- JavaScript truthiness, as tested by `if (item.items)`. -/
def truthy : JVal → Bool
  | undefined => false
  | null => false
  | bool b => b
  | num n => n != 0
  | str s => s != ""
  | _ => true

/-- The test `Array.isArray(v)`. -/
def isArray : JVal → Bool
  | arr _ => true
  | _ => false

/-- The value is `null` or `undefined`: reading a property of it throws. -/
def isNullish : JVal → Bool
  | undefined => true
  | null => true
  | _ => false

/-- The first entry stored under key `k`. -/
def lookupKey (k : String) : List (String × JVal) → Option JVal
  | [] => none
  | (k2, v) :: rest => if k2 = k then some v else lookupKey k rest

/-- Property read `v.k` for one of the names the normalizer reads (`scripts`,
`requests`, `tests`, `examples`, `items`, `events`): `undefined` when the
property is missing, and on every value that is not a plain object. -/
def get : JVal → String → JVal
  | obj kvs, k => (lookupKey k kvs).getD undefined
  | _, _ => undefined

/-- The entries of an object after the value stored under `k` has been mutated
in place by `f`. A missing key stays missing. -/
def modifyKey (k : String) (f : JVal → JVal) : List (String × JVal) → List (String × JVal)
  | [] => []
  | (k2, v) :: rest => if k2 = k then (k2, f v) :: rest else (k2, v) :: modifyKey k f rest

/-- The entries of an object after the value stored under `k` has become `v`. -/
def replaceKey (k : String) (v : JVal) (kvs : List (String × JVal)) : List (String × JVal) :=
  modifyKey k (fun _ => v) kvs

end JVal

open JVal

/-- The body of the `forEach` callback of `debufferScripts` (lines 47-50), on one
entry: a `Buffer` becomes `script.toString()`, anything else stays. `toStr` is
`Buffer.prototype.toString`, the UTF-8 decoding. -/
def debufferEntry (toStr : List Nat → String) : JVal → JVal
  | buffer b => str (toStr b)
  | v => v

/-- The function `debufferScripts(scripts)`, lines 44-53 of `lib/debuffer.js`: for an object
(or an array, whose keys are its indices) every entry is visited; `undefined`,
`null` and primitives fail the guard; a `Buffer` passes the guard but its
entries are numbers. -/
def debufferScripts (toStr : List Nat → String) : JVal → JVal
  | obj kvs => obj (kvs.map fun kv => (kv.1, debufferEntry toStr kv.2))
  | arr xs => arr (xs.map (debufferEntry toStr))
  | v => v

mutual
/-- The body of `debufferFolder` on the entries of an object: the value stored
under `items` is looked for, and when it is an array each item is crawled. -/
def debufferFolderItems (toStr : List Nat → String) :
    List (String × JVal) → Except JsError (List (String × JVal))
  | [] => pure []
  | (k, v) :: rest =>
    if k = "items" then
      match v with
      | arr xs => (debufferItems toStr xs).map fun xs2 => (k, arr xs2) :: rest
      | _ => pure ((k, v) :: rest)
    else (debufferFolderItems toStr rest).map fun r => (k, v) :: r
/-- The loop `folder.items.forEach(...)`, lines 27-35: the items in order, stopping
at the first one that throws. -/
def debufferItems (toStr : List Nat → String) : List JVal → Except JsError (List JVal)
  | [] => pure []
  | x :: xs =>
    match debufferItem toStr x with
    | Except.error e => Except.error e
    | Except.ok x2 =>
      match debufferItems toStr xs with
      | Except.error e => Except.error e
      | Except.ok xs2 => pure (x2 :: xs2)
/-- The callback of that loop on one item, lines 28-34. Reading `item.items` throws
on `null` and `undefined`. If `item.items` is truthy the item goes to
`debufferFolder`, else `debufferScripts(item.events)` runs. -/
def debufferItem (toStr : List Nat → String) : JVal → Except JsError JVal
  | undefined => throw JsError.typeError
  | null => throw JsError.typeError
  | obj kvs =>
    if truthy (get (obj kvs) "items") then
      -- We found a sub-folder
      (debufferFolderItems toStr kvs).map obj
    else
      pure (obj (replaceKey "events" (debufferScripts toStr (get (obj kvs) "events")) kvs))
  | v => pure v
end

/-- The function `debufferFolder(folder)`, lines 24-37 of `lib/debuffer.js`. The guard of
line 25 lets an object through when its `items` is an array; arrays and
`Buffer`s are objects without `items`, everything else fails `typeof`. -/
def debufferFolder (toStr : List Nat → String) : JVal → Except JsError JVal
  | obj kvs => (debufferFolderItems toStr kvs).map obj
  | v => pure v

/-- The function `debuffer(collection)`, lines 12-17 of `lib/debuffer.js`. The document is
mutated in place and nothing is returned: the result here is the document as it
is afterwards, or the error thrown. -/
def debuffer (toStr : List Nat → String) : JVal → Except JsError JVal
  | undefined => throw JsError.typeError
  | null => throw JsError.typeError
  | obj kvs =>
    let scripts := debufferScripts toStr (get (obj kvs) "scripts")
    match debufferFolder toStr (get (obj kvs) "requests") with
    | Except.error e => Except.error e
    | Except.ok requests =>
      match debufferFolder toStr (get (obj kvs) "tests") with
      | Except.error e => Except.error e
      | Except.ok tests =>
        match debufferFolder toStr (get (obj kvs) "examples") with
        | Except.error e => Except.error e
        | Except.ok examples =>
          pure (obj (replaceKey "examples" examples (replaceKey "tests" tests
            (replaceKey "requests" requests (replaceKey "scripts" scripts kvs)))))
  | v => pure v

/-! ### Addressing values inside a document -/

/-- One step into a value: an object key or an array index. -/
inductive Step where
  | key (k : String)
  | idx (i : Nat)

/-- The child of a value one step down, if there is one. -/
def JVal.child : JVal → Step → Option JVal
  | obj kvs, Step.key k => lookupKey k kvs
  | arr xs, Step.idx i => xs[i]?
  | _, _ => none

/-- The value found by following a path of steps. -/
def JVal.valueAt (v : JVal) : List Step → Option JVal
  | [] => some v
  | s :: p =>
    match v.child s with
    | some c => c.valueAt p
    | none => none

/-- What can be seen of a value without looking into its children: a primitive
or binary payload itself, the length of an array, the keys of an object. -/
inductive Shape where
  | atom (v : JVal)
  | array (n : Nat)
  | object (keys : List String)

/-- The shape of a value. -/
def JVal.shape : JVal → Shape
  | arr xs => Shape.array xs.length
  | obj kvs => Shape.object (kvs.map Prod.fst)
  | v => Shape.atom v

/-- The path is `[k, e]`: a direct entry `e` of the map stored under key `k`. -/
def isEntryOf (k : String) : List Step → Bool
  | [Step.key k2, _] => k2 == k
  | _ => false

/-- The node is a leaf the way the crawl of `debufferFolder` decides it
(line 28): its `items` is falsy. -/
def codeLeaf (x : JVal) : Bool := !truthy (get x "items")

/-- The node is a leaf the way the specification words it: its child-items
sequence is not present as an array. -/
def specLeaf (x : JVal) : Bool := !isArray (get x "items")

/-- Below the folder `v`, the path leads through `items` arrays, from folder to
folder, to a direct entry of the `events` map of a leaf. -/
def scriptPathIn (leaf : JVal → Bool) (v : JVal) : List Step → Bool
  | Step.key k :: Step.idx i :: q =>
    k == "items" &&
      match get v "items" with
      | arr xs =>
        match xs[i]? with
        | some x => if leaf x then isEntryOf "events" q else scriptPathIn leaf x q
        | none => false
      | _ => false
  | _ => false

/-- The path addresses a script location of the document `d`: a direct entry of
the top-level `scripts` map, or a direct entry of the script map of a leaf in
the `requests`, `tests` or `examples` tree. -/
def scriptLocation (leaf : JVal → Bool) (d : JVal) : List Step → Bool
  | Step.key k :: q =>
    if k = "scripts" then q.length == 1
    else if k = "requests" ∨ k = "tests" ∨ k = "examples" then scriptPathIn leaf (get d k) q
    else false
  | _ => false

/-- What the specification says happens to a leaf: its own script map is
normalized, and nothing else. -/
def normalizeAsLeaf (toStr : List Nat → String) : JVal → JVal
  | obj kvs => obj (replaceKey "events" (debufferScripts toStr (get (obj kvs) "events")) kvs)
  | v => v

mutual
/-- No item that the crawl of a folder with these entries reaches is `null` or
`undefined`. -/
def traversableEntries : List (String × JVal) → Bool
  | [] => true
  | (k, v) :: rest =>
    if k = "items" then
      match v with
      | arr xs => traversableItems xs
      | _ => true
    else traversableEntries rest
/-- None of these items, and no item the crawl reaches below them, is `null` or
`undefined`. -/
def traversableItems : List JVal → Bool
  | [] => true
  | x :: xs => traversableItem x && traversableItems xs
/-- The item is neither `null` nor `undefined`, and neither is any item the crawl
reaches below it. -/
def traversableItem : JVal → Bool
  | undefined => false
  | null => false
  | obj kvs => if truthy (get (obj kvs) "items") then traversableEntries kvs else true
  | _ => true
end

/-- No item that `debufferFolder` reaches from this value is `null` or
`undefined`. An absent folder has no item at all. -/
def traversable : JVal → Bool
  | obj kvs => traversableEntries kvs
  | _ => true

/-- The document `v2` is `v` with the binary payloads at the paths selected by
`loc` decoded to text and nothing else touched: at every path both have a value
or neither has, and the two values have the same shape once the entry at a
selected path is decoded. -/
def Pathwise (toStr : List Nat → String) (loc : List Step → Bool) (v v2 : JVal) : Prop :=
  ∀ p : List Step,
    (v2.valueAt p).map JVal.shape
      = (v.valueAt p).map fun w => (if loc p then debufferEntry toStr w else w).shape

/-- UTF-8 decoding of a payload of one-byte code points, for concrete examples. -/
def asciiToString (bytes : List Nat) : String :=
  String.mk (bytes.map Char.ofNat)

/-- Example document: the `tests` folder holds one node whose `items` is the number 1
and whose script map has a binary entry. -/
def docWithNumericItems : JVal :=
  obj [("tests", obj [("items", arr
    [obj [("items", num 1), ("events", obj [("test", buffer [97])])]])])]

/-- Example node: `items` is a non-empty string and the script map has a binary
entry. -/
def nodeWithStringItems : JVal :=
  obj [("items", str "x"), ("events", obj [("test", buffer [97])])]

/-- Example document: the `requests` folder holds the single item `null`, and
there is no script anywhere. -/
def docWithNullItem : JVal :=
  obj [("requests", obj [("items", arr [null])])]

/-- The slots of the aggregate promise once the runs in `P` have fulfilled. -/
def slots {D E : Type} (outcomes : List (Outcome D E)) (P : List Nat) :
    List (Option (Item D E)) :=
  (List.range outcomes.length).map fun i =>
    if i ∈ P then (outcomes[i]?).map Outcome.toItem else none

/-- Whether run `i` exists and failed. -/
def failsAt {D E : Type} (outcomes : List (Outcome D E)) (i : Nat) : Bool :=
  match outcomes[i]? with
  | some o => o.isFailure
  | none => false

/-! ## Schema validator (`lib/validate-schema.js`) -/

/-- One diagnostic of the validation engine: its message, its path as an ordered
list of segments (`reportPathAsArray`), and its nested diagnostics when the
property `inner` is present. -/
inductive ZError where
  | mk (message : String) (path : List String) (inner : Option (List ZError))

/-- The property `error.message`. -/
def ZError.message : ZError → String
  | ZError.mk m _ _ => m

/-- The property `error.path`. -/
def ZError.path : ZError → List String
  | ZError.mk _ p _ => p

/-- The property `error.inner`, `none` when it is absent. -/
def ZError.inner : ZError → Option (List ZError)
  | ZError.mk _ _ i => i

/-- The expression `indent || '  '` of line 49: an absent or empty indent becomes two
spaces. -/
def indentOrDefault (indent : Option String) : String :=
  match indent with
  | some s => if s = "" then "  " else s
  | none => "  "

mutual
/-- The function `formatZSchemaError(errors, indent)`, lines 48-58 of
`lib/validate-schema.js`: the text of each diagnostic in turn is appended to
the message. -/
def formatZSchemaError (errors : List ZError) (indent : Option String) : String :=
  match errors with
  | [] => ""
  | error :: rest =>
    formatZSchemaErrorEntry (indentOrDefault indent) error ++ formatZSchemaError rest indent
/-- The body of the `forEach` callback, lines 52-55: the line of the diagnostic,
made by `util.format('%s%s at #/%s\n', ...)`, then the text of its inner
diagnostics with two more spaces of indent. -/
def formatZSchemaErrorEntry (indent : String) : ZError → String
  | ZError.mk message path inner =>
    (indent ++ message ++ " at #/" ++ "/".intercalate path ++ "\n")
      ++ formatZSchemaErrorInner indent inner
/-- The statement `if (error.inner) ...` of lines 53-55. -/
def formatZSchemaErrorInner (indent : String) : Option (List ZError) → String
  | some inner => formatZSchemaError inner (some (indent ++ "  "))
  | none => ""
end

mutual
/-- The diagnostics of a tree in depth-first pre-order, each with its depth: a
diagnostic comes first, then its inner diagnostics, then its next sibling. -/
def preorder (depth : Nat) : List ZError → List (Nat × ZError)
  | [] => []
  | error :: rest => preorderEntry depth error ++ preorder depth rest
/-- One diagnostic followed by its inner diagnostics, one level deeper. -/
def preorderEntry (depth : Nat) : ZError → List (Nat × ZError)
  | ZError.mk message path inner =>
    (depth, ZError.mk message path inner) :: preorderInner depth inner
/-- The inner diagnostics of a diagnostic at depth `depth`, none when `inner` is
absent. -/
def preorderInner (depth : Nat) : Option (List ZError) → List (Nat × ZError)
  | some inner => preorder (depth + 1) inner
  | none => []
end

/-- The line the specification gives for a diagnostic at depth `depth`:
`2 * (depth + 1)` spaces, the message, ` at #/`, the path segments joined by
`/`, and a newline. -/
def renderLine (depth : Nat) (error : ZError) : String :=
  String.mk (List.replicate (2 * (depth + 1)) ' ') ++ error.message ++ " at #/"
    ++ "/".intercalate error.path ++ "\n"

/-- The concatenation of lines of text, in order. -/
def concatLines : List String → String
  | [] => ""
  | l :: ls => l ++ concatLines ls

/-- The rendering the specification describes: one line per diagnostic, in
depth-first pre-order. -/
def renderDiagnostics (errors : List ZError) : String :=
  concatLines ((preorder 0 errors).map fun p => renderLine p.1 p.2)

/-- The error object `ZSchema.getLastError()` returns: its own message and the
diagnostic tree `details`. -/
structure ZSchemaLastError where
  message : String
  details : List ZError

/-- The validation engine, an external collaborator: `validate` is
`ZSchema.validate(collection, postmanSchema)` and `getLastError` is what
`ZSchema.getLastError()` returns after that call. -/
structure ZSchemaEngine where
  validate : JVal → Bool
  getLastError : JVal → ZSchemaLastError

/-- The error that `ono.syntax` makes: the error it wraps, the property `details`
it has been given, and its own `message`. -/
structure OnoSyntaxError where
  inner : ZSchemaLastError
  details : List ZError
  message : String

/-- The external `ono.syntax(err, {details: details}, message)`, as far as the
error it makes is read here: the new error wraps `err` and carries `details`,
and its message is the text `message`, then (when that text is not empty) a
space and a newline, then the message of the wrapped error. -/
def onoSyntax (err : ZSchemaLastError) (details : List ZError) (message : String) :
    OnoSyntaxError :=
  { inner := err,
    details := details,
    message := (if message = "" then "" else message ++ " \n") ++ err.message }

/-- The function `validateSchema(collection)`, lines 17-26 of
`lib/validate-schema.js`: nothing is returned, and an error is thrown when the
engine reports the collection invalid. -/
def validateSchema (engine : ZSchemaEngine) (collection : JVal) : Except OnoSyntaxError Unit :=
  -- Validate the collection against the Postman Collection schema
  let isValid := engine.validate collection
  if !isValid then
    let err := engine.getLastError collection
    let message := "Postman Collection schema validation failed. \n"
      ++ formatZSchemaError err.details none
    throw (onoSyntax err err.details message)
  else
    pure ()

/-- An engine that reports every document invalid, with the one diagnostic
`Missing required property: name` at `#/info`. -/
def rejectingEngine : ZSchemaEngine :=
  { validate := fun _ => false,
    getLastError := fun _ =>
      { message := "JSON_OBJECT_VALIDATION_FAILED",
        details := [ZError.mk "Missing required property: name" ["info"] none] } }

/-! ## Collection processor (`lib/index.js`) -/

/-- What a single-document operation can fail with: the rejection of the external
resolver, an error thrown by `debuffer`, or the error thrown by
`validateSchema`. -/
inductive PipelineError (E : Type) where
  | resolver (err : E)
  | thrown (err : JsError)
  | schema (err : OnoSyntaxError)

/-- The method `PostmanCollection.prototype.validate(collection, options, callback)`,
lines 56-68 of `lib/index.js`. `dereference` is the inherited
`this.dereference`, the external resolver; it is handed `args.collections[0]`
(`none` is `undefined`) and the normalized options. The result is how the
returned promise settles, or what the callback is told. -/
def prototypeValidate {S F E : Type} (dereference : Option S → Options → Except E JVal)
    (toStr : List Nat → String) (engine : ZSchemaEngine)
    (collection : Sources S) (options : OptionsArg F) (callback : Option F) :
    Outcome JVal (PipelineError E) :=
  let args := normalizeArgs collection options callback
  match dereference args.collections[0]? args.options with
  | Except.error err => Outcome.failure (PipelineError.resolver err)
  | Except.ok collection =>
    match debuffer toStr collection with
    | Except.error err => Outcome.failure (PipelineError.thrown err)
    | Except.ok collection =>
      match validateSchema engine collection with
      | Except.error err => Outcome.failure (PipelineError.schema err)
      | Except.ok _ => Outcome.success collection

/-- The names under which `instantiateAndInvoke` looks a method up. -/
inductive Method where
  | validate
  | bundle

/-- The expression `new Species()[method](collection, args.options)` of line 85.
`validate` is the method defined in `lib/index.js`. No `bundle` is defined
there: `util.inherits(PostmanCollection, $RefParser)` makes `bundle` the method
of the external resolver, `refParserBundle`, whose result is passed on as it
is. -/
def invokeMethod {S E : Type} (dereference refParserBundle : Option S → Options → Except E JVal)
    (toStr : List Nat → String) (engine : ZSchemaEngine) (method : Method)
    (collection : S) (options : Options) : Outcome JVal (PipelineError E) :=
  match method with
  | Method.validate =>
    prototypeValidate dereference toStr engine (Sources.single collection)
      (OptionsArg.object options : OptionsArg Unit) none
  | Method.bundle =>
    match refParserBundle (some collection) options with
    | Except.error err => Outcome.failure (PipelineError.resolver err)
    | Except.ok bundled => Outcome.success bundled

/-- The functions `PostmanCollection.validate` and `PostmanCollection.bundle`,
lines 32-46 of `lib/index.js`: `instantiateAndInvoke(this, method, arguments)`. -/
def staticInvoke {S F E : Type} (dereference refParserBundle : Option S → Options → Except E JVal)
    (toStr : List Nat → String) (engine : ZSchemaEngine) (method : Method)
    (collections : Sources S) (options : OptionsArg F) (callback : Option F)
    (sched : List Nat) : Option (Settled JVal (PipelineError E)) :=
  instantiateAndInvoke
    (fun _ collection opts =>
      invokeMethod dereference refParserBundle toStr engine method collection opts)
    collections options callback sched

/-- An engine that reports every document valid. -/
def alwaysValid : ZSchemaEngine :=
  { validate := fun _ => true,
    getLastError := fun _ => { message := "", details := [] } }

/-- Example document: one top-level script, still a binary payload. -/
def docWithBinaryScript : JVal :=
  obj [("scripts", obj [("test", buffer [97])])]

/-! ## Command line (`bin/postman-collection.js`) -/

/-- The exit code `E_NO_ARGS`. -/
def E_NO_ARGS : Nat := 1

/-- The exit code `E_NO_FILES`. -/
def E_NO_FILES : Nat := 2

/-- The exit code `E_INVALID`. -/
def E_INVALID : Nat := 3

/-- The exit code `E_OTHER`. -/
def E_OTHER : Nat := 4

/-- The value the argument parser gives an option that takes an optional
argument, such as `--json [n]`: `undefined` when the option is absent, `true`
when it is a bare flag, and the text of the argument otherwise. -/
inductive CliValue where
  | absent
  | flag
  | value (text : String)

/-- JavaScript truthiness of an option value. -/
def CliValue.truthy : CliValue → Bool
  | absent => false
  | flag => true
  | value text => text != ""

/-- The expression `a || b` on two option values. -/
def CliValue.or (a b : CliValue) : CliValue :=
  if a.truthy then a else b

/-- The options object of the `bundle` command, as far as it is read: `out` is
`undefined` or the path given. -/
structure CliOptions where
  out : Option String
  json : CliValue
  yaml : CliValue
  bail : Bool
  validate : Bool

/-- White space in the sense of `parseInt`: the characters it skips at the start. -/
def isStrWhiteSpace (c : Char) : Bool :=
  c.toNat = 0x20 || c.toNat = 0x09 || c.toNat = 0x0A || c.toNat = 0x0B || c.toNat = 0x0C
    || c.toNat = 0x0D || c.toNat = 0xA0 || c.toNat = 0x1680
    || (0x2000 ≤ c.toNat && c.toNat ≤ 0x200A)
    || c.toNat = 0x2028 || c.toNat = 0x2029 || c.toNat = 0x202F || c.toNat = 0x205F
    || c.toNat = 0x3000 || c.toNat = 0xFEFF

/-- The value of a character as a digit, for radices up to 36. -/
def digitValue (c : Char) : Option Nat :=
  if '0'.toNat ≤ c.toNat ∧ c.toNat ≤ '9'.toNat then some (c.toNat - '0'.toNat)
  else if 'a'.toNat ≤ c.toNat ∧ c.toNat ≤ 'z'.toNat then some (c.toNat - 'a'.toNat + 10)
  else if 'A'.toNat ≤ c.toNat ∧ c.toNat ≤ 'Z'.toNat then some (c.toNat - 'A'.toNat + 10)
  else none

/-- The digits of the longest start of the text that is a numeral in the radix. -/
def leadingDigits (radix : Nat) : List Char → List Nat
  | [] => []
  | c :: cs =>
    match digitValue c with
    | some d => if d < radix then d :: leadingDigits radix cs else []
    | none => []

/-- The number written by a list of digits, `none` (that is `NaN`) for no digit. -/
def digitsToNat (radix : Nat) (digits : List Nat) : Option Nat :=
  if digits = [] then none else some (digits.foldl (fun acc d => acc * radix + d) 0)

/-- The unsigned part of `parseInt`: a `0x` or `0X` start selects radix 16, else the
radix is 10. -/
def parseUnsigned : List Char → Option Nat
  | '0' :: 'x' :: cs => digitsToNat 16 (leadingDigits 16 cs)
  | '0' :: 'X' :: cs => digitsToNat 16 (leadingDigits 16 cs)
  | cs => digitsToNat 10 (leadingDigits 10 cs)

/-- The built-in `parseInt(text)` on a string, `none` for `NaN`: leading white
space is skipped, a sign is read, and the longest numeral that follows is the
value. -/
def parseIntText (text : String) : Option Int :=
  match text.data.dropWhile isStrWhiteSpace with
  | '-' :: cs => (parseUnsigned cs).map fun n => -(n : Int)
  | '+' :: cs => (parseUnsigned cs).map fun n => (n : Int)
  | cs => (parseUnsigned cs).map fun n => (n : Int)

/-- The built-in `parseInt` on an option value: `undefined` and `true` are first
turned into the texts `undefined` and `true`, which start with no digit. -/
def parseInt : CliValue → Option Int
  | CliValue.absent => none
  | CliValue.flag => none
  | CliValue.value text => parseIntText text

/-- The expression `parseInt(options.json || options.yaml) || 2` of line 161: `NaN`
and `0` are falsy. -/
def serializeIndent (options : CliOptions) : Int :=
  match parseInt (options.json.or options.yaml) with
  | some n => if n = 0 then 2 else n
  | none => 2

/-- The external serializers: `json obj indent` is `JSON.stringify(obj, null,
indent)` and `yaml obj indent` is `YAML.stringify(obj, null, indent)`. Either
may throw. -/
structure Stringifiers (X Err : Type) where
  json : X → Int → Except Err String
  yaml : X → Int → Except Err String

/-- The error made by `ono(err, message)`, given by the two arguments of the call. -/
structure OnoError (Err : Type) where
  inner : Err
  message : String

/-- The function `serialize(obj, options)`, lines 158-167 of
`bin/postman-collection.js`. -/
def serialize {X Err : Type} (lib : Stringifiers X Err) (toSerialize : X)
    (options : CliOptions) : Except (OnoError Err) String :=
  let yaml := options.yaml.truthy
  let indent := serializeIndent options
  match (if yaml then lib.yaml toSerialize indent else lib.json toSerialize indent) with
  | Except.ok text => Except.ok text
  | Except.error err =>
    Except.error { inner := err, message := "An error occurred while serializing the results" }

/-! ### The built-in `path` module, POSIX flavour -/

/-- The text split at every `/`, as `path.split('/')` does. -/
def splitSlash : List Char → List (List Char)
  | [] => [[]]
  | c :: cs =>
    if c = '/' then [] :: splitSlash cs
    else
      match splitSlash cs with
      | segment :: rest => (c :: segment) :: rest
      | [] => [[c]]

/-- The segments joined with `/`. -/
def joinSlash : List (List Char) → List Char
  | [] => []
  | [segment] => segment
  | segment :: rest => segment ++ '/' :: joinSlash rest

/-- The normalization of the segments of a path: empty segments and `.` are
dropped, and `..` removes the segment before it, or stays when there is none to
remove and the path is relative. `done` holds the segments kept so far, last
one first. -/
def normalizeSegments (allowAboveRoot : Bool) : List (List Char) → List (List Char) →
    List (List Char)
  | done, [] => done.reverse
  | done, segment :: rest =>
    if segment = [] ∨ segment = ['.'] then normalizeSegments allowAboveRoot done rest
    else if segment = ['.', '.'] then
      match done with
      | last :: before =>
        if last = ['.', '.'] then
          if allowAboveRoot then normalizeSegments allowAboveRoot (segment :: done) rest
          else normalizeSegments allowAboveRoot done rest
        else normalizeSegments allowAboveRoot before rest
      | [] =>
        if allowAboveRoot then normalizeSegments allowAboveRoot (segment :: done) rest
        else normalizeSegments allowAboveRoot done rest
    else normalizeSegments allowAboveRoot (segment :: done) rest

/-- The built-in `path.normalize(path)`. -/
def pathNormalize (path : List Char) : List Char :=
  if path = [] then ['.']
  else
    let isAbsolute := path.head? = some '/'
    let trailingSeparator := path.getLast? = some '/'
    let res := joinSlash (normalizeSegments (!isAbsolute) [] (splitSlash path))
    if res = [] then
      if isAbsolute then ['/'] else if trailingSeparator then ['.', '/'] else ['.']
    else
      let res := if trailingSeparator then res ++ ['/'] else res
      if isAbsolute then '/' :: res else res

/-- The built-in `path.join(a, b)`: the non-empty arguments joined with `/`, then
normalized. -/
def pathJoin (a b : String) : String :=
  let parts := [a.data, b.data].filter fun part => part ≠ []
  if parts = [] then "." else String.mk (pathNormalize (joinSlash parts))

/-- The built-in `path.extname(path)`: from the last `.` of the last segment to its
end (trailing slashes apart); empty when there is no `.`, when the only `.`
starts the segment, and when the segment is `..`. -/
def pathExtname (path : String) : String :=
  let trimmed := (path.data.reverse.dropWhile fun c => c = '/').reverse
  let base := (trimmed.reverse.takeWhile fun c => c ≠ '/').reverse
  let afterDot := base.reverse.takeWhile fun c => c ≠ '.'
  if afterDot.length = base.length then ""
  else if afterDot.length + 1 = base.length then ""
  else if base = ['.', '.'] then ""
  else String.mk (base.drop (base.length - afterDot.length - 1))

/-- The function `getOutputPath(file, options)`, lines 176-197 of
`bin/postman-collection.js`. -/
def getOutputPath (file : String) (options : CliOptions) : String :=
  match options.out with
  | none => "stdout"
  | some out =>
    if out = "" then "stdout"
    else
      let isFile := pathExtname out != ""
      if isFile then
        -- options.out is a full file path, so use it as-is
        out
      else
        -- options.out is a directory
        let outPath := pathJoin out file
        -- Make the file extension match the output format
        let ext := pathExtname outPath
        let outPath := String.mk (outPath.data.take (outPath.length - ext.length))
        outPath ++ (if options.yaml.truthy then ".yaml" else ".json")

/-- Example options: `--out ./dist` and nothing else, validation on by default. -/
def outDistOptions : CliOptions :=
  { out := some "./dist", json := CliValue.absent, yaml := CliValue.absent,
    bail := false, validate := true }

/-! ### Results and exit code -/

/-- An error the command line can meet: the one `expandGlobs` throws, the error of
a run (a rejection of the library), or the one `serialize` throws. -/
inductive CliError (E Err : Type) where
  | noFiles
  | run (err : E)
  | serializing (err : OnoError Err)

/-- What the command line prints or does, in order: a detailed error banner
(`ERROR #number` with the stack of the error), the stack printed by
`errorHandler`, a call `successFn(index)`, a call `errorFn(index)`, the summary
line, a text on standard output, a file written. -/
inductive Output (E Err : Type) where
  | banner (number : Nat) (err : E)
  | stack (err : CliError E Err)
  | success (index : Nat)
  | failure (index : Nat)
  | summary (text : String)
  | stdout (text : String)
  | write (path : String) (text : String)

/-- The state of the process: `process.exitCode` (0 while it is unset), whether
`process.exit()` has been called, and what has been printed so far. -/
structure Process (E Err : Type) where
  exitCode : Nat
  exited : Bool
  output : List (Output E Err)

/-- The process when a command starts. -/
def Process.start {E Err : Type} : Process E Err :=
  { exitCode := 0, exited := false, output := [] }

/-- The value `showResults` is given: a single error, or an array of results. -/
inductive CliResults (D E Err : Type) where
  | error (err : CliError E Err)
  | array (results : List (Item D E))

/-- The function `errorHandler(err)`, lines 242-248 of `bin/postman-collection.js`. -/
def errorHandler {E Err : Type} (err : CliError E Err) (p : Process E Err) : Process E Err :=
  let p := { p with output := p.output ++ [Output.stack err] }
  -- Terminate with non-zero code
  let p := if p.exitCode != 0 then p else { p with exitCode := E_OTHER }
  { p with exited := true }

/-- The arrays `passed` and `failed` and what has been printed, while `showResults`
groups the results. -/
structure Grouping (E Err : Type) where
  passed : List Nat
  failed : List Nat
  printed : List (Output E Err)

/-- The callback of `results.forEach`, lines 219-229, on the result at `index`. -/
def groupResult {D E Err : Type} (g : Grouping E Err) (index : Nat) (result : Item D E) :
    Grouping E Err :=
  match result with
  | Item.error err =>
    let failed := g.failed ++ [index]
    -- Display detailed error information
    { g with failed := failed, printed := g.printed ++ [Output.banner failed.length err] }
  | _ => { g with passed := g.passed ++ [index] }

/-- The loop `results.forEach(...)` of lines 219-229. -/
def groupResults {D E Err : Type} (results : List (Item D E)) : Grouping E Err :=
  results.enum.foldl (fun g p => groupResult g p.1 p.2)
    { passed := [], failed := [], printed := [] }

/-- The text `util.format('\n%d succeeded, %d failed', passed, failed)`. -/
def summaryText (passed failed : Nat) : String :=
  "\n" ++ toString passed ++ " succeeded, " ++ toString failed ++ " failed"

/-- The function `showResults(results, successFn, errorFn)`, lines 207-235 of
`bin/postman-collection.js`. `errorFn` tells whether an `errorFn` was passed. -/
def showResults {D E Err : Type} (results : CliResults D E Err) (errorFn : Bool)
    (p : Process E Err) : Process E Err :=
  let p := if errorFn then { p with exitCode := E_INVALID } else p
  match results with
  | CliResults.error err => errorHandler err p
  | CliResults.array results =>
    -- First, group the results by passed & failed
    let g : Grouping E Err := groupResults results
    -- Display a summary of successful and failed results
    { p with output := p.output ++ g.printed
        ++ g.passed.map Output.success
        ++ (if errorFn then g.failed.map Output.failure else [])
        ++ [Output.summary (summaryText g.passed.length g.failed.length)] }

/-- The function `expandGlobs(globs)`, lines 140-149: `matched` is what the glob
expansion finds; `none` is the rejection with the error `No matching files were
found`. -/
def expandGlobs {E Err : Type} (matched : List String) (p : Process E Err) :
    Process E Err × Option (List String) :=
  if matched.length = 0 then ({ p with exitCode := E_NO_FILES }, none)
  else (p, some matched)

/-- How a static operation of the library on an array of files settles: resolved
with an array, or rejected with an array or with a single error. -/
inductive BatchSettled (D E Err : Type) where
  | resolved (results : List (Item D E))
  | rejected (results : CliResults D E Err)

/-- The command `validate`, lines 56-78: `validated files bail` is how
`PostmanCollection.validate(files, {bail: options.bail})` settles. -/
def validateCommand {D E Err : Type} (matched : List String) (bail : Bool)
    (validated : List String → Bool → BatchSettled D E Err) : Process E Err :=
  match expandGlobs matched Process.start with
  | (p, none) => showResults (CliResults.error CliError.noFiles : CliResults D E Err) true p
  | (p, some files) =>
    match validated files bail with
    | BatchSettled.resolved results => showResults (CliResults.array results) false p
    | BatchSettled.rejected results => showResults results true p

/-- The loop `files.forEach(...)` of lines 105-110: each result is serialized and
written to its output path (the file system calls are taken to succeed); a
serializer that throws ends the loop with its error. -/
def writeOutputs {D E Err : Type} (lib : Stringifiers (Result D E) Err) (options : CliOptions)
    (results : List (Item D E)) :
    List (Nat × String) → Process E Err → Process E Err × Option (OnoError Err)
  | [], p => (p, none)
  | (index, file) :: rest, p =>
    let result := results.getD index Item.undefined
    let outPath := getOutputPath file options
    match serialize lib (Result.single result) options with
    | Except.error err => (p, some err)
    | Except.ok text =>
      writeOutputs lib options results rest
        { p with output := p.output ++ [Output.write outPath text] }

/-- The command `bundle`, lines 86-131: `validated` and `bundled` are how
`PostmanCollection.validate` and `PostmanCollection.bundle` settle on the
files. -/
def bundleCommand {D E Err : Type} (lib : Stringifiers (Result D E) Err) (matched : List String)
    (options : CliOptions)
    (validated bundled : List String → Bool → BatchSettled D E Err) : Process E Err :=
  match expandGlobs matched Process.start with
  | (p, none) => showResults (CliResults.error CliError.noFiles : CliResults D E Err) true p
  | (p, some files) =>
    -- Validate the collection(s) first
    match (if options.validate then validated files options.bail
        else BatchSettled.resolved []) with
    | BatchSettled.rejected results => showResults results true p
    | BatchSettled.resolved _ =>
      -- Bundle the collection(s)
      match bundled files options.bail with
      | BatchSettled.rejected results => showResults results true p
      | BatchSettled.resolved results =>
        if (match options.out with | some out => out != "" | none => false) then
          -- Write each output file
          match writeOutputs lib options results files.enum p with
          | (p, some err) =>
            showResults (CliResults.error (CliError.serializing err) : CliResults D E Err)
              true p
          | (p, none) =>
            -- Show a summary of the results
            showResults (CliResults.array results : CliResults D E Err) false p
        else
          -- No --out param was specified, so write the results to stdout
          match serialize lib (Result.array results) options with
          | Except.error err =>
            showResults (CliResults.error (CliError.serializing err) : CliResults D E Err)
              true p
          | Except.ok text => { p with output := p.output ++ [Output.stdout text] }

/-- The test `result instanceof Error` on one result. -/
def Item.isError {D E : Type} : Item D E → Bool
  | Item.error _ => true
  | _ => false

/-- The indices, counted from `start`, of the results that pass the test `keep`,
in ascending order. -/
def indicesFrom {D E : Type} (keep : Item D E → Bool) (start : Nat) :
    List (Item D E) → List Nat
  | [] => []
  | r :: rs =>
    if keep r then start :: indicesFrom keep (start + 1) rs
    else indicesFrom keep (start + 1) rs

/-- The indices of the results that are not errors, ascending. -/
def passedIndices {D E : Type} (results : List (Item D E)) : List Nat :=
  indicesFrom (fun r => !r.isError) 0 results

/-- The indices of the results that are errors, ascending. -/
def failedIndices {D E : Type} (results : List (Item D E)) : List Nat :=
  indicesFrom Item.isError 0 results

/-- One banner per error among the results, in order, numbered from `count + 1`. -/
def bannersFrom {D E Err : Type} (count : Nat) : List (Item D E) → List (Output E Err)
  | [] => []
  | Item.error err :: rs => Output.banner (count + 1) err :: bannersFrom (count + 1) rs
  | _ :: rs => bannersFrom count rs

/-! ### Lemmas on the batch orchestrator -/

theorem slots_length {D E : Type} (outcomes : List (Outcome D E)) (P : List Nat) :
    (slots outcomes P).length = outcomes.length := by
  simp [slots]

theorem slots_getElem? {D E : Type} (outcomes : List (Outcome D E)) (P : List Nat) (i : Nat)
    (hi : i < outcomes.length) :
    (slots outcomes P)[i]? = some (if i ∈ P then some (outcomes[i]).toItem else none) := by
  simp [slots, List.getElem?_map, List.getElem?_range hi, List.getElem?_eq_getElem hi]

theorem slots_set {D E : Type} (outcomes : List (Outcome D E)) (P : List Nat) (i : Nat)
    (o : Outcome D E) (h : outcomes[i]? = some o) :
    (slots outcomes P).set i (some o.toItem) = slots outcomes (i :: P) := by
  have hi : i < outcomes.length := by
    rcases List.getElem?_eq_some.1 h with ⟨hi, _⟩
    exact hi
  have ho : outcomes[i] = o := by
    rcases List.getElem?_eq_some.1 h with ⟨_, ho⟩
    exact ho
  apply List.ext_getElem?
  intro j
  by_cases hj : j < outcomes.length
  · rw [slots_getElem? _ _ _ hj]
    by_cases hij : i = j
    · subst hij
      rw [List.getElem?_set_self (by simpa [slots_length] using hi)]
      simp [ho]
    · rw [List.getElem?_set_ne hij, slots_getElem? _ _ _ hj]
      have : (j = i) = False := by
        simp only [eq_iff_iff, iff_false]
        exact fun h => hij h.symm
      simp [List.mem_cons, this]
  · have h1 : (slots outcomes (i :: P)).length ≤ j := by
      simp [slots_length]; omega
    have h2 : ((slots outcomes P).set i (some o.toItem)).length ≤ j := by
      simp [slots_length]; omega
    rw [List.getElem?_eq_none h1, List.getElem?_eq_none h2]


theorem slots_cons_of_all {D E : Type} (outcomes : List (Outcome D E)) (P : List Nat) (i : Nat)
    (h : (slots outcomes P).all Option.isSome = true) :
    slots outcomes (i :: P) = slots outcomes P := by
  apply List.ext_getElem?
  intro j
  by_cases hj : j < outcomes.length
  · rw [slots_getElem? _ _ _ hj, slots_getElem? _ _ _ hj]
    have hmem : j ∈ P := by
      by_contra hn
      have h1 : (slots outcomes P)[j]? = some none := by
        rw [slots_getElem? _ _ _ hj]; simp [hn]
      have h2 : (none : Option (Item D E)) ∈ slots outcomes P := List.getElem?_mem h1
      have h3 := (List.all_eq_true.1 h) _ h2
      simp at h3
    simp [hmem]
  · rw [List.getElem?_eq_none (by simp [slots_length]; omega),
      List.getElem?_eq_none (by simp [slots_length]; omega)]

theorem slots_cons_of_none {D E : Type} (outcomes : List (Outcome D E)) (P : List Nat) (i : Nat)
    (h : outcomes[i]? = none) :
    slots outcomes (i :: P) = slots outcomes P := by
  have hi : outcomes.length ≤ i := by
    by_contra hn
    rw [List.getElem?_eq_getElem (by omega)] at h
    cases h
  apply List.ext_getElem?
  intro j
  by_cases hj : j < outcomes.length
  · rw [slots_getElem? _ _ _ hj, slots_getElem? _ _ _ hj]
    have : ¬ j = i := by omega
    simp [List.mem_cons, this]
  · rw [List.getElem?_eq_none (by simp [slots_length]; omega),
      List.getElem?_eq_none (by simp [slots_length]; omega)]

theorem resolveElement_ofValues_slots {D E : Type} (outcomes : List (Outcome D E))
    (P : List Nat) (i : Nat) (o : Outcome D E) (h : outcomes[i]? = some o) :
    (AllState.ofValues (slots outcomes P)).resolveElement i o.toItem
      = AllState.ofValues (slots outcomes (i :: P)) := by
  by_cases hall : (slots outcomes P).all Option.isSome = true
  · rw [slots_cons_of_all _ _ _ hall]
    simp [AllState.ofValues, hall, AllState.resolveElement]
  · have : AllState.ofValues (slots outcomes P) = AllState.pending (slots outcomes P) := by
      simp only [AllState.ofValues, hall]; rfl
    rw [this]
    simp only [AllState.resolveElement]
    rw [slots_set _ _ _ _ h]

theorem slots_nil {D E : Type} (outcomes : List (Outcome D E)) :
    slots outcomes [] = List.replicate outcomes.length none := by
  apply List.ext_getElem?
  intro j
  by_cases hj : j < outcomes.length
  · rw [slots_getElem? _ _ _ hj]
    simp [List.getElem?_replicate, hj]
  · rw [List.getElem?_eq_none (by simp [slots_length]; omega),
      List.getElem?_eq_none (by simp; omega)]

theorem slots_full {D E : Type} (outcomes : List (Outcome D E)) (P : List Nat)
    (h : ∀ i, i < outcomes.length → i ∈ P) :
    slots outcomes P = outcomes.map fun o => some o.toItem := by
  apply List.ext_getElem?
  intro j
  by_cases hj : j < outcomes.length
  · rw [slots_getElem? _ _ _ hj]
    simp [h j hj, List.getElem?_map, List.getElem?_eq_getElem hj]
  · rw [List.getElem?_eq_none (by simp [slots_length]; omega),
      List.getElem?_eq_none (by simp; omega)]

theorem ofValues_full {D E : Type} (outcomes : List (Outcome D E)) (P : List Nat)
    (h : ∀ i, i < outcomes.length → i ∈ P) :
    AllState.ofValues (slots outcomes P) = AllState.fulfilled (outcomes.map Outcome.toItem) := by
  rw [slots_full _ _ h]
  have h1 : (outcomes.map fun o => some o.toItem).all Option.isSome = true := by
    simp [List.all_eq_true]
  have h2 : (outcomes.map fun o => some o.toItem).filterMap id = outcomes.map Outcome.toItem := by
    rw [List.filterMap_map]
    exact congrFun (List.filterMap_eq_map Outcome.toItem) outcomes
  simp only [AllState.ofValues, h1, h2]; rfl

theorem ofValues_pending_of_missing {D E : Type} (outcomes : List (Outcome D E)) (P : List Nat)
    (j : Nat) (hj : j < outcomes.length) (hP : j ∉ P) :
    AllState.ofValues (slots outcomes P) = AllState.pending (slots outcomes P) := by
  have h1 : (slots outcomes P)[j]? = some none := by
    rw [slots_getElem? _ _ _ hj]; simp [hP]
  have h2 : (none : Option (Item D E)) ∈ slots outcomes P := List.getElem?_mem h1
  have h3 : ¬ (slots outcomes P).all Option.isSome = true := by
    intro h
    have := (List.all_eq_true.1 h) _ h2
    simp at this
  simp only [AllState.ofValues, h3]; rfl


theorem settleAll_nil {D E : Type} (bail : Bool) (outcomes : List (Outcome D E))
    (st : BatchState D E) : st.settleAll bail outcomes [] = st := rfl

theorem settleAll_cons {D E : Type} (bail : Bool) (outcomes : List (Outcome D E))
    (i : Nat) (sched : List Nat) (st : BatchState D E) :
    st.settleAll bail outcomes (i :: sched)
      = BatchState.settleAll bail outcomes sched
          (match outcomes[i]? with
            | some o => st.settleRun bail i o
            | none => st) := rfl

theorem settleAll_append {D E : Type} (bail : Bool) (outcomes : List (Outcome D E))
    (s1 s2 : List Nat) (st : BatchState D E) :
    st.settleAll bail outcomes (s1 ++ s2)
      = (st.settleAll bail outcomes s1).settleAll bail outcomes s2 := by
  simp [BatchState.settleAll, List.foldl_append]

/-- As long as no run re-rejects (no bail, or no failure so far), the aggregate
promise holds exactly the slots of the runs that have settled, and the flag
records whether one of them failed. -/
theorem settleAll_collect {D E : Type} (bail : Bool) (outcomes : List (Outcome D E))
    (sched : List Nat) :
    ∀ (st : BatchState D E) (P : List Nat),
      (bail = false ∨ ∀ i ∈ sched, failsAt outcomes i = false) →
      st.all = AllState.ofValues (slots outcomes P) →
      (st.settleAll bail outcomes sched).all
          = AllState.ofValues (slots outcomes (sched.reverse ++ P))
        ∧ (st.settleAll bail outcomes sched).error
          = (st.error || sched.any (failsAt outcomes)) := by
  induction sched with
  | nil => intro st P _ h; simpa [settleAll_nil] using h
  | cons i sched ih =>
    intro st P hb h
    rw [settleAll_cons]
    have hb2 : bail = false ∨ ∀ j ∈ sched, failsAt outcomes j = false := by
      rcases hb with hb | hb
      · exact Or.inl hb
      · exact Or.inr fun j hj => hb j (List.mem_cons_of_mem _ hj)
    have hrev : (i :: sched).reverse ++ P = sched.reverse ++ (i :: P) := by simp
    rw [hrev]
    cases ho : outcomes[i]? with
    | none =>
      have hf : failsAt outcomes i = false := by simp [failsAt, ho]
      obtain ⟨h1, h2⟩ := ih st (i :: P) hb2 (by rw [slots_cons_of_none _ _ _ ho]; exact h)
      refine ⟨h1, ?_⟩
      rw [h2]; simp [hf]
    | some o =>
      cases o with
      | success d =>
        have hf : failsAt outcomes i = false := by simp [failsAt, ho, Outcome.isFailure]
        have hst : (st.settleRun bail i (Outcome.success d)).all
            = AllState.ofValues (slots outcomes (i :: P)) := by
          simp only [BatchState.settleRun]
          rw [h]
          exact resolveElement_ofValues_slots outcomes P i (Outcome.success d) ho
        obtain ⟨h1, h2⟩ := ih _ (i :: P) hb2 hst
        refine ⟨h1, ?_⟩
        rw [h2]; simp [hf, BatchState.settleRun]
      | failure e =>
        have hf : failsAt outcomes i = true := by simp [failsAt, ho, Outcome.isFailure]
        have hbail : bail = false := by
          rcases hb with hb | hb
          · exact hb
          · have := hb i (List.mem_cons_self _ _)
            rw [hf] at this
            cases this
        subst hbail
        have hst : (st.settleRun false i (Outcome.failure e)).all
            = AllState.ofValues (slots outcomes (i :: P)) := by
          simp only [BatchState.settleRun]
          rw [h]
          exact resolveElement_ofValues_slots outcomes P i (Outcome.failure e) ho
        obtain ⟨h1, h2⟩ := ih _ (i :: P) hb2 hst
        refine ⟨h1, ?_⟩
        rw [h2]; simp [hf, BatchState.settleRun]

/-- Once the aggregate promise has rejected, later events leave it rejected. -/
theorem settleAll_rejected {D E : Type} (bail : Bool) (outcomes : List (Outcome D E))
    (sched : List Nat) (e : E) :
    ∀ (st : BatchState D E), st.all = AllState.rejected e →
      (st.settleAll bail outcomes sched).all = AllState.rejected e := by
  induction sched with
  | nil => intro st h; simpa [settleAll_nil] using h
  | cons i sched ih =>
    intro st h
    rw [settleAll_cons]
    apply ih
    cases ho : outcomes[i]? with
    | none => simpa using h
    | some o =>
      cases o with
      | success d => simp [BatchState.settleRun, h, AllState.resolveElement]
      | failure e2 =>
        cases bail <;> simp [BatchState.settleRun, h, AllState.resolveElement, AllState.reject]

theorem init_all {D E : Type} (outcomes : List (Outcome D E)) :
    (BatchState.init outcomes.length : BatchState D E).all
      = AllState.ofValues (slots outcomes []) := by
  rw [slots_nil]; rfl

theorem runOutcomes_length {S D E : Type} (run : Nat → S → Options → Outcome D E)
    (collections : List S) (options : Options) :
    (runOutcomes run collections options).length = collections.length := by
  simp [runOutcomes]

theorem runOutcomes_getElem? {S D E : Type} (run : Nat → S → Options → Outcome D E)
    (collections : List S) (options : Options) (i : Nat) :
    (runOutcomes run collections options)[i]?
      = (collections[i]?).map fun c => run i c options := by
  simp only [runOutcomes, List.getElem?_map, List.getElem?_enum]
  cases collections[i]? <;> rfl

theorem any_failsAt_of_cover {D E : Type} (outcomes : List (Outcome D E)) (sched : List Nat)
    (h : ∀ i, i < outcomes.length → i ∈ sched) :
    sched.any (failsAt outcomes) = outcomes.any Outcome.isFailure := by
  rw [Bool.eq_iff_iff, List.any_eq_true, List.any_eq_true]
  constructor
  · rintro ⟨i, _, hf⟩
    unfold failsAt at hf
    cases ho : outcomes[i]? with
    | none => rw [ho] at hf; cases hf
    | some o =>
      rw [ho] at hf
      exact ⟨o, List.getElem?_mem ho, hf⟩
  · rintro ⟨o, ho, hf⟩
    obtain ⟨i, hi⟩ := List.getElem?_of_mem ho
    have hlt : i < outcomes.length := (List.getElem?_eq_some.1 hi).1
    exact ⟨i, h i hlt, by simp [failsAt, hi, hf]⟩


theorem mem_of_slots_all {D E : Type} (outcomes : List (Outcome D E)) (P : List Nat)
    (h : (slots outcomes P).all Option.isSome = true) :
    ∀ i, i < outcomes.length → i ∈ P := by
  intro j hj
  by_contra hn
  have h1 : (slots outcomes P)[j]? = some none := by
    rw [slots_getElem? _ _ _ hj]; simp [hn]
  have h3 := (List.all_eq_true.1 h) _ (List.getElem?_mem h1)
  simp at h3

theorem ofValues_slots_cases {D E : Type} (outcomes : List (Outcome D E)) (P : List Nat) :
    AllState.ofValues (slots outcomes P) = AllState.pending (slots outcomes P)
      ∨ AllState.ofValues (slots outcomes P)
          = AllState.fulfilled (outcomes.map Outcome.toItem) := by
  by_cases hall : (slots outcomes P).all Option.isSome = true
  · exact Or.inr (ofValues_full _ _ (mem_of_slots_all _ _ hall))
  · left
    simp only [AllState.ofValues, hall]; rfl

/-- Whatever the schedule and the bail flag, the aggregate promise is pending, or
fulfilled with one element per run, or rejected with one error. -/
theorem settleAll_shape {D E : Type} (bail : Bool) (outcomes : List (Outcome D E))
    (sched : List Nat) :
    ∀ (st : BatchState D E),
      ((∃ P, st.all = AllState.ofValues (slots outcomes P)) ∨ ∃ e, st.all = AllState.rejected e) →
      ((∃ P, (st.settleAll bail outcomes sched).all = AllState.ofValues (slots outcomes P))
        ∨ ∃ e, (st.settleAll bail outcomes sched).all = AllState.rejected e) := by
  induction sched with
  | nil => intro st h; simpa [settleAll_nil] using h
  | cons i sched ih =>
    intro st h
    rw [settleAll_cons]
    apply ih
    rcases h with ⟨P, hP⟩ | ⟨e, he⟩
    · cases ho : outcomes[i]? with
      | none => exact Or.inl ⟨P, hP⟩
      | some o =>
        cases o with
        | success d =>
          left
          refine ⟨i :: P, ?_⟩
          simp only [BatchState.settleRun]
          rw [hP]
          exact resolveElement_ofValues_slots outcomes P i (Outcome.success d) ho
        | failure e =>
          cases bail with
          | false =>
            left
            refine ⟨i :: P, ?_⟩
            simp only [BatchState.settleRun]
            rw [hP]
            exact resolveElement_ofValues_slots outcomes P i (Outcome.failure e) ho
          | true =>
            simp only [BatchState.settleRun, if_true]
            rw [hP]
            rcases ofValues_slots_cases outcomes P with h1 | h1
            · right; exact ⟨e, by rw [h1]; rfl⟩
            · left; exact ⟨P, by rw [h1]; rfl⟩
    · right
      refine ⟨e, ?_⟩
      have := settleAll_rejected bail outcomes [i] e st he
      simpa [settleAll_cons, settleAll_nil] using this

/-- Without bail, once every run has settled the batch settles with the full
index-aligned array, rejecting exactly when some run failed. -/
theorem instantiateAndInvoke_noBail {S F D E : Type} (run : Nat → S → Options → Outcome D E)
    (srcs : List S) (options : OptionsArg F) (callback : Option F) (sched : List Nat)
    (hbail : (normalizeArgs (Sources.array srcs) options callback).options.bail = false)
    (hcover : ∀ i, i < srcs.length → i ∈ sched) :
    instantiateAndInvoke run (Sources.array srcs) options callback sched
      = some
          (if (runOutcomes run srcs
                (normalizeArgs (Sources.array srcs) options callback).options).any
                Outcome.isFailure
            then Settled.rejected (Result.array
              ((runOutcomes run srcs
                (normalizeArgs (Sources.array srcs) options callback).options).map
                Outcome.toItem))
            else Settled.resolved (Result.array
              ((runOutcomes run srcs
                (normalizeArgs (Sources.array srcs) options callback).options).map
                Outcome.toItem))) := by
  have hc : (normalizeArgs (Sources.array srcs) options callback).collections = srcs := rfl
  have hm : (normalizeArgs (Sources.array srcs) options callback).multiple = true := rfl
  simp only [instantiateAndInvoke]
  rw [hc, hm, hbail]
  generalize (normalizeArgs (Sources.array srcs) options callback).options = opts
  have hlen := runOutcomes_length run srcs opts
  generalize runOutcomes run srcs opts = outcomes at hlen ⊢
  obtain ⟨h1, h2⟩ := settleAll_collect false outcomes sched (BatchState.init outcomes.length) []
    (Or.inl rfl) (init_all outcomes)
  have hfull : ∀ i, i < outcomes.length → i ∈ sched.reverse ++ [] := by
    intro i hi
    simp only [List.append_nil, List.mem_reverse]
    exact hcover i (by omega)
  rw [ofValues_full _ _ hfull] at h1
  rw [any_failsAt_of_cover outcomes sched (fun i hi => hcover i (by omega))] at h2
  have h3 : (BatchState.init outcomes.length : BatchState D E).error = false := rfl
  rw [h3, Bool.false_or] at h2
  generalize BatchState.settleAll false outcomes sched (BatchState.init outcomes.length)
    = fin at h1 h2
  simp only [BatchState.completion, h1, h2]
  cases outcomes.any Outcome.isFailure <;> simp


/-! ### Claims on the batch orchestrator -/

/-- C1: with `bail` false, for every array of N sources, every assignment of
outcomes to the runs and every order `sched` in which all N runs settle, the
batch settles, the value it carries is an array of exactly N elements, and
element `i` is the document of run `i` if that run succeeded and the error of
run `i` if it failed. -/
theorem batch_results_index_aligned {S F D E : Type}
    (run : Nat → S → Options → Outcome D E) (srcs : List S) (options : OptionsArg F)
    (callback : Option F) (sched : List Nat)
    (hbail : (normalizeArgs (Sources.array srcs) options callback).options.bail = false)
    (hcover : ∀ i, i < srcs.length → i ∈ sched) :
    ∃ (r : Settled D E) (xs : List (Item D E)),
      instantiateAndInvoke run (Sources.array srcs) options callback sched = some r
      ∧ r.value = Result.array xs
      ∧ xs.length = srcs.length
      ∧ ∀ (i : Nat) (s : S), srcs[i]? = some s →
          (∀ d, run i s (normalizeArgs (Sources.array srcs) options callback).options
              = Outcome.success d → xs[i]? = some (Item.doc d))
          ∧ (∀ e, run i s (normalizeArgs (Sources.array srcs) options callback).options
              = Outcome.failure e → xs[i]? = some (Item.error e)) := by
  have h := instantiateAndInvoke_noBail run srcs options callback sched hbail hcover
  generalize (normalizeArgs (Sources.array srcs) options callback).options = opts at h ⊢
  refine ⟨_, (runOutcomes run srcs opts).map Outcome.toItem, h, ?_, ?_, ?_⟩
  · cases (runOutcomes run srcs opts).any Outcome.isFailure <;> rfl
  · simp [runOutcomes_length]
  · intro i s hs
    have hi : ((runOutcomes run srcs opts).map Outcome.toItem)[i]?
        = some (run i s opts).toItem := by
      rw [List.getElem?_map, runOutcomes_getElem?, hs]; rfl
    constructor
    · intro d hd; rw [hi, hd]; rfl
    · intro e he; rw [hi, he]; rfl

/-- Witness for C1: three sources, the middle one failing, settling in the
order 2, 0, 1. -/
theorem batch_results_index_aligned_witness :
    ∃ (r : Settled String String) (xs : List (Item String String)),
      instantiateAndInvoke
          (fun i s _ => if i = 1 then Outcome.failure ("bad " ++ s) else Outcome.success s)
          (Sources.array ["a", "b", "c"]) (OptionsArg.undefined : OptionsArg Unit) none [2, 0, 1]
        = some r
      ∧ r.value = Result.array xs
      ∧ xs.length = ["a", "b", "c"].length
      ∧ ∀ (i : Nat) (s : String), ["a", "b", "c"][i]? = some s →
          (∀ d, (fun i s (_ : Options) =>
                if i = 1 then Outcome.failure ("bad " ++ s) else Outcome.success s) i s
              (normalizeArgs (Sources.array ["a", "b", "c"])
                (OptionsArg.undefined : OptionsArg Unit) none).options
              = Outcome.success d → xs[i]? = some (Item.doc d))
          ∧ (∀ e, (fun i s (_ : Options) =>
                if i = 1 then Outcome.failure ("bad " ++ s) else Outcome.success s) i s
              (normalizeArgs (Sources.array ["a", "b", "c"])
                (OptionsArg.undefined : OptionsArg Unit) none).options
              = Outcome.failure e → xs[i]? = some (Item.error e)) :=
  batch_results_index_aligned _ ["a", "b", "c"] OptionsArg.undefined none [2, 0, 1] rfl
    (by intro i hi; simp at hi; interval_cases i <;> simp)

/-- C2: with `bail` true, as soon as a failing run has settled the batch
rejects, and it rejects with the bare error of the run that failed first in
settling order: never with an array, and with nothing of the other runs. -/
theorem batch_bail_first_error {S F D E : Type}
    (run : Nat → S → Options → Outcome D E) (srcs : List S) (options : OptionsArg F)
    (callback : Option F) (sched : List Nat) (j : Nat) (e : E)
    (hbail : (normalizeArgs (Sources.array srcs) options callback).options.bail = true)
    (hfirst : sched.find?
        (failsAt (runOutcomes run srcs
          (normalizeArgs (Sources.array srcs) options callback).options)) = some j)
    (herr : (runOutcomes run srcs
          (normalizeArgs (Sources.array srcs) options callback).options)[j]?
        = some (Outcome.failure e)) :
    instantiateAndInvoke run (Sources.array srcs) options callback sched
      = some (Settled.rejected (Result.single (Item.error e))) := by
  have hc : (normalizeArgs (Sources.array srcs) options callback).collections = srcs := rfl
  simp only [instantiateAndInvoke]
  rw [hc, hbail]
  generalize (normalizeArgs (Sources.array srcs) options callback).options = opts at hfirst herr ⊢
  generalize runOutcomes run srcs opts = outcomes at hfirst herr ⊢
  obtain ⟨_, pre, post, hsched, hpre⟩ := List.find?_eq_some.1 hfirst
  have hpre2 : ∀ i ∈ pre, failsAt outcomes i = false := by
    intro i hi
    have := hpre i hi
    simpa using this
  obtain ⟨h1, _⟩ := settleAll_collect true outcomes pre (BatchState.init outcomes.length) []
    (Or.inr hpre2) (init_all outcomes)
  have hj : j < outcomes.length := (List.getElem?_eq_some.1 herr).1
  have hjpre : j ∉ pre.reverse ++ [] := by
    intro hmem
    have h2 := hpre2 j (by simpa using hmem)
    simp [failsAt, herr, Outcome.isFailure] at h2
  rw [ofValues_pending_of_missing outcomes _ j hj hjpre] at h1
  have h3 : ((BatchState.init outcomes.length).settleAll true outcomes (pre ++ [j])).all
      = AllState.rejected e := by
    rw [settleAll_append, settleAll_cons, settleAll_nil, herr]
    simp [BatchState.settleRun, h1, AllState.reject]
  have h4 := settleAll_rejected true outcomes post e _ h3
  rw [← settleAll_append] at h4
  have hs2 : pre ++ [j] ++ post = sched := by rw [hsched]; simp
  rw [hs2] at h4
  simp [BatchState.completion, h4]

/-- Witness for C2: of three runs the last two fail, and run 2 settles before
run 1. -/
theorem batch_bail_first_error_witness :
    instantiateAndInvoke
        (fun i s _ => if i = 0 then (Outcome.success s : Outcome String String)
          else Outcome.failure ("bad " ++ s))
        (Sources.array ["a", "b", "c"])
        (OptionsArg.object { bail := true, other := [] } : OptionsArg Unit) none [0, 2, 1]
      = some (Settled.rejected (Result.single (Item.error "bad c"))) :=
  batch_bail_first_error _ ["a", "b", "c"] _ none [0, 2, 1] 2 "bad c" rfl (by decide) (by rfl)

/-- C3: with `bail` false and every run settled, the batch fails if and only if
at least one run failed, and whether it fails or succeeds the value it carries
is the same full index-aligned array of documents and error objects. -/
theorem batch_fails_iff_some_run_failed {S F D E : Type}
    (run : Nat → S → Options → Outcome D E) (srcs : List S) (options : OptionsArg F)
    (callback : Option F) (sched : List Nat)
    (hbail : (normalizeArgs (Sources.array srcs) options callback).options.bail = false)
    (hcover : ∀ i, i < srcs.length → i ∈ sched) :
    ∃ r : Settled D E,
      instantiateAndInvoke run (Sources.array srcs) options callback sched = some r
      ∧ (r.failed = true ↔
          ∃ (i : Nat) (s : S) (e : E), srcs[i]? = some s
            ∧ run i s (normalizeArgs (Sources.array srcs) options callback).options
                = Outcome.failure e)
      ∧ r.value = Result.array
          ((runOutcomes run srcs
            (normalizeArgs (Sources.array srcs) options callback).options).map
            Outcome.toItem) := by
  have h := instantiateAndInvoke_noBail run srcs options callback sched hbail hcover
  generalize (normalizeArgs (Sources.array srcs) options callback).options = opts at h ⊢
  have hany : (runOutcomes run srcs opts).any Outcome.isFailure = true ↔
      ∃ (i : Nat) (s : S) (e : E), srcs[i]? = some s ∧ run i s opts = Outcome.failure e := by
    rw [List.any_eq_true]
    constructor
    · rintro ⟨o, ho, hf⟩
      obtain ⟨i, hi⟩ := List.getElem?_of_mem ho
      rw [runOutcomes_getElem?] at hi
      cases hs : srcs[i]? with
      | none => rw [hs] at hi; cases hi
      | some s =>
        rw [hs] at hi
        simp only [Option.map_some'] at hi
        cases hi
        cases hr : run i s opts with
        | success d => rw [hr] at hf; cases hf
        | failure e => exact ⟨i, s, e, hs, hr⟩
    · rintro ⟨i, s, e, hs, hr⟩
      refine ⟨Outcome.failure e, ?_, rfl⟩
      apply List.getElem?_mem (n := i)
      rw [runOutcomes_getElem?, hs, Option.map_some', hr]
  refine ⟨_, h, ?_, ?_⟩
  · rw [← hany]
    cases (runOutcomes run srcs opts).any Outcome.isFailure <;> simp [Settled.failed]
  · cases (runOutcomes run srcs opts).any Outcome.isFailure <;> rfl

/-- Witness for C3: two sources, the second failing, settling in reverse order. -/
theorem batch_fails_iff_some_run_failed_witness :
    ∃ r : Settled String String,
      instantiateAndInvoke
          (fun i s _ => if i = 1 then Outcome.failure ("bad " ++ s) else Outcome.success s)
          (Sources.array ["a", "b"]) (OptionsArg.null : OptionsArg Unit) none [1, 0] = some r
      ∧ (r.failed = true ↔
          ∃ (i : Nat) (s : String) (e : String), ["a", "b"][i]? = some s
            ∧ (fun i s (_ : Options) =>
                if i = 1 then Outcome.failure ("bad " ++ s) else Outcome.success s) i s
                (normalizeArgs (Sources.array ["a", "b"])
                  (OptionsArg.null : OptionsArg Unit) none).options
                = (Outcome.failure e : Outcome String String))
      ∧ r.value = Result.array
          ((runOutcomes
            (fun i s (_ : Options) =>
                if i = 1 then Outcome.failure ("bad " ++ s) else Outcome.success s)
            ["a", "b"]
            (normalizeArgs (Sources.array ["a", "b"])
              (OptionsArg.null : OptionsArg Unit) none).options).map
            Outcome.toItem) :=
  batch_fails_iff_some_run_failed _ ["a", "b"] OptionsArg.null none [1, 0] rfl
    (by intro i hi; simp at hi; interval_cases i <;> simp)


/-- A single source and the one-element array of it run the same batch; only the
`multiple` flag of the completion differs. -/
theorem instantiateAndInvoke_single_eq {S F D E : Type}
    (run : Nat → S → Options → Outcome D E) (s : S) (options : OptionsArg F)
    (callback : Option F) (sched : List Nat) :
    ∃ st : BatchState D E,
      instantiateAndInvoke run (Sources.single s) options callback sched = st.completion false
      ∧ instantiateAndInvoke run (Sources.array [s]) options callback sched
          = st.completion true :=
  ⟨_, rfl, rfl⟩

/-- Counterexample for C4: the one-element array `["a.json"]` with `bail` true
and a failing run settles with the bare error, not with an array of length 1. -/
theorem array_input_bail_not_array :
    ¬ ∃ (r : Settled String String) (xs : List (Item String String)),
        instantiateAndInvoke (fun _ _ _ => Outcome.failure "invalid")
            (Sources.array ["a.json"])
            (OptionsArg.object { bail := true, other := [] } : OptionsArg Unit) none [0]
          = some r
        ∧ r.value = Result.array xs ∧ xs.length = 1 := by
  rintro ⟨r, xs, h, hv, _⟩
  have h2 : instantiateAndInvoke (fun _ _ _ => (Outcome.failure "invalid" : Outcome String String))
      (Sources.array ["a.json"])
      (OptionsArg.object { bail := true, other := [] } : OptionsArg Unit) none [0]
      = some (Settled.rejected (Result.single (Item.error "invalid"))) := rfl
  rw [h2] at h
  cases h
  cases hv

/-- C4 (amended): a single source never yields an array wrapper; when the batch on
the one-element array `[s]` yields an array, the batch on `s` settles the same
way with element 0 of it, and when the batch on `[s]` yields a bare error (bail
with a failing run) the batch on `s` yields that same error; an array input
yields an array of the same length whenever `bail` is false or the batch
succeeds. -/
theorem result_shape_follows_input {S F D E : Type}
    (run : Nat → S → Options → Outcome D E) (s : S) (srcs : List S) (options : OptionsArg F)
    (callback : Option F) (sched : List Nat) :
    (∀ r, instantiateAndInvoke run (Sources.single s) options callback sched = some r →
        ∃ x, r.value = Result.single x)
    ∧ (∀ r xs, instantiateAndInvoke run (Sources.array [s]) options callback sched = some r →
        r.value = Result.array xs →
        ∃ r2, instantiateAndInvoke run (Sources.single s) options callback sched = some r2
          ∧ r2.failed = r.failed
          ∧ r2.value = Result.single (xs.getD 0 Item.undefined))
    ∧ (∀ r x, instantiateAndInvoke run (Sources.array [s]) options callback sched = some r →
        r.value = Result.single x →
        instantiateAndInvoke run (Sources.single s) options callback sched = some r)
    ∧ (∀ r, instantiateAndInvoke run (Sources.array srcs) options callback sched = some r →
        ((normalizeArgs (Sources.array srcs) options callback).options.bail = false
          ∨ r.failed = false) →
        ∃ xs, r.value = Result.array xs ∧ xs.length = srcs.length) := by
  obtain ⟨st, h1, h2⟩ := instantiateAndInvoke_single_eq run s options callback sched
  rw [h1, h2]
  refine ⟨?_, ?_, ?_, ?_⟩
  · intro r hr
    simp only [BatchState.completion] at hr
    cases hall : st.all with
    | pending v => rw [hall] at hr; cases hr
    | fulfilled v =>
      rw [hall] at hr
      cases herr : st.error <;> rw [herr] at hr <;> simp at hr <;> subst hr <;>
        exact ⟨_, rfl⟩
    | rejected e =>
      rw [hall] at hr
      simp at hr; subst hr; exact ⟨_, rfl⟩
  · intro r xs hr hv
    simp only [BatchState.completion] at hr ⊢
    cases hall : st.all with
    | pending v => rw [hall] at hr; cases hr
    | fulfilled v =>
      rw [hall] at hr
      cases herr : st.error <;> rw [herr] at hr <;> simp at hr <;> subst hr <;>
        simp [Settled.value] at hv <;> subst hv <;> simp [Settled.failed, Settled.value]
    | rejected e =>
      rw [hall] at hr
      simp at hr; subst hr; cases hv
  · intro r x hr hv
    simp only [BatchState.completion] at hr ⊢
    cases hall : st.all with
    | pending v => rw [hall] at hr; cases hr
    | fulfilled v =>
      rw [hall] at hr
      cases herr : st.error <;> rw [herr] at hr <;> simp at hr <;> subst hr <;> cases hv
    | rejected e =>
      rw [hall] at hr
      simpa using hr
  · intro r hr hcond
    have hc : (normalizeArgs (Sources.array srcs) options callback).collections = srcs := rfl
    have hm : (normalizeArgs (Sources.array srcs) options callback).multiple = true := rfl
    simp only [instantiateAndInvoke] at hr
    rw [hc, hm] at hr
    generalize (normalizeArgs (Sources.array srcs) options callback).options = opts at hr hcond
    have hlen := runOutcomes_length run srcs opts
    generalize runOutcomes run srcs opts = outcomes at hlen hr
    have hshape := settleAll_shape opts.bail outcomes sched (BatchState.init outcomes.length)
      (Or.inl ⟨[], init_all outcomes⟩)
    have hnr : opts.bail = false → ∀ e,
        (BatchState.settleAll opts.bail outcomes sched (BatchState.init outcomes.length)).all
          ≠ AllState.rejected e := by
      intro hb e he
      obtain ⟨h3, _⟩ := settleAll_collect opts.bail outcomes sched
        (BatchState.init outcomes.length) [] (Or.inl hb) (init_all outcomes)
      rw [h3] at he
      rcases ofValues_slots_cases outcomes (sched.reverse ++ []) with hp | hf
      · rw [hp] at he; cases he
      · rw [hf] at he; cases he
    generalize BatchState.settleAll opts.bail outcomes sched (BatchState.init outcomes.length)
      = fin at hshape hr hnr
    simp only [BatchState.completion] at hr
    rcases hshape with ⟨P, hP⟩ | ⟨e, he⟩
    · rcases ofValues_slots_cases outcomes P with hp | hf
      · rw [hP, hp] at hr; cases hr
      · rw [hP, hf] at hr
        refine ⟨outcomes.map Outcome.toItem, ?_, by simp [hlen]⟩
        cases herr : fin.error <;> rw [herr] at hr <;> simp at hr <;> subst hr <;> rfl
    · rw [he] at hr
      simp at hr
      subst hr
      rcases hcond with hb | hnf
      · exact absurd he (hnr hb e)
      · cases hnf


/-- Witness for C4: the source `a.json` alone resolves with its document, which is
element 0 of what `["a.json"]` resolves with, and `["a.json", "b.json"]` yields
an array of length 2. -/
theorem result_shape_follows_input_witness :
    (∃ x, (Settled.resolved (Result.single (Item.doc "a.json")) : Settled String String).value
        = Result.single x)
    ∧ (∃ r2, instantiateAndInvoke (fun _ s _ => (Outcome.success s : Outcome String String))
          (Sources.single "a.json") (OptionsArg.undefined : OptionsArg Unit) none [0] = some r2
        ∧ r2.failed
            = (Settled.resolved (Result.array [Item.doc "a.json"]) : Settled String String).failed
        ∧ r2.value = Result.single ([Item.doc "a.json"].getD 0 Item.undefined))
    ∧ (∃ xs, (Settled.resolved (Result.array [Item.doc "a.json", Item.doc "b.json"]) :
          Settled String String).value = Result.array xs
        ∧ xs.length = ["a.json", "b.json"].length) :=
  ⟨(result_shape_follows_input (fun _ s _ => (Outcome.success s : Outcome String String))
      "a.json" ["a.json", "b.json"] (OptionsArg.undefined : OptionsArg Unit) none [0]).1 _ rfl,
   (result_shape_follows_input (fun _ s _ => (Outcome.success s : Outcome String String))
      "a.json" ["a.json", "b.json"] (OptionsArg.undefined : OptionsArg Unit) none [0]).2.1
      _ _ rfl rfl,
   (result_shape_follows_input (fun _ s _ => (Outcome.success s : Outcome String String))
      "a.json" ["a.json", "b.json"] (OptionsArg.undefined : OptionsArg Unit) none [1, 0]).2.2.2
      _ rfl (Or.inl rfl)⟩


/-! ### Lemmas on the script normalizer -/

theorem lookupKey_modifyKey (k k2 : String) (f : JVal → JVal) (kvs : List (String × JVal)) :
    lookupKey k2 (modifyKey k f kvs)
      = if k2 = k then (lookupKey k kvs).map f else lookupKey k2 kvs := by
  induction kvs with
  | nil => simp [modifyKey, lookupKey]
  | cons kv rest ih =>
    obtain ⟨k3, v⟩ := kv
    by_cases h3 : k3 = k
    · subst h3
      by_cases h2 : k2 = k3
      · subst h2; simp [modifyKey, lookupKey]
      · have h2b : ¬ k3 = k2 := fun h => h2 h.symm
        simp [modifyKey, lookupKey, h2, h2b]
    · by_cases h2 : k2 = k
      · subst h2
        simp only [modifyKey, lookupKey, h3, if_false, if_true] at ih ⊢
        exact ih
      · simp only [modifyKey, lookupKey, h3, h2, if_false] at ih ⊢
        by_cases h4 : k3 = k2
        · simp [h4]
        · simp [h4, ih]

theorem keys_modifyKey (k : String) (f : JVal → JVal) (kvs : List (String × JVal)) :
    (modifyKey k f kvs).map Prod.fst = kvs.map Prod.fst := by
  induction kvs with
  | nil => rfl
  | cons kv rest ih =>
    obtain ⟨k3, v⟩ := kv
    by_cases h3 : k3 = k
    · simp [modifyKey, h3]
    · simp [modifyKey, h3, ih]

theorem modifyKey_id (k : String) (f : JVal → JVal) (kvs : List (String × JVal))
    (h : ∀ v, lookupKey k kvs = some v → f v = v) : modifyKey k f kvs = kvs := by
  induction kvs with
  | nil => rfl
  | cons kv rest ih =>
    obtain ⟨k3, v⟩ := kv
    by_cases h3 : k3 = k
    · have := h v (by simp [lookupKey, h3])
      simp [modifyKey, h3, this]
    · have h2 : ∀ v, lookupKey k rest = some v → f v = v := by
        intro w hw; exact h w (by simp [lookupKey, h3, hw])
      simp [modifyKey, h3, ih h2]

theorem get_obj (kvs : List (String × JVal)) (k : String) :
    get (obj kvs) k = (lookupKey k kvs).getD undefined := rfl

theorem debufferFolderItems_cons (toStr : List Nat → String) (k : String) (v : JVal)
    (rest : List (String × JVal)) :
    debufferFolderItems toStr ((k, v) :: rest)
      = if k = "items" then
          match v with
          | arr xs => (debufferItems toStr xs).map fun xs2 => (k, arr xs2) :: rest
          | _ => pure ((k, v) :: rest)
        else (debufferFolderItems toStr rest).map fun r => (k, v) :: r := by
  cases v <;> rfl

/-- The crawl of a folder, read off the property `items` as the source does:
when `folder.items` is an array its items are crawled and put back in place,
and otherwise nothing happens. -/
theorem debufferFolderItems_eq (toStr : List Nat → String) (kvs : List (String × JVal)) :
    debufferFolderItems toStr kvs
      = match lookupKey "items" kvs with
        | some (arr xs) =>
          (debufferItems toStr xs).map fun xs2 => replaceKey "items" (arr xs2) kvs
        | _ => Except.ok kvs := by
  induction kvs with
  | nil => rfl
  | cons kv rest ih =>
    obtain ⟨k, v⟩ := kv
    by_cases hk : k = "items"
    · subst hk
      rw [debufferFolderItems_cons]
      cases v <;> simp [lookupKey, replaceKey, modifyKey] <;> rfl
    · rw [debufferFolderItems_cons]
      simp only [hk, if_false, lookupKey]
      rw [ih]
      cases hl : lookupKey "items" rest with
      | none => rfl
      | some w =>
        cases w <;> try rfl
        rename_i xs
        simp only [replaceKey, modifyKey, hk, if_false]
        cases debufferItems toStr xs <;> rfl

theorem debufferItems_ok (toStr : List Nat → String) :
    ∀ (xs xs2 : List JVal), debufferItems toStr xs = Except.ok xs2 →
      xs2.length = xs.length
      ∧ ∀ (i : Nat) (x : JVal), xs[i]? = some x →
          ∃ x2, xs2[i]? = some x2 ∧ debufferItem toStr x = Except.ok x2 := by
  intro xs
  induction xs with
  | nil =>
    intro xs2 h
    simp only [debufferItems, pure, Except.pure] at h
    cases h
    simp
  | cons x xs ih =>
    intro xs2 h
    rw [debufferItems] at h
    cases hx : debufferItem toStr x with
    | error e => rw [hx] at h; cases h
    | ok x2 =>
      rw [hx] at h
      cases hxs : debufferItems toStr xs with
      | error e => rw [hxs] at h; cases h
      | ok ys =>
        rw [hxs] at h
        simp only [pure, Except.pure] at h
        cases h
        obtain ⟨hl, hi⟩ := ih ys hxs
        refine ⟨by simp [hl], ?_⟩
        intro i y hy
        cases i with
        | zero =>
          simp only [List.getElem?_cons_zero, Option.some.injEq] at hy
          subst hy
          exact ⟨x2, by simp, hx⟩
        | succ i =>
          simp only [List.getElem?_cons_succ] at hy ⊢
          exact hi i y hy


theorem debufferItem_obj (toStr : List Nat → String) (kvs : List (String × JVal)) :
    debufferItem toStr (obj kvs)
      = if truthy (get (obj kvs) "items") then (debufferFolderItems toStr kvs).map obj
        else pure (obj (replaceKey "events"
          (debufferScripts toStr (get (obj kvs) "events")) kvs)) := by
  rw [debufferItem]

/-- The callback of the crawl as the source words it: an item that is not `null`
or `undefined` goes to `debufferFolder` when its `items` is truthy, and has its
`events` normalized otherwise. -/
theorem debufferItem_eq (toStr : List Nat → String) (x : JVal) (hx : isNullish x = false) :
    debufferItem toStr x
      = if truthy (get x "items") then debufferFolder toStr x
        else Except.ok (normalizeAsLeaf toStr x) := by
  cases x with
  | undefined => cases hx
  | null => cases hx
  | obj kvs => rw [debufferItem_obj]; rfl
  | bool b => rfl
  | num n => rfl
  | str s => rfl
  | buffer b => rfl
  | arr xs => rfl

theorem debufferItem_nullish (toStr : List Nat → String) (x : JVal) (hx : isNullish x = true) :
    debufferItem toStr x = Except.error JsError.typeError := by
  cases x <;> first | rfl | cases hx

theorem lookupKey_map (f : JVal → JVal) (k : String) (kvs : List (String × JVal)) :
    lookupKey k (kvs.map fun kv => (kv.1, f kv.2)) = (lookupKey k kvs).map f := by
  induction kvs with
  | nil => rfl
  | cons kv rest ih =>
    obtain ⟨k3, v⟩ := kv
    by_cases h3 : k3 = k
    · simp [lookupKey, h3]
    · simp only [List.map_cons, lookupKey, h3, if_false]
      exact ih

theorem valueAt_nil (v : JVal) : v.valueAt [] = some v := by
  cases v <;> rfl

theorem valueAt_cons (v : JVal) (s : Step) (p : List Step) :
    v.valueAt (s :: p) = (v.child s).bind fun c => c.valueAt p := by
  rw [JVal.valueAt]
  cases v.child s <;> rfl

theorem child_debufferEntry (toStr : List Nat → String) (w : JVal) (s : Step) :
    (debufferEntry toStr w).child s = w.child s := by
  cases w <;> rfl

theorem valueAt_debufferEntry (toStr : List Nat → String) (w : JVal) (s : Step)
    (p : List Step) :
    (debufferEntry toStr w).valueAt (s :: p) = w.valueAt (s :: p) := by
  rw [valueAt_cons, valueAt_cons, child_debufferEntry]

theorem child_debufferScripts (toStr : List Nat → String) (ev : JVal) (s : Step) :
    (debufferScripts toStr ev).child s = (ev.child s).map (debufferEntry toStr) := by
  cases ev with
  | obj kvs =>
    cases s with
    | key k => exact lookupKey_map _ k kvs
    | idx i => rfl
  | arr xs =>
    cases s with
    | key k => rfl
    | idx i => simp [debufferScripts, JVal.child, List.getElem?_map]
  | undefined => cases s <;> rfl
  | null => cases s <;> rfl
  | bool b => cases s <;> rfl
  | num n => cases s <;> rfl
  | str t => cases s <;> rfl
  | buffer b => cases s <;> rfl

theorem shape_debufferScripts (toStr : List Nat → String) (ev : JVal) :
    (debufferScripts toStr ev).shape = ev.shape := by
  cases ev <;> simp [debufferScripts, JVal.shape, Function.comp_def]

/-- The map handed to `debufferScripts` changes at its direct entries only. -/
theorem debufferScripts_pathwise (toStr : List Nat → String) (ev : JVal) :
    Pathwise toStr (fun r => r.length == 1) ev (debufferScripts toStr ev) := by
  intro r
  cases r with
  | nil => simp [valueAt_nil, shape_debufferScripts]
  | cons s r2 =>
    rw [valueAt_cons, valueAt_cons, child_debufferScripts]
    cases ev.child s with
    | none => rfl
    | some w =>
      cases r2 with
      | nil => simp [valueAt_nil]
      | cons t r3 =>
        simp [valueAt_debufferEntry]


theorem isEntryOf_cons (k k2 : String) (r : List Step) :
    isEntryOf k (Step.key k2 :: r) = (k2 == k && r.length == 1) := by
  cases r with
  | nil => simp [isEntryOf]
  | cons t r3 =>
    cases r3 with
    | nil => simp [isEntryOf]
    | cons u r4 => simp [isEntryOf]

theorem isEntryOf_idx (k : String) (i : Nat) (r : List Step) :
    isEntryOf k (Step.idx i :: r) = false := by
  cases r with
  | nil => rfl
  | cons t r3 => cases r3 <;> rfl

theorem events_ne_items : ¬ ("items" : String) = "events" := by decide

theorem get_normalizeAsLeaf_items (toStr : List Nat → String) (x : JVal) :
    get (normalizeAsLeaf toStr x) "items" = get x "items" := by
  cases x <;> try rfl
  rename_i kvs
  simp only [normalizeAsLeaf, get_obj, replaceKey, lookupKey_modifyKey, events_ne_items,
    if_false]

theorem shape_normalizeAsLeaf (toStr : List Nat → String) (x : JVal) :
    (normalizeAsLeaf toStr x).shape = x.shape := by
  cases x <;> try rfl
  rename_i kvs
  simp only [normalizeAsLeaf, JVal.shape, replaceKey, keys_modifyKey]

theorem child_normalizeAsLeaf (toStr : List Nat → String) (x : JVal) (s : Step) :
    (normalizeAsLeaf toStr x).child s
      = match s with
        | Step.key k =>
          if k = "events" then (x.child s).map (debufferScripts toStr) else x.child s
        | Step.idx _ => x.child s := by
  cases x with
  | obj kvs =>
    cases s with
    | idx i => rfl
    | key k =>
      simp only [normalizeAsLeaf, JVal.child, replaceKey, lookupKey_modifyKey, get_obj]
      by_cases hk : k = "events"
      · subst hk
        simp only [if_true]
        cases lookupKey "events" kvs <;> rfl
      · simp [hk]
  | arr xs => cases s <;> simp [normalizeAsLeaf, JVal.child]
  | undefined => cases s <;> simp [normalizeAsLeaf, JVal.child]
  | null => cases s <;> simp [normalizeAsLeaf, JVal.child]
  | bool b => cases s <;> simp [normalizeAsLeaf, JVal.child]
  | num n => cases s <;> simp [normalizeAsLeaf, JVal.child]
  | str t => cases s <;> simp [normalizeAsLeaf, JVal.child]
  | buffer b => cases s <;> simp [normalizeAsLeaf, JVal.child]

/-- A leaf changes at the direct entries of its `events` map only. -/
theorem normalizeAsLeaf_pathwise (toStr : List Nat → String) (x : JVal) :
    Pathwise toStr (isEntryOf "events") x (normalizeAsLeaf toStr x) := by
  intro r
  cases r with
  | nil => simp [valueAt_nil, shape_normalizeAsLeaf, isEntryOf]
  | cons s r2 =>
    rw [valueAt_cons, valueAt_cons, child_normalizeAsLeaf]
    cases s with
    | idx i => simp [isEntryOf_idx]
    | key k =>
      by_cases hk : k = "events"
      · subst hk
        simp only [if_true, isEntryOf_cons, beq_self_eq_true, Bool.true_and]
        cases hc : x.child (Step.key "events") with
        | none => rfl
        | some ev =>
          have := debufferScripts_pathwise toStr ev r2
          simpa using this
      · simp only [hk, if_false, isEntryOf_cons]
        have : (k == "events") = false := by simpa using hk
        simp [this]

/-- What the callback did to an item on which it did not throw. -/
theorem debufferItem_cases (toStr : List Nat → String) (x x2 : JVal)
    (h : debufferItem toStr x = Except.ok x2) :
    (codeLeaf x = true ∧ x2 = normalizeAsLeaf toStr x)
      ∨ (codeLeaf x = false ∧ debufferFolder toStr x = Except.ok x2) := by
  have hx : isNullish x = false := by
    cases hn : isNullish x with
    | false => rfl
    | true => rw [debufferItem_nullish toStr x hn] at h; cases h
  rw [debufferItem_eq toStr x hx] at h
  cases ht : truthy (get x "items") with
  | true =>
    right
    rw [ht] at h
    exact ⟨by simp [codeLeaf, ht], by simpa using h⟩
  | false =>
    left
    rw [ht] at h
    simp only [Bool.false_eq_true, if_false] at h
    cases h
    exact ⟨by simp [codeLeaf, ht], rfl⟩

/-- What `debufferFolder` did to a value on which it did not throw. -/
theorem debufferFolder_cases (toStr : List Nat → String) (v v2 : JVal)
    (h : debufferFolder toStr v = Except.ok v2) :
    (isArray (get v "items") = false ∧ v2 = v)
      ∨ ∃ kvs xs xs2, v = obj kvs ∧ lookupKey "items" kvs = some (arr xs)
          ∧ debufferItems toStr xs = Except.ok xs2
          ∧ v2 = obj (replaceKey "items" (arr xs2) kvs) := by
  cases v with
  | obj kvs =>
    simp only [debufferFolder] at h
    rw [debufferFolderItems_eq] at h
    cases hl : lookupKey "items" kvs with
    | none =>
      rw [hl] at h
      left
      refine ⟨by simp [get_obj, hl, isArray], ?_⟩
      cases h; rfl
    | some w =>
      rw [hl] at h
      cases w with
      | arr xs =>
        right
        simp only at h
        cases hxs : debufferItems toStr xs with
        | error e => rw [hxs] at h; cases h
        | ok xs2 =>
          rw [hxs] at h
          cases h
          exact ⟨kvs, xs, xs2, rfl, hl, hxs, rfl⟩
      | undefined => left; refine ⟨by simp [get_obj, hl, isArray], ?_⟩; cases h; rfl
      | null => left; refine ⟨by simp [get_obj, hl, isArray], ?_⟩; cases h; rfl
      | bool b => left; refine ⟨by simp [get_obj, hl, isArray], ?_⟩; cases h; rfl
      | num n => left; refine ⟨by simp [get_obj, hl, isArray], ?_⟩; cases h; rfl
      | str t => left; refine ⟨by simp [get_obj, hl, isArray], ?_⟩; cases h; rfl
      | buffer b => left; refine ⟨by simp [get_obj, hl, isArray], ?_⟩; cases h; rfl
      | obj kvs3 => left; refine ⟨by simp [get_obj, hl, isArray], ?_⟩; cases h; rfl
  | undefined => left; refine ⟨rfl, ?_⟩; cases h; rfl
  | null => left; refine ⟨rfl, ?_⟩; cases h; rfl
  | bool b => left; refine ⟨rfl, ?_⟩; cases h; rfl
  | num n => left; refine ⟨rfl, ?_⟩; cases h; rfl
  | str t => left; refine ⟨rfl, ?_⟩; cases h; rfl
  | buffer b => left; refine ⟨rfl, ?_⟩; cases h; rfl
  | arr xs => left; refine ⟨rfl, ?_⟩; cases h; rfl

theorem scriptPathIn_of_not_array (leaf : JVal → Bool) (v : JVal)
    (h : isArray (get v "items") = false) (p : List Step) : scriptPathIn leaf v p = false := by
  cases p with
  | nil => rfl
  | cons s q =>
    cases s with
    | idx i => rfl
    | key k =>
      cases q with
      | nil => rfl
      | cons t r =>
        cases t with
        | key k2 => rfl
        | idx i =>
          rw [scriptPathIn]
          cases hg : get v "items" <;> simp
          rw [hg] at h; cases h


theorem scriptPathIn_items (leaf : JVal → Bool) (v : JVal) (xs : List JVal)
    (hg : get v "items" = arr xs) (i : Nat) (r : List Step) :
    scriptPathIn leaf v (Step.key "items" :: Step.idx i :: r)
      = match xs[i]? with
        | some x => if leaf x then isEntryOf "events" r else scriptPathIn leaf x r
        | none => false := by
  rw [scriptPathIn, hg]
  simp

theorem scriptPathIn_key_ne (leaf : JVal → Bool) (v : JVal) (k : String)
    (hk : ¬ k = "items") (q : List Step) :
    scriptPathIn leaf v (Step.key k :: q) = false := by
  cases q with
  | nil => rfl
  | cons t r =>
    cases t with
    | key k2 => rfl
    | idx i =>
      rw [scriptPathIn]
      have : (k == "items") = false := by simpa using hk
      simp [this]

theorem scriptPathIn_idx (leaf : JVal → Bool) (v : JVal) (i : Nat) (q : List Step) :
    scriptPathIn leaf v (Step.idx i :: q) = false := rfl

theorem scriptPathIn_key_key (leaf : JVal → Bool) (v : JVal) (k k2 : String)
    (q : List Step) :
    scriptPathIn leaf v (Step.key k :: Step.key k2 :: q) = false := rfl

theorem codeLeaf_normalizeAsLeaf (toStr : List Nat → String) (x : JVal) :
    codeLeaf (normalizeAsLeaf toStr x) = codeLeaf x := by
  simp only [codeLeaf, get_normalizeAsLeaf_items]

theorem get_replaceKey_self (k : String) (w : JVal) (kvs : List (String × JVal)) (v : JVal)
    (h : lookupKey k kvs = some v) : get (obj (replaceKey k w kvs)) k = w := by
  simp [get_obj, replaceKey, lookupKey_modifyKey, h]

theorem codeLeaf_debufferFolder (toStr : List Nat → String) (v v2 : JVal)
    (h : debufferFolder toStr v = Except.ok v2) : codeLeaf v2 = codeLeaf v := by
  rcases debufferFolder_cases toStr v v2 h with ⟨_, h2⟩ | ⟨kvs, xs, xs2, hv, hl, _, hv2⟩
  · rw [h2]
  · subst hv hv2
    simp only [codeLeaf, get_replaceKey_self _ _ _ _ hl, get_obj, hl, Option.getD_some, truthy]

/-- The crawl of a folder changes exactly the direct entries of the `events` maps
of the leaves it reaches, and the set of those paths is the same afterwards. -/
theorem debufferFolder_paths (toStr : List Nat → String) :
    ∀ (n : Nat) (p : List Step), p.length ≤ n → ∀ (v v2 : JVal),
      debufferFolder toStr v = Except.ok v2 →
      (v2.valueAt p).map JVal.shape
          = (v.valueAt p).map
              (fun w => (if scriptPathIn codeLeaf v p then debufferEntry toStr w else w).shape)
        ∧ scriptPathIn codeLeaf v2 p = scriptPathIn codeLeaf v p := by
  intro n
  induction n with
  | zero =>
    intro p hp v v2 h
    have hp0 : p = [] := List.length_eq_zero.1 (Nat.le_zero.1 hp)
    subst hp0
    rcases debufferFolder_cases toStr v v2 h with ⟨_, h2⟩ | ⟨kvs, xs, xs2, hv, _, _, hv2⟩
    · subst h2; simp [valueAt_nil, scriptPathIn]
    · subst hv hv2
      simp [valueAt_nil, scriptPathIn, JVal.shape, replaceKey, keys_modifyKey]
  | succ n ih =>
    intro p hp v v2 h
    rcases debufferFolder_cases toStr v v2 h with ⟨hna, h2⟩ | ⟨kvs, xs, xs2, hv, hl, hxs, hv2⟩
    · subst h2
      simp [scriptPathIn_of_not_array _ _ hna]
    · subst hv hv2
      have hg : get (obj kvs) "items" = arr xs := by simp [get_obj, hl]
      have hg2 : get (obj (replaceKey "items" (arr xs2) kvs)) "items" = arr xs2 :=
        get_replaceKey_self _ _ _ _ hl
      obtain ⟨hlen, hitems⟩ := debufferItems_ok toStr xs xs2 hxs
      cases p with
      | nil => simp [valueAt_nil, scriptPathIn, JVal.shape, replaceKey, keys_modifyKey]
      | cons s q =>
        cases s with
        | idx i => simp [valueAt_cons, JVal.child, scriptPathIn_idx]
        | key k =>
          by_cases hk : k = "items"
          · subst hk
            have hc1 : (obj kvs).child (Step.key "items") = some (arr xs) := hl
            have hc2 : (obj (replaceKey "items" (arr xs2) kvs)).child (Step.key "items")
                = some (arr xs2) := by
              simp [JVal.child, replaceKey, lookupKey_modifyKey, hl]
            rw [valueAt_cons, valueAt_cons, hc1, hc2]
            simp only [Option.some_bind]
            cases q with
            | nil => simp [valueAt_nil, JVal.shape, hlen, scriptPathIn]
            | cons t r =>
              cases t with
              | key k2 => simp [valueAt_cons, JVal.child, scriptPathIn_key_key]
              | idx i =>
                rw [scriptPathIn_items _ _ _ hg, scriptPathIn_items _ _ _ hg2,
                  valueAt_cons, valueAt_cons]
                simp only [JVal.child]
                cases hxi : xs[i]? with
                | none =>
                  have : xs2[i]? = none := by
                    rw [List.getElem?_eq_none_iff] at hxi ⊢
                    omega
                  simp [this]
                | some x =>
                  obtain ⟨x2, hx2, hitem⟩ := hitems i x hxi
                  rw [hx2]
                  simp only [Option.some_bind]
                  rcases debufferItem_cases toStr x x2 hitem with ⟨hleaf, hx2e⟩ | ⟨hleaf, hf⟩
                  · subst hx2e
                    rw [codeLeaf_normalizeAsLeaf]
                    simp only [hleaf, if_true, and_true]
                    exact normalizeAsLeaf_pathwise toStr x r
                  · rw [codeLeaf_debufferFolder toStr x x2 hf]
                    simp only [hleaf, Bool.false_eq_true, if_false]
                    have hr : r.length ≤ n := by
                      simp only [List.length_cons] at hp
                      omega
                    exact ih r hr x x2 hf
          · have hc : (obj (replaceKey "items" (arr xs2) kvs)).child (Step.key k)
                = (obj kvs).child (Step.key k) := by
              simp [JVal.child, replaceKey, lookupKey_modifyKey, hk]
            rw [valueAt_cons, valueAt_cons, hc, scriptPathIn_key_ne _ _ _ hk,
              scriptPathIn_key_ne _ _ _ hk]
            simp


/-- What `debuffer` did to an object on which it did not throw. -/
theorem debuffer_obj_ok (toStr : List Nat → String) (kvs : List (String × JVal)) (d2 : JVal)
    (h : debuffer toStr (obj kvs) = Except.ok d2) :
    ∃ rq ts ex,
      debufferFolder toStr (get (obj kvs) "requests") = Except.ok rq
      ∧ debufferFolder toStr (get (obj kvs) "tests") = Except.ok ts
      ∧ debufferFolder toStr (get (obj kvs) "examples") = Except.ok ex
      ∧ d2 = obj (replaceKey "examples" ex (replaceKey "tests" ts
          (replaceKey "requests" rq
            (replaceKey "scripts" (debufferScripts toStr (get (obj kvs) "scripts")) kvs)))) := by
  simp only [debuffer] at h
  cases h1 : debufferFolder toStr (get (obj kvs) "requests") with
  | error e => rw [h1] at h; cases h
  | ok rq =>
    rw [h1] at h
    cases h2 : debufferFolder toStr (get (obj kvs) "tests") with
    | error e => rw [h2] at h; cases h
    | ok ts =>
      rw [h2] at h
      cases h3 : debufferFolder toStr (get (obj kvs) "examples") with
      | error e => rw [h3] at h; cases h
      | ok ex =>
        rw [h3] at h
        cases h
        exact ⟨rq, ts, ex, rfl, rfl, rfl, rfl⟩

/-- The entries of the document after `debuffer`, key by key. -/
theorem lookupKey_debuffered (kvs : List (String × JVal)) (sc rq ts ex : JVal) (k : String) :
    lookupKey k (replaceKey "examples" ex (replaceKey "tests" ts
        (replaceKey "requests" rq (replaceKey "scripts" sc kvs))))
      = if k = "scripts" then (lookupKey k kvs).map fun _ => sc
        else if k = "requests" then (lookupKey k kvs).map fun _ => rq
        else if k = "tests" then (lookupKey k kvs).map fun _ => ts
        else if k = "examples" then (lookupKey k kvs).map fun _ => ex
        else lookupKey k kvs := by
  have e1 : ¬ ("scripts" : String) = "requests" := by decide
  have e2 : ¬ ("scripts" : String) = "tests" := by decide
  have e3 : ¬ ("scripts" : String) = "examples" := by decide
  have e4 : ¬ ("requests" : String) = "tests" := by decide
  have e5 : ¬ ("requests" : String) = "examples" := by decide
  have e6 : ¬ ("tests" : String) = "examples" := by decide
  simp only [replaceKey, lookupKey_modifyKey]
  by_cases h1 : k = "scripts"
  · subst h1; simp [e1, e2, e3]
  · by_cases h2 : k = "requests"
    · subst h2; simp [e4, e5]
    · by_cases h3 : k = "tests"
      · subst h3; simp [e6]
      · by_cases h4 : k = "examples"
        · subst h4; simp
        · simp [h1, h2, h3, h4]

theorem debufferFolder_undefined (toStr : List Nat → String) :
    debufferFolder toStr undefined = Except.ok undefined := rfl

/-- One of the three folder trees of a document, before and after. -/
theorem root_paths (toStr : List Nat → String) (kvs kvs2 : List (String × JVal)) (k : String)
    (r : JVal) (hk : lookupKey k kvs2 = (lookupKey k kvs).map fun _ => r)
    (hf : debufferFolder toStr (get (obj kvs) k) = Except.ok r) (q : List Step) :
    ((obj kvs2).valueAt (Step.key k :: q)).map JVal.shape
        = ((obj kvs).valueAt (Step.key k :: q)).map
            (fun w => (if scriptPathIn codeLeaf (get (obj kvs) k) q
              then debufferEntry toStr w else w).shape)
      ∧ scriptPathIn codeLeaf (get (obj kvs2) k) q
          = scriptPathIn codeLeaf (get (obj kvs) k) q := by
  rw [valueAt_cons, valueAt_cons]
  simp only [JVal.child, get_obj, hk]
  rw [get_obj] at hf
  rcases Option.eq_none_or_eq_some (lookupKey k kvs) with hl | ⟨w, hl⟩
  · simp [hl]
  · rw [hl] at hf
    simp only [hl, Option.getD_some, Option.map_some', Option.some_bind] at hf ⊢
    exact debufferFolder_paths toStr q.length q (Nat.le_refl _) w r hf

/-- The normalizer changes exactly the script locations the crawl reaches, and
the set of those locations is the same afterwards. -/
theorem debuffer_paths (toStr : List Nat → String) (d d2 : JVal)
    (h : debuffer toStr d = Except.ok d2) :
    Pathwise toStr (scriptLocation codeLeaf d) d d2
      ∧ ∀ p, scriptLocation codeLeaf d2 p = scriptLocation codeLeaf d p := by
  have hprim : ∀ v : JVal, (∀ s, v.child s = none) →
      Pathwise toStr (scriptLocation codeLeaf v) v v := by
    intro v hv p
    cases p with
    | nil => simp [valueAt_nil, scriptLocation]
    | cons s q => simp [valueAt_cons, hv]
  cases d with
  | undefined => cases h
  | null => cases h
  | bool b => cases h; exact ⟨hprim _ (fun s => by cases s <;> rfl), fun _ => rfl⟩
  | num n => cases h; exact ⟨hprim _ (fun s => by cases s <;> rfl), fun _ => rfl⟩
  | str t => cases h; exact ⟨hprim _ (fun s => by cases s <;> rfl), fun _ => rfl⟩
  | buffer b => cases h; exact ⟨hprim _ (fun s => by cases s <;> rfl), fun _ => rfl⟩
  | arr xs =>
    cases h
    refine ⟨?_, fun _ => rfl⟩
    intro p
    cases p with
    | nil => simp [valueAt_nil, scriptLocation]
    | cons s q =>
      cases s with
      | idx i => simp [scriptLocation]
      | key k => simp [valueAt_cons, JVal.child]
  | obj kvs =>
    obtain ⟨rq, ts, ex, h1, h2, h3, hd2⟩ := debuffer_obj_ok toStr kvs d2 h
    subst hd2
    have hlk := lookupKey_debuffered kvs (debufferScripts toStr (get (obj kvs) "scripts")) rq ts ex
    have e1 : ¬ ("requests" : String) = "scripts" := by decide
    have e2 : ¬ ("tests" : String) = "scripts" := by decide
    have e3 : ¬ ("examples" : String) = "scripts" := by decide
    have e4 : ¬ ("tests" : String) = "requests" := by decide
    have e5 : ¬ ("examples" : String) = "requests" := by decide
    have e6 : ¬ ("examples" : String) = "tests" := by decide
    have key : ∀ p,
        ((obj (replaceKey "examples" ex (replaceKey "tests" ts (replaceKey "requests" rq
            (replaceKey "scripts" (debufferScripts toStr (get (obj kvs) "scripts"))
              kvs))))).valueAt p).map JVal.shape
          = ((obj kvs).valueAt p).map
              (fun w => (if scriptLocation codeLeaf (obj kvs) p
                then debufferEntry toStr w else w).shape)
        ∧ scriptLocation codeLeaf
            (obj (replaceKey "examples" ex (replaceKey "tests" ts (replaceKey "requests" rq
              (replaceKey "scripts" (debufferScripts toStr (get (obj kvs) "scripts"))
                kvs))))) p
          = scriptLocation codeLeaf (obj kvs) p := by
      intro p
      cases p with
      | nil =>
        simp [valueAt_nil, scriptLocation, JVal.shape, replaceKey, keys_modifyKey]
      | cons s q =>
        cases s with
        | idx i => simp [valueAt_cons, JVal.child, scriptLocation]
        | key k =>
          by_cases k1 : k = "scripts"
          · subst k1
            simp only [scriptLocation, if_true, and_true]
            rw [valueAt_cons, valueAt_cons]
            simp only [JVal.child]
            rw [hlk]
            simp only [if_true, get_obj]
            rcases Option.eq_none_or_eq_some (lookupKey "scripts" kvs) with hl | ⟨ev, hl⟩
            · simp [hl]
            · simp only [hl, Option.getD_some, Option.map_some', Option.some_bind]
              exact debufferScripts_pathwise toStr ev q
          · by_cases k2 : k = "requests"
            · subst k2
              simp only [scriptLocation, e1, if_false, true_or, if_true]
              exact root_paths toStr kvs _ "requests" rq (by rw [hlk]; simp [e1]) h1 q
            · by_cases k3 : k = "tests"
              · subst k3
                simp only [scriptLocation, e2, if_false, true_or, or_true, if_true]
                exact root_paths toStr kvs _ "tests" ts (by rw [hlk]; simp [e2, e4]) h2 q
              · by_cases k4 : k = "examples"
                · subst k4
                  simp only [scriptLocation, e3, if_false, or_true, if_true]
                  exact root_paths toStr kvs _ "examples" ex
                    (by rw [hlk]; simp [e3, e5, e6]) h3 q
                · rw [valueAt_cons, valueAt_cons]
                  simp only [JVal.child, hlk, scriptLocation, k1, k2, k3, k4, if_false,
                    or_self]
                  simp
    exact ⟨fun p => (key p).1, fun p => (key p).2⟩


theorem shape_atom (v w : JVal) (h : v.shape = Shape.atom w) : v = w := by
  cases v <;> simp [JVal.shape] at h <;> exact h

theorem shape_array (v : JVal) (n : Nat) (h : v.shape = Shape.array n) :
    ∃ xs, v = arr xs ∧ xs.length = n := by
  cases v <;> simp [JVal.shape] at h
  exact ⟨_, rfl, h⟩

theorem shape_object (v : JVal) (ks : List String) (h : v.shape = Shape.object ks) :
    ∃ kvs, v = obj kvs ∧ kvs.map Prod.fst = ks := by
  cases v <;> simp [JVal.shape] at h
  exact ⟨_, rfl, by simpa using h⟩

theorem debufferEntry_not_buffer (toStr : List Nat → String) (w : JVal) (b : List Nat) :
    debufferEntry toStr w ≠ buffer b := by
  cases w <;> simp [debufferEntry]

theorem debufferEntry_of_not_buffer (toStr : List Nat → String) (w : JVal)
    (h : ∀ b, w ≠ buffer b) : debufferEntry toStr w = w := by
  cases w <;> first | rfl | exact absurd rfl (h _)

/-- A leaf by the test of the code is a leaf in the words of the specification. -/
theorem specLeaf_of_codeLeaf (x : JVal) (h : codeLeaf x = true) : specLeaf x = true := by
  simp only [codeLeaf, specLeaf] at h ⊢
  cases hg : get x "items" <;> rw [hg] at h <;> simp [isArray, truthy] at h ⊢

/-- Every script location the crawl reaches is one in the words of the
specification. -/
theorem scriptPathIn_spec_of_code :
    ∀ (n : Nat) (p : List Step), p.length ≤ n → ∀ v : JVal,
      scriptPathIn codeLeaf v p = true → scriptPathIn specLeaf v p = true := by
  intro n
  induction n with
  | zero =>
    intro p hp v h
    have hp0 : p = [] := List.length_eq_zero.1 (Nat.le_zero.1 hp)
    subst hp0
    cases h
  | succ n ih =>
    intro p hp v h
    cases p with
    | nil => cases h
    | cons s q =>
      cases s with
      | idx i => cases h
      | key k =>
        cases q with
        | nil => cases h
        | cons t r =>
          cases t with
          | key k2 => cases h
          | idx i =>
            by_cases hk : k = "items"
            · subst hk
              cases hg : isArray (get v "items") with
              | false => rw [scriptPathIn_of_not_array _ _ hg] at h; cases h
              | true =>
                cases hv : get v "items" <;> rw [hv] at hg <;> try cases hg
                rename_i xs
                rw [scriptPathIn_items _ _ _ hv] at h ⊢
                cases hxi : xs[i]? with
                | none => rw [hxi] at h; cases h
                | some x =>
                  rw [hxi] at h
                  simp only at h ⊢
                  cases hl : codeLeaf x with
                  | true =>
                    rw [hl] at h
                    rw [specLeaf_of_codeLeaf x hl]
                    simpa using h
                  | false =>
                    rw [hl] at h
                    simp only [Bool.false_eq_true, if_false] at h
                    have hs : specLeaf x = false := by
                      cases hs : specLeaf x with
                      | false => rfl
                      | true =>
                        have hna : isArray (get x "items") = false := by
                          simpa [specLeaf] using hs
                        rw [scriptPathIn_of_not_array _ _ hna] at h
                        cases h
                    rw [hs]
                    simp only [Bool.false_eq_true, if_false]
                    exact ih r (by simp only [List.length_cons] at hp; omega) x h
            · rw [scriptPathIn_key_ne _ _ _ hk] at h; cases h

theorem scriptLocation_spec_of_code (d : JVal) (p : List Step)
    (h : scriptLocation codeLeaf d p = true) : scriptLocation specLeaf d p = true := by
  cases p with
  | nil => cases h
  | cons s q =>
    cases s with
    | idx i => cases h
    | key k =>
      simp only [scriptLocation] at h ⊢
      by_cases k1 : k = "scripts"
      · simpa [k1] using h
      · simp only [k1, if_false] at h ⊢
        by_cases k2 : k = "requests" ∨ k = "tests" ∨ k = "examples"
        · simp only [k2, if_true] at h ⊢
          exact scriptPathIn_spec_of_code q.length q (Nat.le_refl _) _ h
        · simp [k2] at h


/-! ### Claims on the script normalizer -/

/-- Counterexample for C5: in `docWithNumericItems` the node under `tests` has
`items: 1`, so it is not a folder and its script map is a script location in
the words of the specification; `debuffer` completes and leaves the binary
payload there as it was. -/
theorem leaf_with_truthy_items_keeps_buffer :
    scriptLocation specLeaf docWithNumericItems
        [Step.key "tests", Step.key "items", Step.idx 0, Step.key "events", Step.key "test"]
      = true
    ∧ docWithNumericItems.valueAt
        [Step.key "tests", Step.key "items", Step.idx 0, Step.key "events", Step.key "test"]
      = some (buffer [97])
    ∧ debuffer asciiToString docWithNumericItems = Except.ok docWithNumericItems
    ∧ ¬ docWithNumericItems.valueAt
        [Step.key "tests", Step.key "items", Step.idx 0, Step.key "events", Step.key "test"]
      = some (str (asciiToString [97])) := by
  refine ⟨rfl, rfl, rfl, ?_⟩
  intro h
  have h2 : some (buffer [97]) = some (str (asciiToString [97])) := h
  cases h2

/-- C5 (amended): when `debuffer` completes, every binary payload that was a
direct entry of the top-level scripts map, or of the script map of a node that
the crawl reaches through `items` arrays and whose own `items` is falsy, has
been replaced by its text decoding, and no binary payload remains in any of
those locations. -/
theorem debuffer_decodes_script_entries (toStr : List Nat → String) (d d2 : JVal)
    (h : debuffer toStr d = Except.ok d2) :
    (∀ (p : List Step) (b : List Nat), scriptLocation codeLeaf d p = true →
        d.valueAt p = some (buffer b) → d2.valueAt p = some (str (toStr b)))
    ∧ (∀ (p : List Step) (b : List Nat), scriptLocation codeLeaf d2 p = true →
        d2.valueAt p ≠ some (buffer b)) := by
  obtain ⟨hpw, hloc⟩ := debuffer_paths toStr d d2 h
  constructor
  · intro p b hp hv
    have := hpw p
    rw [hv, hp] at this
    simp only [if_true, Option.map_some'] at this
    cases hv2 : d2.valueAt p with
    | none => rw [hv2] at this; cases this
    | some w =>
      rw [hv2] at this
      simp only [Option.map_some', Option.some.injEq] at this
      rw [shape_atom w _ this]
  · intro p b hp hv2
    rw [hloc p] at hp
    have := hpw p
    rw [hv2, hp] at this
    simp only [if_true, Option.map_some'] at this
    cases hv : d.valueAt p with
    | none => rw [hv] at this; cases this
    | some w =>
      rw [hv] at this
      simp only [Option.map_some', Option.some.injEq] at this
      have h3 : (buffer b).shape = Shape.atom (buffer b) := rfl
      rw [h3] at this
      have h4 := shape_atom _ _ this.symm
      exact debufferEntry_not_buffer toStr w b h4

/-- Witness for C5: a top-level script and the script of a nested leaf, both
binary, come out as text. -/
theorem debuffer_decodes_script_entries_witness :
    (obj [("scripts", obj [("lib", str "hi")]),
          ("requests", obj [("items", arr [obj [("items", arr
            [obj [("events", obj [("test", str "a")])]])]])])]).valueAt
        [Step.key "requests", Step.key "items", Step.idx 0, Step.key "items", Step.idx 0,
          Step.key "events", Step.key "test"]
      = some (str (asciiToString [97])) :=
  (debuffer_decodes_script_entries asciiToString
    (obj [("scripts", obj [("lib", buffer [104, 105])]),
          ("requests", obj [("items", arr [obj [("items", arr
            [obj [("events", obj [("test", buffer [97])])]])]])])])
    _ rfl).1 _ [97] rfl rfl

/-- C6: when `debuffer` completes, every map has the same keys as before, every
sequence the same length, every primitive value (a value that is its own shape:
neither a map nor a sequence) is where it was, and every binary payload that is
not at a script location (a direct entry of the
top-level scripts map, or of the script map of a leaf of the requests, tests
or examples tree) is still there unchanged; a path has a value afterwards
exactly when it had one before. -/
theorem debuffer_frame (toStr : List Nat → String) (d d2 : JVal)
    (h : debuffer toStr d = Except.ok d2) :
    (∀ (p : List Step) (kvs : List (String × JVal)), d.valueAt p = some (obj kvs) →
        ∃ kvs2, d2.valueAt p = some (obj kvs2) ∧ kvs2.map Prod.fst = kvs.map Prod.fst)
    ∧ (∀ (p : List Step) (xs : List JVal), d.valueAt p = some (arr xs) →
        ∃ xs2, d2.valueAt p = some (arr xs2) ∧ xs2.length = xs.length)
    ∧ (∀ (p : List Step) (v : JVal), d.valueAt p = some v → v.shape = Shape.atom v →
        (∀ b, v ≠ buffer b) → d2.valueAt p = some v)
    ∧ (∀ (p : List Step) (b : List Nat), d.valueAt p = some (buffer b) →
        (scriptLocation specLeaf d p = false ∨ scriptLocation codeLeaf d p = false) →
        d2.valueAt p = some (buffer b))
    ∧ (∀ p : List Step, d2.valueAt p = none ↔ d.valueAt p = none) := by
  obtain ⟨hpw, _⟩ := debuffer_paths toStr d d2 h
  have hbase : ∀ (p : List Step) (v : JVal), d.valueAt p = some v →
      (scriptLocation codeLeaf d p = true → ∀ b, v ≠ buffer b) →
      ∃ v2, d2.valueAt p = some v2 ∧ v2.shape = v.shape := by
    intro p v hv hnb
    have := hpw p
    rw [hv] at this
    simp only [Option.map_some'] at this
    cases hv2 : d2.valueAt p with
    | none => rw [hv2] at this; cases this
    | some w =>
      rw [hv2] at this
      simp only [Option.map_some', Option.some.injEq] at this
      refine ⟨w, rfl, ?_⟩
      rw [this]
      cases hl : scriptLocation codeLeaf d p with
      | false => simp
      | true => simp [debufferEntry_of_not_buffer toStr v (hnb hl)]
  refine ⟨?_, ?_, ?_, ?_, ?_⟩
  · intro p kvs hv
    obtain ⟨v2, hv2, hs⟩ := hbase p _ hv (fun _ b hb => by cases hb)
    obtain ⟨kvs2, he, hk⟩ := shape_object v2 _ hs
    exact ⟨kvs2, by rw [hv2, he], hk⟩
  · intro p xs hv
    obtain ⟨v2, hv2, hs⟩ := hbase p _ hv (fun _ b hb => by cases hb)
    obtain ⟨xs2, he, hk⟩ := shape_array v2 _ hs
    exact ⟨xs2, by rw [hv2, he], hk⟩
  · intro p v hv hatom hnb
    obtain ⟨v2, hv2, hs⟩ := hbase p _ hv (fun _ => hnb)
    rw [hatom] at hs
    rw [hv2, shape_atom v2 v hs]
  · intro p b hv hloc
    have hcode : scriptLocation codeLeaf d p = false := by
      rcases hloc with hspec | hcode
      · cases hc : scriptLocation codeLeaf d p with
        | false => rfl
        | true => rw [scriptLocation_spec_of_code d p hc] at hspec; cases hspec
      · exact hcode
    obtain ⟨v2, hv2, hs⟩ := hbase p _ hv (fun hl => by rw [hcode] at hl; cases hl)
    have h3 : (buffer b).shape = Shape.atom (buffer b) := rfl
    rw [h3] at hs
    rw [hv2, shape_atom v2 _ hs]
  · intro p
    have := hpw p
    cases hv2 : d2.valueAt p <;> cases hv : d.valueAt p <;> rw [hv2, hv] at this <;>
      simp at this ⊢

/-- Witness for C6: a binary payload outside the script locations (the field
`body`) stays binary while the script next to it is decoded. -/
theorem debuffer_frame_witness :
    (obj [("scripts", obj [("lib", str "hi")]), ("body", buffer [1, 2])]).valueAt
        [Step.key "body"]
      = some (buffer [1, 2]) :=
  (debuffer_frame asciiToString
    (obj [("scripts", obj [("lib", buffer [104, 105])]), ("body", buffer [1, 2])])
    _ rfl).2.2.2.1 [Step.key "body"] [1, 2] rfl (Or.inl rfl)


/-- Counterexample for C7: the `items` of `nodeWithStringItems` is present but not an
array, yet the crawl does not treat the node as a leaf: its script map is not
normalized, the node is left as it is. -/
theorem node_with_string_items_not_leaf :
    ¬ (isArray (get nodeWithStringItems "items") = false →
        debufferItem asciiToString nodeWithStringItems
          = Except.ok (normalizeAsLeaf asciiToString nodeWithStringItems)) := by
  intro h
  have h1 := h rfl
  have h2 : debufferItem asciiToString nodeWithStringItems = Except.ok nodeWithStringItems :=
    rfl
  rw [h2] at h1
  injection h1 with h3
  have h4 : nodeWithStringItems.valueAt [Step.key "events", Step.key "test"]
      = (normalizeAsLeaf asciiToString nodeWithStringItems).valueAt
          [Step.key "events", Step.key "test"] := by rw [← h3]
  have h5 : some (buffer [97]) = some (str (asciiToString [97])) := h4
  cases h5

/-- C7 (amended): a node met by the crawl (not `null` or `undefined`) is classified
by the truthiness of its `items`: with truthy `items` it is handed to
`debufferFolder`, with falsy `items` it is a leaf and exactly its own script map
is normalized. `debufferFolder` crawls the children when `items` is an array
and does nothing at all otherwise. -/
theorem node_classification (toStr : List Nat → String) (x : JVal)
    (hx : isNullish x = false) :
    (truthy (get x "items") = true → debufferItem toStr x = debufferFolder toStr x)
    ∧ (truthy (get x "items") = false →
        debufferItem toStr x = Except.ok (normalizeAsLeaf toStr x))
    ∧ (∀ kvs xs, x = obj kvs → lookupKey "items" kvs = some (arr xs) →
        debufferFolder toStr x
          = (debufferItems toStr xs).map fun xs2 => obj (replaceKey "items" (arr xs2) kvs))
    ∧ (isArray (get x "items") = false → debufferFolder toStr x = Except.ok x) := by
  refine ⟨?_, ?_, ?_, ?_⟩
  · intro ht
    rw [debufferItem_eq toStr x hx, ht]
    rfl
  · intro ht
    rw [debufferItem_eq toStr x hx, ht]
    rfl
  · intro kvs xs hobj hl
    subst hobj
    simp only [debufferFolder]
    rw [debufferFolderItems_eq, hl]
    simp only
    cases hxs : debufferItems toStr xs <;> rfl
  · intro hna
    cases x with
    | obj kvs =>
      simp only [debufferFolder]
      rw [debufferFolderItems_eq]
      rw [get_obj] at hna
      rcases Option.eq_none_or_eq_some (lookupKey "items" kvs) with hl | ⟨w, hl⟩
      · rw [hl]; rfl
      · rw [hl] at hna ⊢
        cases w <;> first | rfl | cases hna
    | undefined => rfl
    | null => rfl
    | bool b => rfl
    | num n => rfl
    | str t => rfl
    | buffer b => rfl
    | arr xs => rfl

/-- Witness for C7: a node without `items` is a leaf and its binary script is
decoded. -/
theorem node_classification_witness :
    debufferItem asciiToString (obj [("events", obj [("test", buffer [97])])])
      = Except.ok (normalizeAsLeaf asciiToString (obj [("events", obj [("test", buffer [97])])])) :=
  (node_classification asciiToString (obj [("events", obj [("test", buffer [97])])]) rfl).2.1 rfl


theorem traversableEntries_cons (k : String) (v : JVal) (rest : List (String × JVal)) :
    traversableEntries ((k, v) :: rest)
      = if k = "items" then
          match v with
          | arr xs => traversableItems xs
          | _ => true
        else traversableEntries rest := by
  cases v <;> rfl

theorem traversableItems_cons (x : JVal) (xs : List JVal) :
    traversableItems (x :: xs) = (traversableItem x && traversableItems xs) := by
  rw [traversableItems]

theorem traversableItem_obj (kvs : List (String × JVal)) :
    traversableItem (obj kvs)
      = if truthy (get (obj kvs) "items") then traversableEntries kvs else true := by
  rw [traversableItem]

theorem debufferItems_cons (toStr : List Nat → String) (x : JVal) (xs : List JVal) :
    debufferItems toStr (x :: xs)
      = match debufferItem toStr x with
        | Except.error e => Except.error e
        | Except.ok x2 =>
          match debufferItems toStr xs with
          | Except.error e => Except.error e
          | Except.ok xs2 => pure (x2 :: xs2) := by
  rw [debufferItems]

mutual
/-- The crawl of a folder completes when no item it reaches is `null` or
`undefined`. -/
theorem debufferFolderItems_ok_of_traversable (toStr : List Nat → String) :
    ∀ kvs : List (String × JVal), traversableEntries kvs = true →
      ∃ kvs2, debufferFolderItems toStr kvs = Except.ok kvs2
  | [], _ => ⟨[], rfl⟩
  | (k, v) :: rest, h => by
    rw [debufferFolderItems_cons]
    rw [traversableEntries_cons] at h
    by_cases hk : k = "items"
    · simp only [hk, if_true] at h ⊢
      cases v with
      | arr xs =>
        obtain ⟨xs2, hxs⟩ := debufferItems_ok_of_traversable toStr xs h
        exact ⟨_, by simp only [hxs]; rfl⟩
      | undefined => exact ⟨_, rfl⟩
      | null => exact ⟨_, rfl⟩
      | bool b => exact ⟨_, rfl⟩
      | num n => exact ⟨_, rfl⟩
      | str t => exact ⟨_, rfl⟩
      | buffer b => exact ⟨_, rfl⟩
      | obj kvs3 => exact ⟨_, rfl⟩
    · simp only [hk, if_false] at h ⊢
      obtain ⟨r, hr⟩ := debufferFolderItems_ok_of_traversable toStr rest h
      exact ⟨_, by rw [hr]; rfl⟩
/-- The loop over the items completes when none of them, and no item reached
below them, is `null` or `undefined`. -/
theorem debufferItems_ok_of_traversable (toStr : List Nat → String) :
    ∀ xs : List JVal, traversableItems xs = true →
      ∃ xs2, debufferItems toStr xs = Except.ok xs2
  | [], _ => ⟨[], rfl⟩
  | x :: xs, h => by
    rw [traversableItems_cons, Bool.and_eq_true] at h
    obtain ⟨x2, hx⟩ := debufferItem_ok_of_traversable toStr x h.1
    obtain ⟨xs2, hxs⟩ := debufferItems_ok_of_traversable toStr xs h.2
    exact ⟨x2 :: xs2, by rw [debufferItems_cons, hx, hxs]; rfl⟩
/-- The callback completes on an item that is not `null` or `undefined` and below
which the crawl reaches no such item. -/
theorem debufferItem_ok_of_traversable (toStr : List Nat → String) :
    ∀ x : JVal, traversableItem x = true → ∃ x2, debufferItem toStr x = Except.ok x2
  | JVal.undefined, h => by cases h
  | JVal.null, h => by cases h
  | JVal.bool b, _ => ⟨_, rfl⟩
  | JVal.num n, _ => ⟨_, rfl⟩
  | JVal.str t, _ => ⟨_, rfl⟩
  | JVal.buffer b, _ => ⟨_, rfl⟩
  | JVal.arr xs, _ => ⟨_, rfl⟩
  | JVal.obj kvs, h => by
    rw [traversableItem_obj] at h
    rw [debufferItem_obj]
    cases ht : truthy (get (obj kvs) "items") with
    | false => exact ⟨_, by simp; rfl⟩
    | true =>
      rw [ht] at h
      simp only [if_true] at h ⊢
      obtain ⟨kvs2, hk⟩ := debufferFolderItems_ok_of_traversable toStr kvs h
      exact ⟨obj kvs2, by rw [hk]; rfl⟩
end


mutual
/-- The crawl of a folder throws only at an item that is `null` or `undefined`. -/
theorem traversable_of_debufferFolderItems_ok (toStr : List Nat → String) :
    ∀ kvs : List (String × JVal),
      (∃ kvs2, debufferFolderItems toStr kvs = Except.ok kvs2) → traversableEntries kvs = true
  | [], _ => rfl
  | (k, v) :: rest, h => by
    obtain ⟨kvs2, h⟩ := h
    rw [debufferFolderItems_cons] at h
    rw [traversableEntries_cons]
    by_cases hk : k = "items"
    · simp only [hk, if_true] at h ⊢
      cases v with
      | arr xs =>
        simp only at h ⊢
        cases hxs : debufferItems toStr xs with
        | error e => rw [hxs] at h; cases h
        | ok xs2 => exact traversable_of_debufferItems_ok toStr xs ⟨xs2, hxs⟩
      | undefined => rfl
      | null => rfl
      | bool b => rfl
      | num n => rfl
      | str t => rfl
      | buffer b => rfl
      | obj kvs3 => rfl
    · simp only [hk, if_false] at h ⊢
      cases hr : debufferFolderItems toStr rest with
      | error e => rw [hr] at h; cases h
      | ok r => exact traversable_of_debufferFolderItems_ok toStr rest ⟨r, hr⟩
/-- The loop over the items throws only at an item that is `null` or `undefined`. -/
theorem traversable_of_debufferItems_ok (toStr : List Nat → String) :
    ∀ xs : List JVal,
      (∃ xs2, debufferItems toStr xs = Except.ok xs2) → traversableItems xs = true
  | [], _ => rfl
  | x :: xs, h => by
    obtain ⟨ys, h⟩ := h
    rw [debufferItems_cons] at h
    rw [traversableItems_cons, Bool.and_eq_true]
    cases hx : debufferItem toStr x with
    | error e => rw [hx] at h; cases h
    | ok x2 =>
      rw [hx] at h
      cases hxs : debufferItems toStr xs with
      | error e => rw [hxs] at h; cases h
      | ok xs2 =>
        exact ⟨traversable_of_debufferItem_ok toStr x ⟨x2, hx⟩,
          traversable_of_debufferItems_ok toStr xs ⟨xs2, hxs⟩⟩
/-- The callback throws only at an item that is `null` or `undefined`. -/
theorem traversable_of_debufferItem_ok (toStr : List Nat → String) :
    ∀ x : JVal, (∃ x2, debufferItem toStr x = Except.ok x2) → traversableItem x = true
  | JVal.undefined, h => by obtain ⟨_, h⟩ := h; cases h
  | JVal.null, h => by obtain ⟨_, h⟩ := h; cases h
  | JVal.bool b, _ => rfl
  | JVal.num n, _ => rfl
  | JVal.str t, _ => rfl
  | JVal.buffer b, _ => rfl
  | JVal.arr xs, _ => rfl
  | JVal.obj kvs, h => by
    obtain ⟨x2, h⟩ := h
    rw [traversableItem_obj]
    rw [debufferItem_obj] at h
    cases ht : truthy (get (obj kvs) "items") with
    | false => simp
    | true =>
      rw [ht] at h
      simp only [if_true] at h ⊢
      cases hk : debufferFolderItems toStr kvs with
      | error e => rw [hk] at h; cases h
      | ok kvs2 => exact traversable_of_debufferFolderItems_ok toStr kvs ⟨kvs2, hk⟩
end

/-- The function `debufferFolder` completes exactly when no item it reaches is `null` or
`undefined`. -/
theorem debufferFolder_ok_iff (toStr : List Nat → String) (v : JVal) :
    (∃ v2, debufferFolder toStr v = Except.ok v2) ↔ traversable v = true := by
  cases v with
  | obj kvs =>
    simp only [debufferFolder, traversable]
    constructor
    · rintro ⟨v2, h⟩
      cases hk : debufferFolderItems toStr kvs with
      | error e => rw [hk] at h; cases h
      | ok kvs2 => exact traversable_of_debufferFolderItems_ok toStr kvs ⟨kvs2, hk⟩
    · intro h
      obtain ⟨kvs2, hk⟩ := debufferFolderItems_ok_of_traversable toStr kvs h
      exact ⟨obj kvs2, by rw [hk]; rfl⟩
  | undefined => exact ⟨fun _ => rfl, fun _ => ⟨_, rfl⟩⟩
  | null => exact ⟨fun _ => rfl, fun _ => ⟨_, rfl⟩⟩
  | bool b => exact ⟨fun _ => rfl, fun _ => ⟨_, rfl⟩⟩
  | num n => exact ⟨fun _ => rfl, fun _ => ⟨_, rfl⟩⟩
  | str t => exact ⟨fun _ => rfl, fun _ => ⟨_, rfl⟩⟩
  | buffer b => exact ⟨fun _ => rfl, fun _ => ⟨_, rfl⟩⟩
  | arr xs => exact ⟨fun _ => rfl, fun _ => ⟨_, rfl⟩⟩

theorem get_of_lookupKey_map (kvs kvs2 : List (String × JVal)) (k : String) (r : JVal)
    (hk : lookupKey k kvs2 = (lookupKey k kvs).map fun _ => r)
    (hn : lookupKey k kvs = none → r = undefined) : get (obj kvs2) k = r := by
  rw [get_obj, hk]
  rcases Option.eq_none_or_eq_some (lookupKey k kvs) with hl | ⟨w, hl⟩
  · rw [hl]; simp [hn hl]
  · rw [hl]; rfl

theorem debufferFolder_absent (toStr : List Nat → String) (kvs : List (String × JVal))
    (k : String) (r : JVal) (h : debufferFolder toStr (get (obj kvs) k) = Except.ok r)
    (hl : lookupKey k kvs = none) : r = undefined := by
  rw [get_obj, hl] at h
  cases h
  rfl

/-- The four maps of the document after `debuffer`. -/
theorem get_debuffered (toStr : List Nat → String) (kvs : List (String × JVal))
    (rq ts ex : JVal)
    (h1 : debufferFolder toStr (get (obj kvs) "requests") = Except.ok rq)
    (h2 : debufferFolder toStr (get (obj kvs) "tests") = Except.ok ts)
    (h3 : debufferFolder toStr (get (obj kvs) "examples") = Except.ok ex) :
    get (obj (replaceKey "examples" ex (replaceKey "tests" ts (replaceKey "requests" rq
        (replaceKey "scripts" (debufferScripts toStr (get (obj kvs) "scripts")) kvs)))))
        "scripts" = debufferScripts toStr (get (obj kvs) "scripts")
    ∧ get (obj (replaceKey "examples" ex (replaceKey "tests" ts (replaceKey "requests" rq
        (replaceKey "scripts" (debufferScripts toStr (get (obj kvs) "scripts")) kvs)))))
        "requests" = rq
    ∧ get (obj (replaceKey "examples" ex (replaceKey "tests" ts (replaceKey "requests" rq
        (replaceKey "scripts" (debufferScripts toStr (get (obj kvs) "scripts")) kvs)))))
        "tests" = ts
    ∧ get (obj (replaceKey "examples" ex (replaceKey "tests" ts (replaceKey "requests" rq
        (replaceKey "scripts" (debufferScripts toStr (get (obj kvs) "scripts")) kvs)))))
        "examples" = ex := by
  have hlk := lookupKey_debuffered kvs (debufferScripts toStr (get (obj kvs) "scripts")) rq ts ex
  have e1 : ¬ ("requests" : String) = "scripts" := by decide
  have e2 : ¬ ("tests" : String) = "scripts" := by decide
  have e3 : ¬ ("examples" : String) = "scripts" := by decide
  have e4 : ¬ ("tests" : String) = "requests" := by decide
  have e5 : ¬ ("examples" : String) = "requests" := by decide
  have e6 : ¬ ("examples" : String) = "tests" := by decide
  refine ⟨?_, ?_, ?_, ?_⟩
  · apply get_of_lookupKey_map kvs _ "scripts" _ (by rw [hlk]; simp)
    intro hl
    rw [get_obj, hl]; rfl
  · exact get_of_lookupKey_map kvs _ "requests" _ (by rw [hlk]; simp [e1])
      (debufferFolder_absent toStr kvs _ _ h1)
  · exact get_of_lookupKey_map kvs _ "tests" _ (by rw [hlk]; simp [e2, e4])
      (debufferFolder_absent toStr kvs _ _ h2)
  · exact get_of_lookupKey_map kvs _ "examples" _ (by rw [hlk]; simp [e3, e5, e6])
      (debufferFolder_absent toStr kvs _ _ h3)


theorem replaceKey_get (k : String) (kvs : List (String × JVal)) (f : JVal → JVal)
    (hf : ∀ v, lookupKey k kvs = some v → f v = v) :
    replaceKey k (f (get (obj kvs) k)) kvs = kvs := by
  apply modifyKey_id
  intro v hv
  rw [get_obj, hv]
  exact hf v hv

/-- C8: `debuffer` never throws because a map is absent. An absent map
(`undefined` or `null`) is a no-op for `debufferScripts` and for
`debufferFolder`; a leaf whose script map is absent is left as it is; and on a
document object `debuffer` completes exactly when no item reached in the
requests, tests and examples trees that are present is `null` or `undefined`,
in which case the scripts map and each of the three trees comes out
normalized. -/
theorem debuffer_absent_maps_noop (toStr : List Nat → String) (kvs : List (String × JVal)) :
    (∀ v, isNullish v = true →
        debufferScripts toStr v = v ∧ debufferFolder toStr v = Except.ok v
          ∧ traversable v = true)
    ∧ (∀ kvs2, truthy (get (obj kvs2) "items") = false →
        isNullish (get (obj kvs2) "events") = true →
        debufferItem toStr (obj kvs2) = Except.ok (obj kvs2))
    ∧ ((∃ d2, debuffer toStr (obj kvs) = Except.ok d2) ↔
        (traversable (get (obj kvs) "requests") = true
          ∧ traversable (get (obj kvs) "tests") = true
          ∧ traversable (get (obj kvs) "examples") = true))
    ∧ (∀ d2, debuffer toStr (obj kvs) = Except.ok d2 →
        get d2 "scripts" = debufferScripts toStr (get (obj kvs) "scripts")
          ∧ debufferFolder toStr (get (obj kvs) "requests") = Except.ok (get d2 "requests")
          ∧ debufferFolder toStr (get (obj kvs) "tests") = Except.ok (get d2 "tests")
          ∧ debufferFolder toStr (get (obj kvs) "examples")
              = Except.ok (get d2 "examples")) := by
  refine ⟨?_, ?_, ?_, ?_⟩
  · intro v hv
    cases v <;> first | exact ⟨rfl, rfl, rfl⟩ | cases hv
  · intro kvs2 ht hev
    rw [debufferItem_obj, ht]
    simp only [Bool.false_eq_true, if_false]
    have : replaceKey "events" (debufferScripts toStr (get (obj kvs2) "events")) kvs2 = kvs2 := by
      apply replaceKey_get "events" kvs2 (debufferScripts toStr)
      intro v hv
      rw [get_obj, hv] at hev
      cases v <;> first | rfl | cases hev
    rw [this]
    rfl
  · constructor
    · rintro ⟨d2, h⟩
      obtain ⟨rq, ts, ex, h1, h2, h3, _⟩ := debuffer_obj_ok toStr kvs d2 h
      exact ⟨(debufferFolder_ok_iff toStr _).1 ⟨rq, h1⟩,
        (debufferFolder_ok_iff toStr _).1 ⟨ts, h2⟩,
        (debufferFolder_ok_iff toStr _).1 ⟨ex, h3⟩⟩
    · rintro ⟨t1, t2, t3⟩
      obtain ⟨rq, h1⟩ := (debufferFolder_ok_iff toStr _).2 t1
      obtain ⟨ts, h2⟩ := (debufferFolder_ok_iff toStr _).2 t2
      obtain ⟨ex, h3⟩ := (debufferFolder_ok_iff toStr _).2 t3
      refine ⟨obj (replaceKey "examples" ex (replaceKey "tests" ts (replaceKey "requests" rq
        (replaceKey "scripts" (debufferScripts toStr (get (obj kvs) "scripts")) kvs)))), ?_⟩
      simp only [debuffer, h1, h2, h3]
      rfl
  · intro d2 h
    obtain ⟨rq, ts, ex, h1, h2, h3, hd2⟩ := debuffer_obj_ok toStr kvs d2 h
    obtain ⟨g0, g1, g2, g3⟩ := get_debuffered toStr kvs rq ts ex h1 h2 h3
    subst hd2
    rw [g0, g1, g2, g3]
    exact ⟨rfl, h1, h2, h3⟩

/-- Witness for C8: a document that has only a `scripts` map, and one whose
`requests` holds a leaf without script map, are normalized without error. -/
theorem debuffer_absent_maps_noop_witness :
    (∃ d2, debuffer asciiToString (obj [("scripts", obj [("lib", buffer [104, 105])])])
        = Except.ok d2)
    ∧ debufferItem asciiToString (obj [("name", str "get user")])
        = Except.ok (obj [("name", str "get user")]) :=
  ⟨(debuffer_absent_maps_noop asciiToString
      [("scripts", obj [("lib", buffer [104, 105])])]).2.2.1.2 ⟨rfl, rfl, rfl⟩,
   (debuffer_absent_maps_noop asciiToString []).2.1 [("name", str "get user")] rfl rfl⟩


theorem debufferEntry_idem (toStr : List Nat → String) (w : JVal) :
    debufferEntry toStr (debufferEntry toStr w) = debufferEntry toStr w := by
  cases w <;> rfl

theorem debufferScripts_idem (toStr : List Nat → String) (ev : JVal) :
    debufferScripts toStr (debufferScripts toStr ev) = debufferScripts toStr ev := by
  cases ev <;> simp [debufferScripts, debufferEntry_idem, Function.comp_def]

theorem normalizeAsLeaf_idem (toStr : List Nat → String) (x : JVal) :
    normalizeAsLeaf toStr (normalizeAsLeaf toStr x) = normalizeAsLeaf toStr x := by
  cases x <;> try rfl
  rename_i kvs
  simp only [normalizeAsLeaf]
  congr 1
  apply modifyKey_id
  intro v hv
  simp only [replaceKey, lookupKey_modifyKey, if_true] at hv
  rw [get_obj]
  simp only [replaceKey, lookupKey_modifyKey, if_true]
  rcases Option.eq_none_or_eq_some (lookupKey "events" kvs) with hl | ⟨w, hl⟩
  · rw [hl] at hv; cases hv
  · rw [hl] at hv ⊢
    simp only [Option.map_some', Option.some.injEq, Option.getD_some] at hv ⊢
    rw [← hv]
    simp only [get_obj, hl, Option.getD_some, debufferScripts_idem]

mutual
/-- Crawling a crawled folder changes nothing more. -/
theorem debufferFolderItems_idem (toStr : List Nat → String) :
    ∀ kvs kvs2 : List (String × JVal), debufferFolderItems toStr kvs = Except.ok kvs2 →
      debufferFolderItems toStr kvs2 = Except.ok kvs2
  | [], kvs2, h => by cases h; rfl
  | (k, v) :: rest, kvs2, h => by
    rw [debufferFolderItems_cons] at h
    by_cases hk : k = "items"
    · simp only [hk, if_true] at h
      cases v with
      | arr xs =>
        simp only at h
        cases hxs : debufferItems toStr xs with
        | error e => rw [hxs] at h; cases h
        | ok xs2 =>
          rw [hxs] at h
          cases h
          rw [debufferFolderItems_cons]
          simp only [if_true]
          rw [debufferItems_idem toStr xs xs2 hxs]
          rfl
      | undefined => cases h; rfl
      | null => cases h; rfl
      | bool b => cases h; rfl
      | num n => cases h; rfl
      | str t => cases h; rfl
      | buffer b => cases h; rfl
      | obj kvs3 => cases h; rfl
    · simp only [hk, if_false] at h
      cases hr : debufferFolderItems toStr rest with
      | error e => rw [hr] at h; cases h
      | ok r =>
        rw [hr] at h
        cases h
        rw [debufferFolderItems_cons]
        simp only [hk, if_false]
        rw [debufferFolderItems_idem toStr rest r hr]
        rfl
/-- Crawling crawled items changes nothing more. -/
theorem debufferItems_idem (toStr : List Nat → String) :
    ∀ xs xs2 : List JVal, debufferItems toStr xs = Except.ok xs2 →
      debufferItems toStr xs2 = Except.ok xs2
  | [], xs2, h => by cases h; rfl
  | x :: xs, ys, h => by
    rw [debufferItems_cons] at h
    cases hx : debufferItem toStr x with
    | error e => rw [hx] at h; cases h
    | ok x2 =>
      rw [hx] at h
      cases hxs : debufferItems toStr xs with
      | error e => rw [hxs] at h; cases h
      | ok xs2 =>
        rw [hxs] at h
        cases h
        rw [debufferItems_cons, debufferItem_idem toStr x x2 hx,
          debufferItems_idem toStr xs xs2 hxs]
        rfl
/-- Crawling a crawled item changes nothing more. -/
theorem debufferItem_idem (toStr : List Nat → String) :
    ∀ x x2 : JVal, debufferItem toStr x = Except.ok x2 → debufferItem toStr x2 = Except.ok x2
  | JVal.undefined, _, h => by cases h
  | JVal.null, _, h => by cases h
  | JVal.bool b, _, h => by cases h; rfl
  | JVal.num n, _, h => by cases h; rfl
  | JVal.str t, _, h => by cases h; rfl
  | JVal.buffer b, _, h => by cases h; rfl
  | JVal.arr xs, _, h => by cases h; rfl
  | JVal.obj kvs, x2, h => by
    rw [debufferItem_obj] at h
    cases ht : truthy (get (obj kvs) "items") with
    | false =>
      rw [ht] at h
      simp only [Bool.false_eq_true, if_false] at h
      have hx2 : x2 = normalizeAsLeaf toStr (obj kvs) := by cases h; rfl
      subst hx2
      have hnn : isNullish (normalizeAsLeaf toStr (obj kvs)) = false := rfl
      rw [debufferItem_eq toStr _ hnn, get_normalizeAsLeaf_items, ht, normalizeAsLeaf_idem]
      rfl
    | true =>
      rw [ht] at h
      simp only [if_true] at h
      cases hk : debufferFolderItems toStr kvs with
      | error e => rw [hk] at h; cases h
      | ok kvs2 =>
        rw [hk] at h
        cases h
        have hf : debufferFolder toStr (obj kvs) = Except.ok (obj kvs2) := by
          simp only [debufferFolder, hk]; rfl
        have hl := codeLeaf_debufferFolder toStr _ _ hf
        simp only [codeLeaf, ht, Bool.not_true, Bool.not_eq_false'] at hl
        rw [debufferItem_obj, hl]
        simp only [if_true]
        rw [debufferFolderItems_idem toStr kvs kvs2 hk]
        rfl
end

theorem debufferFolder_idem (toStr : List Nat → String) (v v2 : JVal)
    (h : debufferFolder toStr v = Except.ok v2) : debufferFolder toStr v2 = Except.ok v2 := by
  cases v with
  | obj kvs =>
    simp only [debufferFolder] at h
    cases hk : debufferFolderItems toStr kvs with
    | error e => rw [hk] at h; cases h
    | ok kvs2 =>
      rw [hk] at h
      cases h
      simp only [debufferFolder, debufferFolderItems_idem toStr kvs kvs2 hk]
      rfl
  | undefined => cases h; rfl
  | null => cases h; rfl
  | bool b => cases h; rfl
  | num n => cases h; rfl
  | str t => cases h; rfl
  | buffer b => cases h; rfl
  | arr xs => cases h; rfl

/-- A document that `debuffer` has normalized is left as it is by `debuffer`. -/
theorem debuffer_fixed (toStr : List Nat → String) (d d2 : JVal)
    (h : debuffer toStr d = Except.ok d2) : debuffer toStr d2 = Except.ok d2 := by
  cases d with
  | undefined => cases h
  | null => cases h
  | bool b => cases h; rfl
  | num n => cases h; rfl
  | str t => cases h; rfl
  | buffer b => cases h; rfl
  | arr xs => cases h; rfl
  | obj kvs =>
    obtain ⟨rq, ts, ex, h1, h2, h3, hd2⟩ := debuffer_obj_ok toStr kvs d2 h
    obtain ⟨g0, g1, g2, g3⟩ := get_debuffered toStr kvs rq ts ex h1 h2 h3
    subst hd2
    generalize replaceKey "examples" ex (replaceKey "tests" ts (replaceKey "requests" rq
        (replaceKey "scripts" (debufferScripts toStr (get (obj kvs) "scripts")) kvs)))
      = kvs4 at g0 g1 g2 g3
    have f1 := debufferFolder_idem toStr _ _ h1
    have f2 := debufferFolder_idem toStr _ _ h2
    have f3 := debufferFolder_idem toStr _ _ h3
    have r0 : replaceKey "scripts" (debufferScripts toStr (get (obj kvs4) "scripts")) kvs4
        = kvs4 := by
      apply replaceKey_get "scripts" kvs4 (debufferScripts toStr)
      intro v hv
      have : get (obj kvs4) "scripts" = v := by rw [get_obj, hv]; rfl
      rw [← this, g0, debufferScripts_idem]
    have r1 : replaceKey "requests" rq kvs4 = kvs4 := by
      rw [← g1]; exact replaceKey_get "requests" kvs4 id (fun _ _ => rfl)
    have r2 : replaceKey "tests" ts kvs4 = kvs4 := by
      rw [← g2]; exact replaceKey_get "tests" kvs4 id (fun _ _ => rfl)
    have r3 : replaceKey "examples" ex kvs4 = kvs4 := by
      rw [← g3]; exact replaceKey_get "examples" kvs4 id (fun _ _ => rfl)
    simp only [debuffer]
    rw [g1, g2, g3, f1, f2, f3]
    simp only [r0, r1, r2, r3]
    rfl

/-- C9: `debuffer` is idempotent: for every document, applying it a second time
gives what applying it once gave (the same document, or the same error). -/
theorem debuffer_idempotent (toStr : List Nat → String) (d : JVal) :
    (debuffer toStr d).bind (debuffer toStr) = debuffer toStr d := by
  cases h : debuffer toStr d with
  | error e => rfl
  | ok d2 => exact debuffer_fixed toStr d d2 h


/-- C10: the document `docWithNullItem` holds no binary value at all, at a script
location or elsewhere, and yet `debuffer` does not complete on it: reading
`item.items` of the `null` item throws a `TypeError`. -/
theorem debuffer_throws_on_null_item :
    (∀ (p : List Step) (b : List Nat), docWithNullItem.valueAt p ≠ some (buffer b))
    ∧ debuffer asciiToString docWithNullItem = Except.error JsError.typeError := by
  refine ⟨?_, rfl⟩
  intro p b h
  cases p with
  | nil => cases h
  | cons s q =>
    cases s with
    | idx i => cases h
    | key k =>
      by_cases hk : "requests" = k
      · subst hk
        cases q with
        | nil => cases h
        | cons s2 q2 =>
          cases s2 with
          | idx i => cases h
          | key k2 =>
            by_cases hk2 : "items" = k2
            · subst hk2
              cases q2 with
              | nil => cases h
              | cons s3 q3 =>
                cases s3 with
                | key k3 => cases h
                | idx i =>
                  cases i with
                  | zero =>
                    cases q3 with
                    | nil => cases h
                    | cons s4 q4 => cases s4 <;> cases h
                  | succ j => cases h
            · simp [docWithNullItem, JVal.valueAt, JVal.child, lookupKey, hk2] at h
      · simp [docWithNullItem, JVal.valueAt, JVal.child, lookupKey, hk] at h

/-! ### Lemmas on the schema validator -/

theorem formatZSchemaError_nil (indent : Option String) :
    formatZSchemaError [] indent = "" := by
  rw [formatZSchemaError]

theorem formatZSchemaError_cons (error : ZError) (rest : List ZError) (indent : Option String) :
    formatZSchemaError (error :: rest) indent
      = formatZSchemaErrorEntry (indentOrDefault indent) error
          ++ formatZSchemaError rest indent := by
  rw [formatZSchemaError]

theorem formatZSchemaErrorEntry_mk (indent message : String) (path : List String)
    (inner : Option (List ZError)) :
    formatZSchemaErrorEntry indent (ZError.mk message path inner)
      = (indent ++ message ++ " at #/" ++ "/".intercalate path ++ "\n")
          ++ formatZSchemaErrorInner indent inner := by
  rw [formatZSchemaErrorEntry]

theorem formatZSchemaErrorInner_some (indent : String) (inner : List ZError) :
    formatZSchemaErrorInner indent (some inner)
      = formatZSchemaError inner (some (indent ++ "  ")) := by
  rw [formatZSchemaErrorInner]

theorem formatZSchemaErrorInner_none (indent : String) :
    formatZSchemaErrorInner indent none = "" := by
  rw [formatZSchemaErrorInner]

theorem preorder_nil (depth : Nat) : preorder depth [] = [] := by
  rw [preorder]

theorem preorder_cons (depth : Nat) (error : ZError) (rest : List ZError) :
    preorder depth (error :: rest) = preorderEntry depth error ++ preorder depth rest := by
  rw [preorder]

theorem preorderEntry_mk (depth : Nat) (message : String) (path : List String)
    (inner : Option (List ZError)) :
    preorderEntry depth (ZError.mk message path inner)
      = (depth, ZError.mk message path inner) :: preorderInner depth inner := by
  rw [preorderEntry]

theorem preorderInner_some (depth : Nat) (inner : List ZError) :
    preorderInner depth (some inner) = preorder (depth + 1) inner := by
  rw [preorderInner]

theorem preorderInner_none (depth : Nat) : preorderInner depth none = [] := by
  rw [preorderInner]

/-- The indent of a call depends on its `indent` argument only through
`indent || '  '`. -/
theorem formatZSchemaError_indent (errors : List ZError) (i1 i2 : Option String)
    (h : indentOrDefault i1 = indentOrDefault i2) :
    formatZSchemaError errors i1 = formatZSchemaError errors i2 := by
  induction errors with
  | nil => rw [formatZSchemaError_nil, formatZSchemaError_nil]
  | cons e rest ih => rw [formatZSchemaError_cons, formatZSchemaError_cons, h, ih]

theorem concatLines_append (a b : List String) :
    concatLines (a ++ b) = concatLines a ++ concatLines b := by
  induction a with
  | nil => simp [concatLines]
  | cons l ls ih => simp [concatLines, ih, String.append_assoc]

theorem spaces_append_two (n : Nat) :
    String.mk (List.replicate n ' ') ++ "  " = String.mk (List.replicate (n + 2) ' ') := by
  apply String.ext
  simp only [String.data_append]
  have h2 : List.replicate (n + 2) ' ' = List.replicate n ' ' ++ List.replicate 2 ' ' :=
    List.replicate_add n 2 ' '
  rw [h2]
  rfl

theorem indentOrDefault_spaces (n : Nat) :
    indentOrDefault (some (String.mk (List.replicate (n + 1) ' ')))
      = String.mk (List.replicate (n + 1) ' ') := by
  have : String.mk (List.replicate (n + 1) ' ') ≠ "" := by
    intro h
    have := congrArg String.data h
    simp [List.replicate_succ] at this
  simp [indentOrDefault, this]

theorem two_mul_succ_eq (k : Nat) : 2 * (k + 1) = (2 * k + 1) + 1 := by omega

mutual
/-- With an indent of `2 * (k + 1)` spaces, a list of diagnostics is rendered as
the lines of its pre-order at depth `k`. -/
theorem formatZSchemaError_eq_lines :
    ∀ (errors : List ZError) (k : Nat),
      formatZSchemaError errors (some (String.mk (List.replicate (2 * (k + 1)) ' ')))
        = concatLines ((preorder k errors).map fun p => renderLine p.1 p.2)
  | [], k => by rw [formatZSchemaError_nil, preorder_nil]; rfl
  | e :: rest, k => by
    rw [formatZSchemaError_cons, preorder_cons, List.map_append, concatLines_append,
      formatZSchemaError_eq_lines rest k]
    have h := formatZSchemaErrorEntry_eq_lines e k
    rw [two_mul_succ_eq k, indentOrDefault_spaces, ← two_mul_succ_eq k, h]
/-- A diagnostic is rendered as its own line followed by the lines of its inner
diagnostics. -/
theorem formatZSchemaErrorEntry_eq_lines :
    ∀ (e : ZError) (k : Nat),
      formatZSchemaErrorEntry (String.mk (List.replicate (2 * (k + 1)) ' ')) e
        = concatLines ((preorderEntry k e).map fun p => renderLine p.1 p.2)
  | ZError.mk message path inner, k => by
    rw [formatZSchemaErrorEntry_mk, preorderEntry_mk, List.map_cons, concatLines,
      formatZSchemaErrorInner_eq_lines inner k]
    rfl
/-- The inner diagnostics are rendered one level deeper. -/
theorem formatZSchemaErrorInner_eq_lines :
    ∀ (inner : Option (List ZError)) (k : Nat),
      formatZSchemaErrorInner (String.mk (List.replicate (2 * (k + 1)) ' ')) inner
        = concatLines ((preorderInner k inner).map fun p => renderLine p.1 p.2)
  | none, k => by rw [formatZSchemaErrorInner_none, preorderInner_none]; rfl
  | some errs, k => by
    rw [formatZSchemaErrorInner_some, preorderInner_some, spaces_append_two]
    have h : 2 * (k + 1) + 2 = 2 * ((k + 1) + 1) := by omega
    rw [h]
    exact formatZSchemaError_eq_lines errs (k + 1)
end

/-! ### Claims on the schema validator -/

/-- C11: for every list of diagnostics, `formatZSchemaError` called with the list
alone gives the concatenation, in depth-first pre-order and in the engine's
order, of one newline-terminated line `<indent><message> at #/<path joined by
/>` per diagnostic, the indent of a diagnostic at depth `k` being
`2 * (k + 1)` spaces (two at the top level), with the inner diagnostics of a
diagnostic right after its own line and before its next sibling. -/
theorem formatZSchemaError_renders_preorder (errors : List ZError) :
    formatZSchemaError errors none = renderDiagnostics errors
    ∧ (∀ (message : String) (path : List String) (inner : Option (List ZError))
        (rest : List ZError) (k : Nat),
        preorder k (ZError.mk message path inner :: rest)
          = (k, ZError.mk message path inner)
              :: ((match inner with
                    | some errs => preorder (k + 1) errs
                    | none => [])
                  ++ preorder k rest))
    ∧ (∀ (k : Nat) (e : ZError),
        renderLine k e
          = String.mk (List.replicate (2 * (k + 1)) ' ') ++ e.message ++ " at #/"
              ++ "/".intercalate e.path ++ "\n") := by
  refine ⟨?_, ?_, fun _ _ => rfl⟩
  · rw [formatZSchemaError_indent errors none
      (some (String.mk (List.replicate (2 * (0 + 1)) ' '))) (by rfl)]
    exact formatZSchemaError_eq_lines errors 0
  · intro message path inner rest k
    rw [preorder_cons, preorderEntry_mk]
    cases inner with
    | none => rw [preorderInner_none]; rfl
    | some errs => rw [preorderInner_some]; rfl

theorem header_append_ne_empty (text : String) :
    "Postman Collection schema validation failed. \n" ++ text ≠ "" := by
  intro h
  have h2 := congrArg String.length h
  rw [String.length_append] at h2
  have h3 : ("Postman Collection schema validation failed. \n" : String).length = 46 := by
    decide
  have h4 : ("" : String).length = 0 := rfl
  rw [h3, h4] at h2
  omega

/-- What `validateSchema` does, by the verdict of the engine. -/
theorem validateSchema_eq (engine : ZSchemaEngine) (collection : JVal) :
    validateSchema engine collection
      = if engine.validate collection then Except.ok ()
        else Except.error
          (onoSyntax (engine.getLastError collection)
            (engine.getLastError collection).details
            ("Postman Collection schema validation failed. \n"
              ++ formatZSchemaError (engine.getLastError collection).details none)) := by
  cases h : engine.validate collection <;> simp [validateSchema, h] <;> rfl

/-- Counterexample for C12: with `rejectingEngine` the error raised has a message
that is not the header followed by the rendered diagnostics: the message of the
engine's own error comes after them. -/
theorem validation_message_has_engine_message :
    ¬ ∃ e, validateSchema rejectingEngine (obj [("info", obj [])]) = Except.error e
        ∧ e.message
          = "Postman Collection schema validation failed. \n"
            ++ formatZSchemaError
                (rejectingEngine.getLastError (obj [("info", obj [])])).details none := by
  rintro ⟨e, h, hm⟩
  have h2 : validateSchema rejectingEngine (obj [("info", obj [])])
      = Except.error
          (onoSyntax (rejectingEngine.getLastError (obj [("info", obj [])]))
            (rejectingEngine.getLastError (obj [("info", obj [])])).details
            ("Postman Collection schema validation failed. \n"
              ++ formatZSchemaError
                  (rejectingEngine.getLastError (obj [("info", obj [])])).details none)) :=
    rfl
  rw [h2] at h
  injection h with h3
  rw [← h3] at hm
  revert hm
  decide

/-- C12 (amended): `validateSchema` raises exactly when the engine reports the
document invalid. When the engine reports it valid, nothing is returned and
nothing is raised; when it reports it invalid, the one error raised is the one
`ono.syntax` makes from the engine's error: it carries the engine's `details`,
and its message is the fixed header, then `formatZSchemaError` of those
details, then a space and a newline, then the message of the engine's own
error. -/
theorem validateSchema_raises_iff_invalid (engine : ZSchemaEngine) (collection : JVal) :
    (engine.validate collection = true → validateSchema engine collection = Except.ok ())
    ∧ (engine.validate collection = false →
        ∃ e, validateSchema engine collection = Except.error e
          ∧ e.message
            = "Postman Collection schema validation failed. \n"
              ++ formatZSchemaError (engine.getLastError collection).details none
              ++ " \n" ++ (engine.getLastError collection).message
          ∧ e.details = (engine.getLastError collection).details
          ∧ e.inner = engine.getLastError collection)
    ∧ ((∃ e, validateSchema engine collection = Except.error e)
        ↔ engine.validate collection = false) := by
  rw [validateSchema_eq]
  refine ⟨?_, ?_, ?_⟩
  · intro h
    simp [h]
  · intro h
    refine ⟨onoSyntax (engine.getLastError collection)
      (engine.getLastError collection).details
      ("Postman Collection schema validation failed. \n"
        ++ formatZSchemaError (engine.getLastError collection).details none),
      by simp [h], ?_, rfl, rfl⟩
    simp only [onoSyntax, header_append_ne_empty, if_false]
  · cases h : engine.validate collection <;> simp

/-- Witness for C12: with `rejectingEngine` the error raised has the header, the
one rendered line, and then the engine's message. -/
theorem validateSchema_raises_iff_invalid_witness :
    ∃ e, validateSchema rejectingEngine (obj [("info", obj [])]) = Except.error e
      ∧ e.message
        = "Postman Collection schema validation failed. \n"
          ++ formatZSchemaError
              (rejectingEngine.getLastError (obj [("info", obj [])])).details none
          ++ " \n" ++ (rejectingEngine.getLastError (obj [("info", obj [])])).message
      ∧ e.details = (rejectingEngine.getLastError (obj [("info", obj [])])).details
      ∧ e.inner = rejectingEngine.getLastError (obj [("info", obj [])]) :=
  (validateSchema_raises_iff_invalid rejectingEngine (obj [("info", obj [])])).2.1 rfl

/-! ### Claims on the collection processor -/

/-- Counterexample for C13: the resolver succeeds with `docWithNullItem` and the
validator raises on no document at all, yet the operation does not succeed:
`debuffer` throws in between and the operation fails with that error. -/
theorem validate_fails_in_normalizer :
    (∀ doc, validateSchema alwaysValid doc = Except.ok ())
    ∧ prototypeValidate
        (fun _ _ => (Except.ok docWithNullItem : Except String JVal))
        asciiToString alwaysValid (Sources.single "collection.json")
        (OptionsArg.undefined : OptionsArg Unit) none
      = Outcome.failure (PipelineError.thrown JsError.typeError) :=
  ⟨fun _ => rfl, rfl⟩

/-- C13 (amended): the single-document validate operation runs resolve, then
normalize, then schema-validate. If resolution fails the operation fails with
exactly the resolver's error, whatever the normalizer and the validator are;
if the normalizer throws, the operation fails with that error, whatever the
validator is; otherwise the validator is applied to the normalized document,
and the operation fails with the validation error if it raises and succeeds
with the normalized document if it does not. -/
theorem validate_pipeline_order {S F E : Type}
    (dereference : Option S → Options → Except E JVal) (toStr : List Nat → String)
    (engine : ZSchemaEngine) (s : S) (options : OptionsArg F) (callback : Option F) :
    (∀ err, dereference (some s) (normalizeArgs (Sources.single s) options callback).options
          = Except.error err →
        ∀ (toStr2 : List Nat → String) (engine2 : ZSchemaEngine),
          prototypeValidate dereference toStr2 engine2 (Sources.single s) options callback
            = Outcome.failure (PipelineError.resolver err))
    ∧ (∀ doc err,
        dereference (some s) (normalizeArgs (Sources.single s) options callback).options
          = Except.ok doc →
        debuffer toStr doc = Except.error err →
        ∀ engine2 : ZSchemaEngine,
          prototypeValidate dereference toStr engine2 (Sources.single s) options callback
            = Outcome.failure (PipelineError.thrown err))
    ∧ (∀ doc doc2 err,
        dereference (some s) (normalizeArgs (Sources.single s) options callback).options
          = Except.ok doc →
        debuffer toStr doc = Except.ok doc2 →
        validateSchema engine doc2 = Except.error err →
        prototypeValidate dereference toStr engine (Sources.single s) options callback
          = Outcome.failure (PipelineError.schema err))
    ∧ (∀ doc doc2,
        dereference (some s) (normalizeArgs (Sources.single s) options callback).options
          = Except.ok doc →
        debuffer toStr doc = Except.ok doc2 →
        validateSchema engine doc2 = Except.ok () →
        prototypeValidate dereference toStr engine (Sources.single s) options callback
          = Outcome.success doc2) := by
  have hc : (normalizeArgs (Sources.single s) options callback).collections[0]? = some s := rfl
  refine ⟨?_, ?_, ?_, ?_⟩
  · intro err h toStr2 engine2
    simp only [prototypeValidate, hc, h]
  · intro doc err h hd engine2
    simp only [prototypeValidate, hc, h, hd]
  · intro doc doc2 err h hd hv
    simp only [prototypeValidate, hc, h, hd, hv]
  · intro doc doc2 h hd hv
    simp only [prototypeValidate, hc, h, hd, hv]

/-- Witness for C13: a document with a binary script that the engine accepts comes
out normalized. -/
theorem validate_pipeline_order_witness :
    prototypeValidate
        (fun _ _ => (Except.ok docWithBinaryScript : Except String JVal))
        asciiToString alwaysValid (Sources.single "collection.json")
        (OptionsArg.undefined : OptionsArg Unit) none
      = Outcome.success (obj [("scripts", obj [("test", str (asciiToString [97]))])]) :=
  (validate_pipeline_order
    (fun _ _ => (Except.ok docWithBinaryScript : Except String JVal))
    asciiToString alwaysValid "collection.json"
    (OptionsArg.undefined : OptionsArg Unit) none).2.2.2 docWithBinaryScript _ rfl rfl rfl

/-- C14: `bundle` hands on what the inherited method of the resolver produces,
without `debuffer`; a source bundled to `docWithBinaryScript` comes out with
its script still a binary payload, while `debuffer` would have decoded it. -/
theorem bundle_keeps_binary_script :
    (∀ (dereference refParserBundle : Option String → Options → Except String JVal)
        (engine : ZSchemaEngine) (c : String) (opts : Options) (bundled : JVal),
        refParserBundle (some c) opts = Except.ok bundled →
        invokeMethod dereference refParserBundle asciiToString engine Method.bundle c opts
          = Outcome.success bundled)
    ∧ staticInvoke
        (fun _ _ => (Except.ok docWithBinaryScript : Except String JVal))
        (fun _ _ => (Except.ok docWithBinaryScript : Except String JVal))
        asciiToString alwaysValid Method.bundle (Sources.single "collection.json")
        (OptionsArg.undefined : OptionsArg Unit) none [0]
      = some (Settled.resolved (Result.single (Item.doc docWithBinaryScript)))
    ∧ docWithBinaryScript.valueAt [Step.key "scripts", Step.key "test"] = some (buffer [97])
    ∧ debuffer asciiToString docWithBinaryScript
      = Except.ok (obj [("scripts", obj [("test", str (asciiToString [97]))])]) := by
  refine ⟨?_, rfl, rfl, rfl⟩
  intro dereference refParserBundle engine c opts bundled h
  simp only [invokeMethod, h]

/-! ### More on the batch orchestrator -/

/-- Without bail, once every run has settled the aggregate promise is fulfilled
with one element per run and the flag tells whether a run failed. -/
theorem settleAll_noBail_full {D E : Type} (outcomes : List (Outcome D E)) (sched : List Nat)
    (hcover : ∀ i, i < outcomes.length → i ∈ sched) :
    ((BatchState.init outcomes.length).settleAll false outcomes sched).all
        = AllState.fulfilled (outcomes.map Outcome.toItem)
      ∧ ((BatchState.init outcomes.length).settleAll false outcomes sched).error
        = outcomes.any Outcome.isFailure := by
  obtain ⟨h1, h2⟩ := settleAll_collect false outcomes sched (BatchState.init outcomes.length) []
    (Or.inl rfl) (init_all outcomes)
  have hfull : ∀ i, i < outcomes.length → i ∈ sched.reverse ++ [] := by
    intro i hi
    simp only [List.append_nil, List.mem_reverse]
    exact hcover i hi
  rw [ofValues_full _ _ hfull] at h1
  rw [any_failsAt_of_cover outcomes sched hcover] at h2
  have h3 : (BatchState.init outcomes.length : BatchState D E).error = false := rfl
  rw [h3, Bool.false_or] at h2
  exact ⟨h1, h2⟩

/-- As long as no failing run has settled, the aggregate promise holds the slots
of the runs that have, and the flag is not set. -/
theorem settleAll_successes {D E : Type} (bail : Bool) (outcomes : List (Outcome D E))
    (sched : List Nat) (h : ∀ i ∈ sched, failsAt outcomes i = false) :
    ((BatchState.init outcomes.length).settleAll bail outcomes sched).all
        = AllState.ofValues (slots outcomes (sched.reverse ++ []))
      ∧ ((BatchState.init outcomes.length).settleAll bail outcomes sched).error = false := by
  obtain ⟨h1, h2⟩ := settleAll_collect bail outcomes sched (BatchState.init outcomes.length) []
    (Or.inr h) (init_all outcomes)
  refine ⟨h1, ?_⟩
  rw [h2]
  have h3 : (BatchState.init outcomes.length : BatchState D E).error = false := rfl
  rw [h3, Bool.false_or]
  cases hany : sched.any (failsAt outcomes) with
  | false => rfl
  | true =>
    obtain ⟨i, hi, hf⟩ := List.any_eq_true.1 hany
    rw [h i hi] at hf
    cases hf

/-- With bail, the aggregate promise rejects with the error of the first failing
run to settle. -/
theorem settleAll_bail_reject {D E : Type} (outcomes : List (Outcome D E))
    (pre post : List Nat) (j : Nat) (e : E)
    (hpre : ∀ i ∈ pre, failsAt outcomes i = false)
    (herr : outcomes[j]? = some (Outcome.failure e)) :
    ((BatchState.init outcomes.length).settleAll true outcomes (pre ++ j :: post)).all
      = AllState.rejected e := by
  obtain ⟨h1, _⟩ := settleAll_successes true outcomes pre hpre
  have hj : j < outcomes.length := (List.getElem?_eq_some.1 herr).1
  have hjpre : j ∉ pre.reverse ++ [] := by
    intro hmem
    have h2 := hpre j (by simpa using hmem)
    simp [failsAt, herr, Outcome.isFailure] at h2
  rw [ofValues_pending_of_missing outcomes _ j hj hjpre] at h1
  have h3 : ((BatchState.init outcomes.length).settleAll true outcomes (pre ++ [j])).all
      = AllState.rejected e := by
    rw [settleAll_append, settleAll_cons, settleAll_nil, herr]
    simp [BatchState.settleRun, h1, AllState.reject]
  have h4 := settleAll_rejected true outcomes post e _ h3
  rw [← settleAll_append] at h4
  have hs2 : pre ++ [j] ++ post = pre ++ j :: post := by simp
  rw [hs2] at h4
  exact h4

theorem mem_split_first (sched : List Nat) (j : Nat) (h : j ∈ sched) :
    ∃ pre post, sched = pre ++ j :: post ∧ j ∉ pre := by
  induction sched with
  | nil => cases h
  | cons a rest ih =>
    by_cases ha : a = j
    · exact ⟨[], rest, by simp [ha], by simp⟩
    · have hr : j ∈ rest := by
        rcases List.mem_cons.1 h with h1 | h1
        · exact absurd h1.symm ha
        · exact h1
      obtain ⟨pre, post, hs, hn⟩ := ih hr
      refine ⟨a :: pre, post, by simp [hs], ?_⟩
      intro hm
      rcases List.mem_cons.1 hm with h1 | h1
      · exact ha h1.symm
      · exact hn h1

/-- How the batch on a single source settles: as its one run does, once that run
has settled. -/
theorem instantiateAndInvoke_single {S F D E : Type}
    (run : Nat → S → Options → Outcome D E) (s : S) (options : OptionsArg F)
    (callback : Option F) (sched : List Nat) :
    instantiateAndInvoke run (Sources.single s) options callback sched
      = if 0 ∈ sched then
          some (match run 0 s (normalizeArgs (Sources.single s) options callback).options with
            | Outcome.success d => Settled.resolved (Result.single (Item.doc d))
            | Outcome.failure e => Settled.rejected (Result.single (Item.error e)))
        else none := by
  have hc : (normalizeArgs (Sources.single s) options callback).collections = [s] := rfl
  have hm : (normalizeArgs (Sources.single s) options callback).multiple = false := rfl
  simp only [instantiateAndInvoke]
  rw [hc, hm]
  generalize (normalizeArgs (Sources.single s) options callback).options = opts
  have ho : runOutcomes run [s] opts = [run 0 s opts] := rfl
  rw [ho]
  generalize run 0 s opts = o
  have hlen : ([o] : List (Outcome D E)).length = 1 := rfl
  have hrange : ∀ i, i ≠ 0 → failsAt [o] i = false := by
    intro i hi
    cases i with
    | zero => exact absurd rfl hi
    | succ j => rfl
  by_cases h0 : 0 ∈ sched
  · simp only [h0, if_true]
    cases o with
    | success d =>
      have hnf : ∀ i ∈ sched, failsAt [(Outcome.success d : Outcome D E)] i = false := by
        intro i _
        cases i with
        | zero => rfl
        | succ j => rfl
      cases hb : opts.bail with
      | false =>
        obtain ⟨h1, h2⟩ := settleAll_noBail_full [(Outcome.success d : Outcome D E)] sched
          (by intro i hi; simp at hi; subst hi; exact h0)
        simp only [BatchState.completion, h1, h2]
        rfl
      | true =>
        obtain ⟨h1, h2⟩ := settleAll_successes true [(Outcome.success d : Outcome D E)] sched hnf
        rw [ofValues_full _ _ (by intro i hi; simp at hi; subst hi; simpa using h0)] at h1
        simp only [BatchState.completion, h1, h2]
        rfl
    | failure e =>
      cases hb : opts.bail with
      | false =>
        obtain ⟨h1, h2⟩ := settleAll_noBail_full [(Outcome.failure e : Outcome D E)] sched
          (by intro i hi; simp at hi; subst hi; exact h0)
        simp only [BatchState.completion, h1, h2]
        rfl
      | true =>
        obtain ⟨pre, post, hs, hn⟩ := mem_split_first sched 0 h0
        have hpre : ∀ i ∈ pre, failsAt [(Outcome.failure e : Outcome D E)] i = false := by
          intro i hi
          exact hrange i (fun h => hn (h ▸ hi))
        have h1 := settleAll_bail_reject [(Outcome.failure e : Outcome D E)] pre post 0 e hpre rfl
        rw [← hs] at h1
        simp only [BatchState.completion, h1]
  · simp only [h0, if_false]
    have hnf : ∀ i ∈ sched, failsAt [o] i = false := by
      intro i hi
      exact hrange i (fun h => h0 (h ▸ hi))
    obtain ⟨h1, _⟩ := settleAll_successes opts.bail [o] sched hnf
    have hmiss : (0 : Nat) ∉ sched.reverse ++ [] := by simpa using h0
    rw [ofValues_pending_of_missing [o] _ 0 (by simp) hmiss] at h1
    simp only [BatchState.completion, h1]

/-- C18: `normalizeArgs` supplies the defaults. With `options` missing (`undefined`
or `null`) the effective options are `{bail: false}`; a function in the
options position becomes the callback and the effective options are
`{bail: false}`; an options object is used unchanged, with the callback given;
and the sources are handed on as they are, an array as itself and a single
source as the one element of an array. -/
theorem normalizeArgs_defaults {S F : Type} (collections : Sources S) (callback : Option F) :
    (normalizeArgs collections (OptionsArg.undefined : OptionsArg F) callback).options
        = { bail := false, other := [] }
    ∧ (normalizeArgs collections (OptionsArg.null : OptionsArg F) callback).options
        = { bail := false, other := [] }
    ∧ (∀ f : F,
        (normalizeArgs collections (OptionsArg.func f) callback).options
            = { bail := false, other := [] }
          ∧ (normalizeArgs collections (OptionsArg.func f) callback).callback = some f)
    ∧ (∀ o : Options,
        (normalizeArgs collections (OptionsArg.object o : OptionsArg F) callback).options = o
          ∧ (normalizeArgs collections (OptionsArg.object o : OptionsArg F) callback).callback
              = callback)
    ∧ (∀ (options : OptionsArg F) (xs : List S),
        (normalizeArgs (Sources.array xs) options callback).collections = xs
          ∧ (normalizeArgs (Sources.array xs) options callback).multiple = true)
    ∧ (∀ (options : OptionsArg F) (s : S),
        (normalizeArgs (Sources.single s) options callback).collections = [s]
          ∧ (normalizeArgs (Sources.single s) options callback).multiple = false) :=
  ⟨rfl, rfl, fun _ => ⟨rfl, rfl⟩, fun _ => ⟨rfl, rfl⟩, fun _ _ => ⟨rfl, rfl⟩,
    fun _ _ => ⟨rfl, rfl⟩⟩

/-- C20: for a single source the bail option cannot be observed. Whatever the two
options arguments are, if the run of the source has the same outcome under both
then the batch settles the same way under both, at every moment; and once the
run has settled the batch resolves with the run's document if the run
succeeded and rejects with the run's bare error if it failed. -/
theorem single_source_bail_unobservable {S F D E : Type}
    (run : Nat → S → Options → Outcome D E) (s : S) (options1 options2 : OptionsArg F)
    (callback : Option F) (sched : List Nat)
    (hrun : run 0 s (normalizeArgs (Sources.single s) options1 callback).options
        = run 0 s (normalizeArgs (Sources.single s) options2 callback).options) :
    instantiateAndInvoke run (Sources.single s) options1 callback sched
        = instantiateAndInvoke run (Sources.single s) options2 callback sched
    ∧ (0 ∈ sched → ∀ d,
        run 0 s (normalizeArgs (Sources.single s) options1 callback).options
          = Outcome.success d →
        instantiateAndInvoke run (Sources.single s) options1 callback sched
            = some (Settled.resolved (Result.single (Item.doc d)))
          ∧ instantiateAndInvoke run (Sources.single s) options2 callback sched
            = some (Settled.resolved (Result.single (Item.doc d))))
    ∧ (0 ∈ sched → ∀ e,
        run 0 s (normalizeArgs (Sources.single s) options1 callback).options
          = Outcome.failure e →
        instantiateAndInvoke run (Sources.single s) options1 callback sched
            = some (Settled.rejected (Result.single (Item.error e)))
          ∧ instantiateAndInvoke run (Sources.single s) options2 callback sched
            = some (Settled.rejected (Result.single (Item.error e)))) := by
  rw [instantiateAndInvoke_single run s options1 callback sched,
    instantiateAndInvoke_single run s options2 callback sched, ← hrun]
  refine ⟨rfl, ?_, ?_⟩
  · intro h0 d hd
    simp only [h0, if_true, hd, and_self]
  · intro h0 e he
    simp only [h0, if_true, he, and_self]

/-- Witness for C20: a failing run rejects the batch with its bare error with and
without bail. -/
theorem single_source_bail_unobservable_witness :
    instantiateAndInvoke (fun _ _ _ => (Outcome.failure "invalid" : Outcome String String))
        (Sources.single "a.json")
        (OptionsArg.object { bail := true, other := [] } : OptionsArg Unit) none [0]
      = instantiateAndInvoke (fun _ _ _ => (Outcome.failure "invalid" : Outcome String String))
        (Sources.single "a.json")
        (OptionsArg.object { bail := false, other := [] } : OptionsArg Unit) none [0] :=
  (single_source_bail_unobservable
    (fun _ _ _ => (Outcome.failure "invalid" : Outcome String String)) "a.json"
    (OptionsArg.object { bail := true, other := [] } : OptionsArg Unit)
    (OptionsArg.object { bail := false, other := [] } : OptionsArg Unit) none [0] rfl).1

/-! ### Claims on the command line -/

/-- Counterexample for C15: for the source `collection.json` with `--out ./dist` and
the default format, the path computed is not the text `./dist/collection.json`:
`path.join` normalizes the leading `./` away. -/
theorem output_path_is_normalized :
    ¬ getOutputPath "collection.json" outDistOptions = "./dist/collection.json" := by
  decide

/-- C15 (amended): with no requested destination (`out` absent or empty) the
destination is `stdout`; when the requested destination has a file extension
the result is exactly that destination, for every source; otherwise the result
is `path.join(out, file)` without as many of its last characters as the
extension of that joined path has, followed by `.yaml` when YAML is requested
and `.json` otherwise, so that a joined path without extension gets the
extension appended. -/
theorem getOutputPath_cases (file : String) (options : CliOptions) :
    (options.out = none ∨ options.out = some "" → getOutputPath file options = "stdout")
    ∧ (∀ out, options.out = some out → out ≠ "" → pathExtname out ≠ "" →
        getOutputPath file options = out)
    ∧ (∀ out, options.out = some out → out ≠ "" → pathExtname out = "" →
        getOutputPath file options
          = String.mk ((pathJoin out file).data.take
              ((pathJoin out file).length - (pathExtname (pathJoin out file)).length))
            ++ (if options.yaml.truthy then ".yaml" else ".json"))
    ∧ (∀ out, options.out = some out → out ≠ "" → pathExtname out = "" →
        pathExtname (pathJoin out file) = "" →
        getOutputPath file options
          = pathJoin out file ++ (if options.yaml.truthy then ".yaml" else ".json")) := by
  have h3 : ∀ out, options.out = some out → out ≠ "" → pathExtname out = "" →
      getOutputPath file options
        = String.mk ((pathJoin out file).data.take
            ((pathJoin out file).length - (pathExtname (pathJoin out file)).length))
          ++ (if options.yaml.truthy then ".yaml" else ".json") := by
    intro out ho hne hext
    simp [getOutputPath, ho, hne, hext]
  refine ⟨?_, ?_, h3, ?_⟩
  · rintro (h | h) <;> simp [getOutputPath, h]
  · intro out ho hne hext
    simp [getOutputPath, ho, hne, hext]
  · intro out ho hne hext hj
    rw [h3 out ho hne hext, hj]
    have : ("" : String).length = 0 := rfl
    rw [this, Nat.sub_zero]
    have h5 : (pathJoin out file).data.take (pathJoin out file).length
        = (pathJoin out file).data := by
      rw [String.length]
      exact List.take_length _
    rw [h5]

/-- Witness for C15: the source `collection.json` with `--out ./dist` and the
default format goes to `dist/collection.json`, and with `--yaml` to
`dist/collection.yaml`. -/
theorem getOutputPath_cases_witness :
    getOutputPath "collection.json" outDistOptions = "dist/collection.json"
    ∧ getOutputPath "collection.json" { outDistOptions with yaml := CliValue.flag }
        = "dist/collection.yaml" :=
  ⟨(getOutputPath_cases "collection.json" outDistOptions).2.2.1 "./dist" rfl
      (by decide) (by decide),
   (getOutputPath_cases "collection.json"
      { outDistOptions with yaml := CliValue.flag }).2.2.1 "./dist" rfl
      (by decide) (by decide)⟩

/-- Counterexample for C19: the integer 0 given as the value of `--json` is not the
indentation used, and neither is the integer 3 given as the value of `--yaml`
next to a bare `--json`: in both cases the indentation is 2. -/
theorem indent_not_always_requested :
    parseInt (CliValue.value "0") = some 0
    ∧ serializeIndent { outDistOptions with json := CliValue.value "0" } = 2
    ∧ parseInt (CliValue.value "3") = some 3
    ∧ serializeIndent
        { outDistOptions with json := CliValue.flag, yaml := CliValue.value "3" } = 2 := by
  decide

/-- C19 (amended): `serialize` calls the YAML serializer iff the `yaml` option is
truthy and the JSON serializer otherwise, with the indentation
`serializeIndent`, and hands on its text, or wraps its error. The option
consulted for the indentation is `--json` when it is truthy and `--yaml`
otherwise; when `parseInt` reads a non-zero integer `n` from it the indentation
is `n`; when both options are absent or bare flags the indentation is 2. -/
theorem serialize_indent_and_format {X Err : Type} (lib : Stringifiers X Err) (x : X)
    (options : CliOptions) :
    (options.yaml.truthy = true →
        (∀ text, lib.yaml x (serializeIndent options) = Except.ok text →
          serialize lib x options = Except.ok text)
        ∧ (∀ err, lib.yaml x (serializeIndent options) = Except.error err →
          serialize lib x options = Except.error
            { inner := err, message := "An error occurred while serializing the results" }))
    ∧ (options.yaml.truthy = false →
        (∀ text, lib.json x (serializeIndent options) = Except.ok text →
          serialize lib x options = Except.ok text)
        ∧ (∀ err, lib.json x (serializeIndent options) = Except.error err →
          serialize lib x options = Except.error
            { inner := err, message := "An error occurred while serializing the results" }))
    ∧ (∀ n : Int, n ≠ 0 →
        (options.json.truthy = true → parseInt options.json = some n →
          serializeIndent options = n)
        ∧ (options.json.truthy = false → parseInt options.yaml = some n →
          serializeIndent options = n))
    ∧ ((options.json = CliValue.absent ∨ options.json = CliValue.flag) →
        (options.yaml = CliValue.absent ∨ options.yaml = CliValue.flag) →
        serializeIndent options = 2) := by
  refine ⟨?_, ?_, ?_, ?_⟩
  · intro hy
    constructor
    · intro text h
      simp [serialize, hy, h]
    · intro err h
      simp [serialize, hy, h]
  · intro hy
    constructor
    · intro text h
      simp [serialize, hy, h]
    · intro err h
      simp [serialize, hy, h]
  · intro n hn
    constructor
    · intro hj hp
      simp [serializeIndent, CliValue.or, hj, hp, hn]
    · intro hj hp
      simp [serializeIndent, CliValue.or, hj, hp, hn]
  · rintro (hj | hj) (hy | hy) <;>
      simp [serializeIndent, CliValue.or, hj, hy, CliValue.truthy, parseInt]

/-- Witness for C19: `--json 4` gives indentation 4, and no option at all gives 2. -/
theorem serialize_indent_and_format_witness :
    serializeIndent { outDistOptions with json := CliValue.value "4" } = 4
    ∧ serializeIndent outDistOptions = 2 :=
  ⟨((serialize_indent_and_format
        ({ json := fun _ _ => Except.ok "", yaml := fun _ _ => Except.ok "" } :
          Stringifiers Unit Unit) ()
        { outDistOptions with json := CliValue.value "4" }).2.2.1 4 (by decide)).1
      (by decide) (by decide),
   (serialize_indent_and_format
        ({ json := fun _ _ => Except.ok "", yaml := fun _ _ => Except.ok "" } :
          Stringifiers Unit Unit) ()
        outDistOptions).2.2.2 (Or.inl rfl) (Or.inl rfl)⟩

/-- C16: when the glob expansion matches no file, `expandGlobs` sets the exit code
`E_NO_FILES`, but both commands then end with the exit code `E_INVALID`:
`showResults` overwrites it. The three codes are distinct, and the exit code is
0 when the files are found and every operation resolves. -/
theorem no_files_exit_code {D E Err : Type} :
    ((expandGlobs [] (Process.start : Process E Err)).1.exitCode = E_NO_FILES)
    ∧ (∀ (bail : Bool) (validated : List String → Bool → BatchSettled D E Err),
        (validateCommand [] bail validated).exitCode = E_INVALID
          ∧ (validateCommand [] bail validated).exited = true)
    ∧ (∀ (lib : Stringifiers (Result D E) Err) (options : CliOptions)
        (validated bundled : List String → Bool → BatchSettled D E Err),
        (bundleCommand lib [] options validated bundled).exitCode = E_INVALID
          ∧ (bundleCommand lib [] options validated bundled).exited = true)
    ∧ (E_NO_FILES ≠ E_INVALID ∧ E_NO_FILES ≠ E_OTHER ∧ E_INVALID ≠ E_OTHER)
    ∧ (∀ (file : String) (files : List String) (bail : Bool) (results : List (Item D E))
        (validated : List String → Bool → BatchSettled D E Err),
        validated (file :: files) bail = BatchSettled.resolved results →
        (validateCommand (file :: files) bail validated).exitCode = 0) := by
  refine ⟨rfl, fun _ _ => ⟨rfl, rfl⟩, fun _ _ _ _ => ⟨rfl, rfl⟩,
    ⟨by decide, by decide, by decide⟩, ?_⟩
  intro file files bail results validated h
  simp [validateCommand, expandGlobs, h, showResults, Process.start]

/-! ### Lemmas on `showResults` -/

theorem groupResults_from {D E Err : Type} :
    ∀ (results : List (Item D E)) (n : Nat) (g : Grouping E Err),
      (results.enumFrom n).foldl (fun g p => groupResult g p.1 p.2) g
        = { passed := g.passed ++ indicesFrom (fun r => !r.isError) n results,
            failed := g.failed ++ indicesFrom Item.isError n results,
            printed := g.printed ++ bannersFrom g.failed.length results } := by
  intro results
  induction results with
  | nil => intro n g; simp [indicesFrom, bannersFrom]
  | cons r rs ih =>
    intro n g
    rw [List.enumFrom_cons, List.foldl_cons, ih]
    cases r with
    | doc d => simp [groupResult, indicesFrom, bannersFrom, Item.isError]
    | undefined => simp [groupResult, indicesFrom, bannersFrom, Item.isError]
    | error e => simp [groupResult, indicesFrom, bannersFrom, Item.isError]

theorem groupResults_eq {D E Err : Type} (results : List (Item D E)) :
    (groupResults results : Grouping E Err)
      = { passed := passedIndices results,
          failed := failedIndices results,
          printed := bannersFrom 0 results } := by
  have h := groupResults_from results 0
    ({ passed := [], failed := [], printed := [] } : Grouping E Err)
  simpa [groupResults, List.enum, passedIndices, failedIndices] using h

theorem indicesFrom_length {D E : Type} (keep : Item D E → Bool) :
    ∀ (results : List (Item D E)) (n : Nat),
      (indicesFrom keep n results).length = results.countP keep := by
  intro results
  induction results with
  | nil => intro n; rfl
  | cons r rs ih =>
    intro n
    by_cases hk : keep r = true
    · simp [indicesFrom, hk, ih, List.countP_cons_of_pos]
    · simp [indicesFrom, hk, ih, List.countP_cons_of_neg]

theorem mem_indicesFrom {D E : Type} (keep : Item D E → Bool) :
    ∀ (results : List (Item D E)) (n i : Nat),
      i ∈ indicesFrom keep n results
        ↔ ∃ j r, results[j]? = some r ∧ keep r = true ∧ i = n + j := by
  intro results
  induction results with
  | nil => intro n i; simp [indicesFrom]
  | cons r rs ih =>
    intro n i
    have hrest : i ∈ indicesFrom keep (n + 1) rs
        ↔ ∃ j r2, (r :: rs)[j + 1]? = some r2 ∧ keep r2 = true ∧ i = n + (j + 1) := by
      rw [ih]
      constructor
      · rintro ⟨j, r2, h1, h2, h3⟩
        exact ⟨j, r2, by simpa using h1, h2, by omega⟩
      · rintro ⟨j, r2, h1, h2, h3⟩
        exact ⟨j, r2, by simpa using h1, h2, by omega⟩
    constructor
    · intro h
      by_cases hk : keep r = true
      · simp only [indicesFrom, hk, if_true, List.mem_cons] at h
        rcases h with h | h
        · exact ⟨0, r, List.getElem?_cons_zero, hk, by omega⟩
        · obtain ⟨j, r2, h1, h2, h3⟩ := hrest.1 h
          exact ⟨j + 1, r2, h1, h2, h3⟩
      · simp only [indicesFrom, hk, if_false] at h
        obtain ⟨j, r2, h1, h2, h3⟩ := hrest.1 h
        exact ⟨j + 1, r2, h1, h2, h3⟩
    · rintro ⟨j, r2, h1, h2, h3⟩
      cases j with
      | zero =>
        simp only [List.getElem?_cons_zero, Option.some.injEq] at h1
        subst h1
        simp [indicesFrom, h2, h3]
      | succ j =>
        have hm := hrest.2 ⟨j, r2, h1, h2, h3⟩
        by_cases hk : keep r = true
        · simp only [indicesFrom, hk, if_true, List.mem_cons]
          exact Or.inr hm
        · simp only [indicesFrom, hk, if_false]
          exact hm

theorem indicesFrom_pairwise {D E : Type} (keep : Item D E → Bool) :
    ∀ (results : List (Item D E)) (n : Nat),
      (indicesFrom keep n results).Pairwise (· < ·) := by
  intro results
  induction results with
  | nil => intro n; simp [indicesFrom]
  | cons r rs ih =>
    intro n
    by_cases hk : keep r = true
    · simp only [indicesFrom, hk, if_true, List.pairwise_cons]
      refine ⟨?_, ih (n + 1)⟩
      intro i hi
      obtain ⟨j, _, _, _, h3⟩ := (mem_indicesFrom keep rs (n + 1) i).1 hi
      omega
    · simp only [indicesFrom, hk, if_false]
      exact ih (n + 1)

theorem bannersFrom_getElem? {D E Err : Type} :
    ∀ (results : List (Item D E)) (c j : Nat) (out : Output E Err),
      (bannersFrom c results : List (Output E Err))[j]? = some out →
      ∃ err, out = Output.banner (c + j + 1) err := by
  intro results
  induction results with
  | nil => intro c j out h; simp [bannersFrom] at h
  | cons r rs ih =>
    intro c j out h
    cases r with
    | doc d => exact ih c j out (by simpa [bannersFrom] using h)
    | undefined => exact ih c j out (by simpa [bannersFrom] using h)
    | error e =>
      cases j with
      | zero =>
        simp only [bannersFrom, List.getElem?_cons_zero, Option.some.injEq] at h
        exact ⟨e, h.symm⟩
      | succ j =>
        simp only [bannersFrom, List.getElem?_cons_succ] at h
        obtain ⟨err, herr⟩ := ih (c + 1) j out h
        exact ⟨err, by rw [herr]; congr 1; omega⟩

theorem bannersFrom_length {D E Err : Type} :
    ∀ (results : List (Item D E)) (c : Nat),
      (bannersFrom c results : List (Output E Err)).length = results.countP Item.isError := by
  intro results
  induction results with
  | nil => intro c; rfl
  | cons r rs ih =>
    intro c
    cases r with
    | doc d => simp [bannersFrom, Item.isError, ih]
    | undefined => simp [bannersFrom, Item.isError, ih]
    | error e => simp [bannersFrom, Item.isError, ih]

theorem countP_isError_add {D E : Type} (results : List (Item D E)) :
    results.countP (fun r => !r.isError) + results.countP Item.isError = results.length := by
  induction results with
  | nil => rfl
  | cons r rs ih =>
    rw [List.countP_cons, List.countP_cons, List.length_cons]
    cases hr : r.isError <;> simp <;> omega

/-- Without an `errorFn`, an error in the array gets its banner and is counted in
the summary, and `errorFn` is called on no index. -/
theorem showResults_without_errorFn :
    (showResults (CliResults.array [Item.error "boom"] : CliResults String String Unit)
        false Process.start).output
      = [Output.banner 1 "boom", Output.summary "\n0 succeeded, 1 failed"] := by
  rfl

/-- What `showResults` prints for an array, with or without an `errorFn`: the
banners, the calls of `successFn`, the calls of `errorFn` when one was passed,
and the summary, with the counts and the indices of both groups. -/
theorem showResults_summary {D E Err : Type} (results : List (Item D E)) (errorFn : Bool)
    (p : Process E Err) :
    (showResults (CliResults.array results) errorFn p).output
        = p.output ++ bannersFrom 0 results
          ++ (passedIndices results).map Output.success
          ++ (if errorFn then (failedIndices results).map Output.failure else [])
          ++ [Output.summary
                (summaryText (passedIndices results).length (failedIndices results).length)]
    ∧ (failedIndices results).length = results.countP Item.isError
    ∧ (passedIndices results).length = results.countP (fun r => !r.isError)
    ∧ (passedIndices results).length + (failedIndices results).length = results.length
    ∧ (∀ i, i ∈ passedIndices results ↔ ∃ r, results[i]? = some r ∧ r.isError = false)
    ∧ (∀ i, i ∈ failedIndices results ↔ ∃ r, results[i]? = some r ∧ r.isError = true)
    ∧ (passedIndices results).Pairwise (· < ·)
    ∧ (failedIndices results).Pairwise (· < ·)
    ∧ (∀ (j : Nat) (out : Output E Err),
        (bannersFrom 0 results : List (Output E Err))[j]? = some out →
        ∃ err, out = Output.banner (j + 1) err)
    ∧ (bannersFrom 0 results : List (Output E Err)).length = (failedIndices results).length := by
  have hf : (failedIndices results).length = results.countP Item.isError :=
    indicesFrom_length _ results 0
  have hp : (passedIndices results).length = results.countP (fun r => !r.isError) :=
    indicesFrom_length _ results 0
  refine ⟨?_, hf, hp, ?_, ?_, ?_, indicesFrom_pairwise _ results 0,
    indicesFrom_pairwise _ results 0, ?_, ?_⟩
  · simp only [showResults, groupResults_eq]
    cases errorFn <;> simp
  · rw [hf, hp]
    exact countP_isError_add results
  · intro i
    rw [passedIndices, mem_indicesFrom]
    constructor
    · rintro ⟨j, r, h1, h2, h3⟩
      have : i = j := by omega
      subst this
      exact ⟨r, h1, by simpa using h2⟩
    · rintro ⟨r, h1, h2⟩
      exact ⟨i, r, h1, by simpa using h2, by omega⟩
  · intro i
    rw [failedIndices, mem_indicesFrom]
    constructor
    · rintro ⟨j, r, h1, h2, h3⟩
      have : i = j := by omega
      subst this
      exact ⟨r, h1, h2⟩
    · rintro ⟨r, h1, h2⟩
      exact ⟨i, r, h1, h2, by omega⟩
  · intro j out h
    obtain ⟨err, herr⟩ := bannersFrom_getElem? results 0 j out h
    exact ⟨err, by rw [herr]; congr 1; omega⟩
  · rw [bannersFrom_length, hf]

/-! ### What the command line can hand to `showResults` -/

/-- With bail, the slots of the aggregate promise are filled by runs that succeeded
only, and the flag is never set. -/
theorem settleAll_bail_invariant {D E : Type} (outcomes : List (Outcome D E))
    (sched : List Nat) :
    ∀ (st : BatchState D E),
      ((∃ P, st.all = AllState.ofValues (slots outcomes P)
          ∧ ∀ i ∈ P, failsAt outcomes i = false)
        ∨ ∃ e, st.all = AllState.rejected e) →
      ((∃ P, (st.settleAll true outcomes sched).all = AllState.ofValues (slots outcomes P)
          ∧ ∀ i ∈ P, failsAt outcomes i = false)
        ∨ ∃ e, (st.settleAll true outcomes sched).all = AllState.rejected e)
      ∧ (st.settleAll true outcomes sched).error = st.error := by
  induction sched with
  | nil => intro st h; exact ⟨by simpa [settleAll_nil] using h, rfl⟩
  | cons i sched ih =>
    intro st h
    rw [settleAll_cons]
    cases ho : outcomes[i]? with
    | none => exact ih st h
    | some o =>
      cases o with
      | success d =>
        have hstep : ((∃ P, (st.settleRun true i (Outcome.success d)).all
              = AllState.ofValues (slots outcomes P)
              ∧ ∀ j ∈ P, failsAt outcomes j = false)
            ∨ ∃ e, (st.settleRun true i (Outcome.success d)).all = AllState.rejected e) := by
          rcases h with ⟨P, hP, hno⟩ | ⟨e, he⟩
          · left
            refine ⟨i :: P, ?_, ?_⟩
            · simp only [BatchState.settleRun]
              rw [hP]
              exact resolveElement_ofValues_slots outcomes P i (Outcome.success d) ho
            · intro j hj
              rcases List.mem_cons.1 hj with hj | hj
              · subst hj
                simp [failsAt, ho, Outcome.isFailure]
              · exact hno j hj
          · right
            exact ⟨e, by simp [BatchState.settleRun, he, AllState.resolveElement]⟩
        obtain ⟨h1, h2⟩ := ih _ hstep
        exact ⟨h1, by rw [h2]; rfl⟩
      | failure e2 =>
        have hstep : ((∃ P, (st.settleRun true i (Outcome.failure e2)).all
              = AllState.ofValues (slots outcomes P)
              ∧ ∀ j ∈ P, failsAt outcomes j = false)
            ∨ ∃ e, (st.settleRun true i (Outcome.failure e2)).all = AllState.rejected e) := by
          rcases h with ⟨P, hP, hno⟩ | ⟨e, he⟩
          · simp only [BatchState.settleRun, if_true]
            rw [hP]
            rcases ofValues_slots_cases outcomes P with h1 | h1
            · right; exact ⟨e2, by rw [h1]; rfl⟩
            · left; exact ⟨P, by rw [h1]; rfl, hno⟩
          · right
            exact ⟨e, by simp [BatchState.settleRun, he, AllState.reject]⟩
        obtain ⟨h1, h2⟩ := ih _ hstep
        exact ⟨h1, by rw [h2]; rfl⟩

theorem toItem_isError {D E : Type} (o : Outcome D E) : o.toItem.isError = o.isFailure := by
  cases o <;> rfl

theorem no_error_of_no_failure {D E : Type} (outcomes : List (Outcome D E))
    (h : ∀ i, i < outcomes.length → failsAt outcomes i = false) :
    ∀ x ∈ outcomes.map Outcome.toItem, x.isError = false := by
  intro x hx
  obtain ⟨o, ho, hxo⟩ := List.mem_map.1 hx
  obtain ⟨i, hi⟩ := List.getElem?_of_mem ho
  have hlt : i < outcomes.length := (List.getElem?_eq_some.1 hi).1
  have := h i hlt
  simp only [failsAt, hi] at this
  rw [← hxo, toItem_isError, this]

theorem fulfilled_of_ofValues_slots {D E : Type} (outcomes : List (Outcome D E)) (P : List Nat)
    (vs : List (Item D E))
    (h : AllState.ofValues (slots outcomes P) = AllState.fulfilled vs) :
    vs = outcomes.map Outcome.toItem ∧ ∀ i, i < outcomes.length → i ∈ P := by
  by_cases hall : (slots outcomes P).all Option.isSome = true
  · have hmem := mem_of_slots_all outcomes P hall
    rw [ofValues_full outcomes P hmem] at h
    injection h with h2
    exact ⟨h2.symm, hmem⟩
  · have : AllState.ofValues (slots outcomes P) = AllState.pending (slots outcomes P) := by
      simp only [AllState.ofValues, hall]; rfl
    rw [this] at h
    cases h

/-- Whenever the batch on an array of sources resolves, with or without bail, the
value it resolves with is an array that holds no error: a failed run makes the
batch reject. -/
theorem resolved_array_has_no_error {S F D E : Type}
    (run : Nat → S → Options → Outcome D E) (srcs : List S) (options : OptionsArg F)
    (callback : Option F) (sched : List Nat) (r : Result D E)
    (h : instantiateAndInvoke run (Sources.array srcs) options callback sched
      = some (Settled.resolved r)) :
    ∃ xs, r = Result.array xs ∧ xs.length = srcs.length ∧ ∀ x ∈ xs, x.isError = false := by
  have hc : (normalizeArgs (Sources.array srcs) options callback).collections = srcs := rfl
  have hm : (normalizeArgs (Sources.array srcs) options callback).multiple = true := rfl
  simp only [instantiateAndInvoke] at h
  rw [hc, hm] at h
  generalize (normalizeArgs (Sources.array srcs) options callback).options = opts at h
  have hlen := runOutcomes_length run srcs opts
  generalize runOutcomes run srcs opts = outcomes at hlen h
  cases hb : opts.bail with
  | false =>
    rw [hb] at h
    obtain ⟨h1, h2⟩ := settleAll_collect false outcomes sched (BatchState.init outcomes.length) []
      (Or.inl rfl) (init_all outcomes)
    have h3 : (BatchState.init outcomes.length : BatchState D E).error = false := rfl
    rw [h3, Bool.false_or] at h2
    generalize BatchState.settleAll false outcomes sched (BatchState.init outcomes.length)
      = fin at h h1 h2
    simp only [BatchState.completion] at h
    rcases ofValues_slots_cases outcomes (sched.reverse ++ []) with hp | hf
    · rw [h1, hp] at h; cases h
    · obtain ⟨_, hcover⟩ := fulfilled_of_ofValues_slots outcomes _ _ hf
      rw [h1, hf] at h
      cases herr : fin.error with
      | true => rw [herr] at h; simp at h
      | false =>
        rw [herr] at h
        simp at h
        refine ⟨outcomes.map Outcome.toItem, h.symm, by simp [hlen], ?_⟩
        apply no_error_of_no_failure
        intro i hi
        rw [herr] at h2
        cases hfa : failsAt outcomes i with
        | false => rfl
        | true =>
          have hmem : i ∈ sched := by simpa using hcover i hi
          have : sched.any (failsAt outcomes) = true :=
            List.any_eq_true.2 ⟨i, hmem, hfa⟩
          rw [this] at h2
          cases h2
  | true =>
    rw [hb] at h
    obtain ⟨h1, h2⟩ := settleAll_bail_invariant outcomes sched (BatchState.init outcomes.length)
      (Or.inl ⟨[], init_all outcomes, by simp⟩)
    have h3 : (BatchState.init outcomes.length : BatchState D E).error = false := rfl
    rw [h3] at h2
    generalize BatchState.settleAll true outcomes sched (BatchState.init outcomes.length)
      = fin at h h1 h2
    simp only [BatchState.completion] at h
    rcases h1 with ⟨P, hP, hno⟩ | ⟨e, he⟩
    · rcases ofValues_slots_cases outcomes P with hp | hf
      · rw [hP, hp] at h; cases h
      · obtain ⟨_, hcover⟩ := fulfilled_of_ofValues_slots outcomes _ _ hf
        rw [hP, hf, h2] at h
        simp at h
        refine ⟨outcomes.map Outcome.toItem, h.symm, by simp [hlen], ?_⟩
        apply no_error_of_no_failure
        intro i hi
        exact hno i (hcover i hi)
    · rw [he] at h
      simp at h

theorem failedIndices_of_no_error {D E : Type} (results : List (Item D E))
    (h : ∀ r ∈ results, r.isError = false) : failedIndices results = [] := by
  apply List.eq_nil_of_length_eq_zero
  rw [failedIndices, indicesFrom_length, List.countP_eq_zero]
  intro r hr
  simp [h r hr]

/-- C17: for every result array of length N that `showResults` is handed (with an
`errorFn`, or without one the resolved value of the library, which holds no
error), the summary printed is `<p> succeeded, <f> failed` with f the number of
elements that are errors and p the number that are not, so p + f = N; every
index is reported exactly once, the successes through `successFn` before the
failures through `errorFn`, each group in ascending index order; and the k-th
detailed error banner is numbered k. -/
theorem showResults_reports_every_index {D E Err : Type} (results : List (Item D E))
    (errorFn : Bool) (p : Process E Err)
    (hcall : errorFn = false → ∀ r ∈ results, r.isError = false) :
    (showResults (CliResults.array results) errorFn p).output
        = p.output ++ bannersFrom 0 results
          ++ (passedIndices results).map Output.success
          ++ (failedIndices results).map Output.failure
          ++ [Output.summary
                (summaryText (passedIndices results).length (failedIndices results).length)]
    ∧ (failedIndices results).length = results.countP Item.isError
    ∧ (passedIndices results).length = results.countP (fun r => !r.isError)
    ∧ (passedIndices results).length + (failedIndices results).length = results.length
    ∧ (∀ i, i ∈ passedIndices results ↔ ∃ r, results[i]? = some r ∧ r.isError = false)
    ∧ (∀ i, i ∈ failedIndices results ↔ ∃ r, results[i]? = some r ∧ r.isError = true)
    ∧ (passedIndices results).Pairwise (· < ·)
    ∧ (failedIndices results).Pairwise (· < ·)
    ∧ (∀ (j : Nat) (out : Output E Err),
        (bannersFrom 0 results : List (Output E Err))[j]? = some out →
        ∃ err, out = Output.banner (j + 1) err)
    ∧ (bannersFrom 0 results : List (Output E Err)).length = (failedIndices results).length := by
  obtain ⟨h1, h2, h3, h4, h5, h6, h7, h8, h9, h10⟩ := showResults_summary results errorFn p
  refine ⟨?_, h2, h3, h4, h5, h6, h7, h8, h9, h10⟩
  rw [h1]
  cases errorFn with
  | true => simp
  | false =>
    rw [failedIndices_of_no_error results (hcall rfl)]
    simp

/-- Witness for C17: the results `[validDoc, error]`, handed over with an `errorFn`,
print the banner, report index 0 as success and index 1 as failure, and end
with the summary `1 succeeded, 1 failed`. -/
theorem showResults_reports_every_index_witness :
    (showResults (CliResults.array [Item.doc "validDoc", Item.error "invalid"] :
        CliResults String String Unit) true Process.start).output
      = [Output.banner 1 "invalid", Output.success 0, Output.failure 1,
          Output.summary "\n1 succeeded, 1 failed"] :=
  (showResults_reports_every_index [Item.doc "validDoc", Item.error "invalid"] true
    (Process.start : Process String Unit) (fun h => by cases h)).1

end PostmanCollection
